import Mathlib

/-!
Verification of the `dsa` heap library (binary heap and interval heap).

The C++ headers `binary_heap.hpp` and `interval_heap.hpp` store the heap in a
contiguous zero-indexed sequence `_data` ordered by a strict-weak-order
comparator `_comp`.  We embed the backing sequence as a `List T` and the
comparator as `less : T → T → Bool`; every operation below is a direct
transcription of the corresponding member function, with array reads
`_data[i]` rendered as `List.getI` and writes as `List.set`.
-/

namespace Dsa

/-- Swap positions `i` and `j` of a list (`std::swap(_data[i], _data[j])`). -/
def listSwap {T : Type} [Inhabited T] (l : List T) (i j : Nat) : List T :=
  (l.set i (l.getI j)).set j (l.getI i)

@[simp] theorem listSwap_length {T : Type} [Inhabited T] (l : List T) (i j : Nat) :
    (listSwap l i j).length = l.length := by
  simp [listSwap]

namespace BinaryHeap

variable {T : Type} [Inhabited T]

/-- `BinaryHeap::get_parent`: `(idx - 1) / 2`.  In C++ the subtraction is on
`size_t`; at `idx = 0` it wraps to `2^64 - 1`.  Here we use truncated `Nat`
subtraction; `getParentWrap` below models the exact unsigned arithmetic. -/
def get_parent (idx : Nat) : Nat := (idx - 1) / 2

/-- `BinaryHeap::get_parent` with the exact 64-bit unsigned wraparound. -/
def getParentWrap (idx : Nat) : Nat := ((idx + (2 ^ 64 - 1)) % 2 ^ 64) / 2

/-- `BinaryHeap::get_left`: `2 * idx + 1`. -/
def get_left (idx : Nat) : Nat := 2 * idx + 1

theorem get_parent_lt {idx : Nat} (h : 0 < idx) : get_parent idx < idx := by
  unfold get_parent; omega

variable (less : T → T → Bool)

/-- The loop of `BinaryHeap::bubble_up` after `cur` has been moved out of
`_data[idx]`: while `idx > ROOT && _comp(cur, _data[par])`, shift the parent
down and ascend; finally store `cur` at the resting index. -/
def bubbleUpGo (l : List T) (cur : T) (idx : Nat) : List T :=
  if 0 < idx ∧ less cur (l.getI (get_parent idx)) then
    bubbleUpGo (l.set idx (l.getI (get_parent idx))) cur (get_parent idx)
  else
    l.set idx cur
termination_by idx
decreasing_by exact get_parent_lt (by omega)

/-- `BinaryHeap::bubble_up`. -/
def bubble_up (l : List T) (idx : Nat) : List T :=
  bubbleUpGo less l (l.getI idx) idx

/-- Smaller-child selection of `BinaryHeap::bubble_down` /
`move_hole_down`: `if (child + 1 < n && _comp(_data[child+1], _data[child])) child++`. -/
def pickChild (l : List T) (child : Nat) : Nat :=
  if child + 1 < l.length ∧ less (l.getI (child + 1)) (l.getI child) then child + 1
  else child

theorem pickChild_lb (l : List T) (child : Nat) : child ≤ pickChild less l child := by
  unfold pickChild; split <;> omega

theorem pickChild_ub {l : List T} {child : Nat} (h : child < l.length) :
    pickChild less l child < l.length := by
  unfold pickChild; split <;> omega

/-- The loop of `BinaryHeap::bubble_down` after `cur` has been moved out of
`_data[idx]`: descend to the smaller child while it is below `cur`. -/
def bubbleDownGo (l : List T) (cur : T) (idx : Nat) : List T :=
  if h : get_left idx < l.length then
    if less (l.getI (pickChild less l (get_left idx))) cur then
      bubbleDownGo (l.set idx (l.getI (pickChild less l (get_left idx)))) cur
        (pickChild less l (get_left idx))
    else
      l.set idx cur
  else
    l.set idx cur
termination_by l.length - idx
decreasing_by
  have h1 := pickChild_lb less l (get_left idx)
  have h2 := pickChild_ub less h
  simp only [List.length_set]
  unfold get_left at *
  omega

/-- `BinaryHeap::bubble_down`. -/
def bubble_down (l : List T) (idx : Nat) : List T :=
  bubbleDownGo less l (l.getI idx) idx

/-- The loop of `BinaryHeap::move_hole_down`: promote the smaller child into
the hole until the hole reaches a leaf; return the final sequence and the
hole's index. -/
def moveHoleDownGo (l : List T) (idx : Nat) : List T × Nat :=
  if h : get_left idx < l.length then
    moveHoleDownGo (l.set idx (l.getI (pickChild less l (get_left idx))))
      (pickChild less l (get_left idx))
  else
    (l, idx)
termination_by l.length - idx
decreasing_by
  have h1 := pickChild_lb less l (get_left idx)
  have h2 := pickChild_ub less h
  simp only [List.length_set]
  unfold get_left at *
  omega

/-- `BinaryHeap::move_hole_down` started at the root. -/
def move_hole_down (l : List T) (idx : Nat) : List T × Nat :=
  moveHoleDownGo less l idx

/-- `BinaryHeap::push`: append, then bubble up from the last index. -/
def push (l : List T) (elem : T) : List T :=
  bubble_up less (l ++ [elem]) l.length

/-- `BinaryHeap::pop` on a non-empty heap: move the hole down from the root;
if the hole ends at the last slot just shrink, otherwise move the last
element into the hole, shrink, and bubble up.  (The `assert(!empty())`
is modelled by `popChecked`.) -/
def pop (l : List T) : List T :=
  let p := move_hole_down less l 0
  if p.2 + 1 = p.1.length then
    p.1.dropLast
  else
    bubble_up less ((p.1.set p.2 (p.1.getI (p.1.length - 1))).dropLast) p.2

/-- `BinaryHeap::replace_top`: overwrite the root and bubble down. -/
def replace_top (l : List T) (val : T) : List T :=
  bubble_down less (l.set 0 val) 0

/-- The constructor loop of `BinaryHeap::heapify`:
`for (i = size/2 - 1; i >= 0; i--) bubble_down(i)`; the argument is one past
the next index to process. -/
def heapifyFrom (l : List T) : Nat → List T
  | 0 => l
  | i + 1 => heapifyFrom (bubble_down less l i) i

/-- `BinaryHeap::heapify`. -/
def heapify (l : List T) : List T :=
  heapifyFrom less l (l.length / 2)

/-- `BinaryHeap::top` (= `min`): `assert(!empty()); return _data[ROOT]`,
modelled as `none` exactly when the assertion fires. -/
def top? (l : List T) : Option T :=
  if l.length = 0 then none else some (l.getI 0)

/-- `BinaryHeap::pop` including its `assert(!empty())`. -/
def popChecked (l : List T) : Option (List T) :=
  if l.length = 0 then none else some (pop less l)

/-- `BinaryHeap::replace_top` including its `assert(!empty())`. -/
def replaceTopChecked (l : List T) (val : T) : Option (List T) :=
  if l.length = 0 then none else some (replace_top less l val)

/-- `BinaryHeap::empty`. -/
def emptyq (l : List T) : Bool := l.length = 0

/-- `BinaryHeap::size`. -/
def size (l : List T) : Nat := l.length

end BinaryHeap

namespace IntervalHeap

variable {T : Type} [Inhabited T]

/-- `IntervalHeap::get_parent`: `(idx - 2) / 4 * 2` on `size_t`
(truncated `Nat` subtraction here; the wraparound at `idx < 2` is modelled
by `getParentWrap`). -/
def get_parent (idx : Nat) : Nat := (idx - 2) / 4 * 2

/-- `IntervalHeap::get_parent` with the exact 64-bit unsigned wraparound. -/
def getParentWrap (idx : Nat) : Nat := ((idx + (2 ^ 64 - 2)) % 2 ^ 64) / 4 * 2

/-- `IntervalHeap::get_left`: `(idx + 1) * 2`. -/
def get_left (idx : Nat) : Nat := (idx + 1) * 2

/-- `IntervalHeap::is_min`. -/
def is_min (idx : Nat) : Bool := idx % 2 = 0

/-- `IntervalHeap::is_max`. -/
def is_max (idx : Nat) : Bool := idx % 2 = 1

theorem iparent_lt {idx : Nat} (h : 1 < get_parent idx) : get_parent idx < idx := by
  unfold get_parent at *; omega

theorem get_parent_succ_lt {idx : Nat} (h : 1 < get_parent idx + 1) :
    get_parent idx + 1 < idx := by
  unfold get_parent at *; omega

variable (less : T → T → Bool)

/-- The min-chain do-while loop of `IntervalHeap::bubble_up`: entered when
`idx > ROOT + 1 && _comp(cur, _data[par])` already held; the body moves the
parent min down (`_data[idx] = move(_data[par]); idx = par`), then the
do-while condition is re-checked. -/
def bubbleUpMinGo (l : List T) (cur : T) (idx : Nat) : List T :=
  if 1 < get_parent idx ∧
      less cur ((l.set idx (l.getI (get_parent idx))).getI (get_parent (get_parent idx))) then
    bubbleUpMinGo (l.set idx (l.getI (get_parent idx))) cur (get_parent idx)
  else
    (l.set idx (l.getI (get_parent idx))).set (get_parent idx) cur
termination_by idx
decreasing_by exact iparent_lt (by omega)

/-- The max-chain do-while loop of `IntervalHeap::bubble_up`: entered when
`idx > ROOT + 1 && _comp(_data[par + 1], cur)` already held; the hole at
`idx` receives the parent max and steps to `get_parent idx + 1`. -/
def bubbleUpMaxGo (l : List T) (cur : T) (idx : Nat) : List T :=
  if 1 < get_parent idx + 1 ∧
      less ((l.set idx (l.getI (get_parent idx + 1))).getI
        (get_parent (get_parent idx + 1) + 1)) cur then
    bubbleUpMaxGo (l.set idx (l.getI (get_parent idx + 1))) cur (get_parent idx + 1)
  else
    (l.set idx (l.getI (get_parent idx + 1))).set (get_parent idx + 1) cur
termination_by idx
decreasing_by exact get_parent_succ_lt (by omega)

/-- Step 1 of `IntervalHeap::bubble_up`: if the element landed in a max slot
and violates the interval property against its node's min slot, swap them
locally (`_data[idx] = move(_data[idx - 1]); idx--`). -/
def reconcileStep (l : List T) (idx : Nat) (cur : T) : List T × Nat :=
  if is_max idx ∧ less cur (l.getI (idx - 1)) then
    (l.set idx (l.getI (idx - 1)), idx - 1)
  else
    (l, idx)

/-- `IntervalHeap::bubble_up`: move `cur` out, locally reconcile a max-slot
landing against its node's min slot, then ascend through at most one of the
min chain and the max chain. -/
def bubble_up (l : List T) (idx : Nat) : List T :=
  let cur := l.getI idx
  let p := reconcileStep less l idx cur
  let l' := p.1
  let idx' := p.2
  let par := get_parent idx'
  if 1 < idx' ∧ less cur (l'.getI par) then
    bubbleUpMinGo less l' cur idx'
  else if 1 < idx' ∧ less (l'.getI (par + 1)) cur then
    bubbleUpMaxGo less l' cur idx'
  else
    l'.set idx' cur

/-- `IntervalHeap::push`. -/
def push (l : List T) (elem : T) : List T :=
  bubble_up less (l ++ [elem]) l.length

/-- Smaller-child selection of `IntervalHeap::bubble_down_min`
(`+2` reaches the right child node's min slot). -/
def pickMinChild (l : List T) (child : Nat) : Nat :=
  if child + 2 < l.length ∧ less (l.getI (child + 2)) (l.getI child) then child + 2
  else child

theorem pickMinChild_lb (l : List T) (child : Nat) : child ≤ pickMinChild less l child := by
  unfold pickMinChild; split <;> omega

theorem pickMinChild_ub {l : List T} {child : Nat} (h : child < l.length) :
    pickMinChild less l child < l.length := by
  unfold pickMinChild; split <;> omega

/-- The node interval fix-up inside `IntervalHeap::bubble_down_min`:
after swapping, if the displaced node violates the interval property, swap
its two slots. -/
def minFix (l : List T) (c : Nat) : List T :=
  if c + 1 < l.length ∧ less (l.getI (c + 1)) (l.getI c) then listSwap l (c + 1) c
  else l

@[simp] theorem minFix_length (l : List T) (c : Nat) :
    (minFix less l c).length = l.length := by
  unfold minFix; split <;> simp

/-- `IntervalHeap::bubble_down_min`. -/
def bubble_down_min (l : List T) (idx : Nat) : List T :=
  if h : get_left idx < l.length then
    if less (l.getI (pickMinChild less l (get_left idx))) (l.getI idx) then
      bubble_down_min
        (minFix less (listSwap l idx (pickMinChild less l (get_left idx)))
          (pickMinChild less l (get_left idx)))
        (pickMinChild less l (get_left idx))
    else
      l
  else
    l
termination_by l.length - idx
decreasing_by
  have h1 := pickMinChild_lb less l (get_left idx)
  have h2 := pickMinChild_ub less h
  simp only [minFix_length, listSwap_length]
  unfold get_left at *
  omega

/-- The post-loop interval fix-up of `IntervalHeap::bubble_down_max`
(`if (idx + 1 < n && _comp(_data[idx+1], _data[idx])) swap`). -/
def maxFix (l : List T) (idx : Nat) : List T :=
  if idx + 1 < l.length ∧ less (l.getI (idx + 1)) (l.getI idx) then
    listSwap l idx (idx + 1)
  else
    l

/-- The interval fix-up inside the loop of `IntervalHeap::bubble_down_max`:
after swapping the parent max into position `child1`, if `child1` is a max
slot below its min sibling, swap them. -/
def childFix (l : List T) (child1 : Nat) : List T :=
  if is_max child1 ∧ less (l.getI child1) (l.getI (child1 - 1)) then
    listSwap l child1 (child1 - 1)
  else
    l

@[simp] theorem childFix_length (l : List T) (c : Nat) :
    (childFix less l c).length = l.length := by
  unfold childFix; split <;> simp

/-- `child1` of `IntervalHeap::bubble_down_max`:
`child + 1 < n ? child + 1 : child`. -/
def maxChild1 (n child : Nat) : Nat := if child + 1 < n then child + 1 else child

/-- `child2` of `IntervalHeap::bubble_down_max`:
`child + 3 < n ? child + 3 : child + 2`. -/
def maxChild2 (n child : Nat) : Nat := if child + 3 < n then child + 3 else child + 2

theorem maxChild2_ge (n c : Nat) : c + 2 ≤ maxChild2 n c := by
  unfold maxChild2; split <;> omega

/-- The loop of `IntervalHeap::bubble_down_max` after the initial `idx--`;
`idx` is the min slot of the current node.  If the right child node's max
candidate exists and is bigger, the loop moves to it
(`child += 2; child1 = child2`). -/
def bubbleDownMaxGo (l : List T) (idx : Nat) : List T :=
  if h : get_left idx < l.length then
    if hc : maxChild2 l.length (get_left idx) < l.length ∧
        less (l.getI (maxChild1 l.length (get_left idx)))
             (l.getI (maxChild2 l.length (get_left idx))) then
      if less (l.getI (idx + 1)) (l.getI (maxChild2 l.length (get_left idx))) then
        bubbleDownMaxGo
          (childFix less (listSwap l (idx + 1) (maxChild2 l.length (get_left idx)))
            (maxChild2 l.length (get_left idx)))
          (get_left idx + 2)
      else
        maxFix less l idx
    else
      if less (l.getI (idx + 1)) (l.getI (maxChild1 l.length (get_left idx))) then
        bubbleDownMaxGo
          (childFix less (listSwap l (idx + 1) (maxChild1 l.length (get_left idx)))
            (maxChild1 l.length (get_left idx)))
          (get_left idx)
      else
        maxFix less l idx
  else
    maxFix less l idx
termination_by l.length - idx
decreasing_by
  · have h2 := maxChild2_ge l.length (get_left idx)
    simp only [childFix_length, listSwap_length]
    unfold get_left at *
    omega
  · simp only [childFix_length, listSwap_length]
    unfold get_left at *
    omega

/-- `IntervalHeap::bubble_down_max` (starts with `idx--`). -/
def bubble_down_max (l : List T) (idx : Nat) : List T :=
  bubbleDownMaxGo less l (idx - 1)

/-- `IntervalHeap::pop_min` on a non-empty heap. -/
def pop_min (l : List T) : List T :=
  let n := l.length
  if n = 1 then
    l.dropLast
  else
    let l' := if n % 2 = 1 then
        l.set 0 (l.getI (n - 1))
      else
        (l.set 0 (l.getI (n - 2))).set (n - 2) (l.getI (n - 1))
    bubble_down_min less l'.dropLast 0

/-- `IntervalHeap::pop_max` on a non-empty heap. -/
def pop_max (l : List T) : List T :=
  let n := l.length
  if n = 1 then
    l.dropLast
  else
    let l' := (l.set 1 (l.getI (n - 1))).dropLast
    if 2 < n then bubble_down_max less l' 1 else l'

/-- `IntervalHeap::balance_node`. -/
def balance_node (l : List T) (idx : Nat) : List T :=
  if less (l.getI (idx + 1)) (l.getI idx) then listSwap l (idx + 1) idx else l

/-- `IntervalHeap::balance_node_check`. -/
def balance_node_check (l : List T) (idx : Nat) : List T :=
  if idx + 1 < l.length then balance_node less l idx else l

/-- `IntervalHeap::replace_min` on a non-empty heap. -/
def replace_min (l : List T) (val : T) : List T :=
  let l' := l.set 0 val
  bubble_down_min less (balance_node_check less l' 0) 0

/-- `IntervalHeap::replace_max` on a non-empty heap. -/
def replace_max (l : List T) (val : T) : List T :=
  if l.length = 1 then
    l.set 0 val
  else
    bubble_down_max less (balance_node less (l.set 1 val) 0) 1

/-- The node-balancing loop of `IntervalHeap::heapify`
(`for (i = 0; i < size - 1; i += 2) balance_node(i)`). -/
def balanceAll (l : List T) (i : Nat) : List T :=
  if i < l.length - 1 then balanceAll (balance_node less l i) (i + 2) else l
termination_by l.length - i
decreasing_by
  simp only [balance_node, listSwap, List.length_set]
  split <;> simp_all [listSwap] <;> omega

/-- The bubble-down loop of `IntervalHeap::heapify`
(`for (i = (size-1)/4*2; i >= 0; i -= 2) { bubble_down_max(i+1); bubble_down_min(i); }`);
the fuel `k` means the next node index to process is `2 * (k - 1)`. -/
def heapifyGo (l : List T) : Nat → List T
  | 0 => l
  | k + 1 => heapifyGo (bubble_down_min less (bubble_down_max less l (2 * k + 1)) (2 * k)) k

/-- `IntervalHeap::heapify`. -/
def heapify (l : List T) : List T :=
  if l.length ≤ 2 then
    if h : l.length = 2 ∧ less (l.getI 1) (l.getI 0) then listSwap l 1 0 else l
  else
    heapifyGo less (balanceAll less l 0) ((l.length - 1) / 4 + 1)

/-- The states of the bubble-down loop of `IntervalHeap::heapify`
(`for (i = (size-1)/4*2; i >= 0; i -= 2) { bubble_down_max(i+1); bubble_down_min(i); }`),
paired with the number of iterations still to run: the loop is entered on
the node-balanced sequence with `(size-1)/4 + 1` iterations left, and a
body execution with `k + 1` iterations left runs `bubble_down_max(2k+1)`
then `bubble_down_min(2k)`, leaving `k`. -/
inductive HeapifyLoop (l₀ : List T) : List T → Nat → Prop
  | protected entry : 2 < l₀.length →
      HeapifyLoop l₀ (balanceAll less l₀ 0) ((l₀.length - 1) / 4 + 1)
  | protected step {l : List T} {k : Nat} : HeapifyLoop l₀ l (k + 1) →
      HeapifyLoop l₀ (bubble_down_min less (bubble_down_max less l (2 * k + 1)) (2 * k)) k

/-- `IntervalHeap::min`: `assert(!empty()); return _data[ROOT]`. -/
def minq (l : List T) : Option T :=
  if l.length = 0 then none else some (l.getI 0)

/-- `IntervalHeap::max`: `assert(!empty()); return size() > 1 ? _data[1] : _data[0]`. -/
def maxq (l : List T) : Option T :=
  if l.length = 0 then none
  else if 1 < l.length then some (l.getI 1) else some (l.getI 0)

/-- `IntervalHeap::pop_min` including its `assert(!empty())`. -/
def popMinChecked (l : List T) : Option (List T) :=
  if l.length = 0 then none else some (pop_min less l)

/-- `IntervalHeap::pop_max` including its `assert(!empty())`. -/
def popMaxChecked (l : List T) : Option (List T) :=
  if l.length = 0 then none else some (pop_max less l)

/-- `IntervalHeap::replace_min` including its `assert(!empty())`. -/
def replaceMinChecked (l : List T) (val : T) : Option (List T) :=
  if l.length = 0 then none else some (replace_min less l val)

/-- `IntervalHeap::replace_max` including its `assert(!empty())`. -/
def replaceMaxChecked (l : List T) (val : T) : Option (List T) :=
  if l.length = 0 then none else some (replace_max less l val)

/-- `IntervalHeap::empty`. -/
def emptyq (l : List T) : Bool := l.length = 0

/-- `IntervalHeap::size`. -/
def size (l : List T) : Nat := l.length

end IntervalHeap

/-- Descendant relation of the implicit binary tree on indices: `Desc i j`
holds when `j` lies in the subtree rooted at `i` (children `2i+1`, `2i+2`).
Shared by the element tree of `BinaryHeap` and the node tree of
`IntervalHeap`. -/
inductive Desc : Nat → Nat → Prop
  | refl (i : Nat) : Desc i i
  | left {i k : Nat} : Desc (2 * i + 1) k → Desc i k
  | right {i k : Nat} : Desc (2 * i + 2) k → Desc i k

/-- The comparator used for the concrete scenarios: natural order on `Nat`. -/
def natLt : Nat → Nat → Bool := fun a b => decide (a < b)

/-- `std::swap(_data[i], _data[j])` with both accesses bounds-checked
(`none` = an out-of-bounds access). -/
def swapW {T : Type} [Inhabited T] (l : List T) (i j : Nat) : Option (List T) :=
  match l[i]?, l[j]? with
  | some _, some _ => some (listSwap l i j)
  | _, _ => none

namespace BinaryHeap

variable {T : Type} [Inhabited T] (less : T → T → Bool)

/-- The BinaryHeap structural invariant: `!less(data[i], data[(i-1)/2])` for
every index `i ≥ 1` of the backing sequence. -/
def Inv (l : List T) : Prop :=
  ∀ i, 0 < i → i < l.length → less (l.getI i) (l.getI (get_parent i)) = false

/-- Heap states reachable by the constructors (default, or heapify of an
arbitrary container) and the mutating operations push/emplace/pop/replace_top
on non-empty heaps.  (`emplace` appends the constructed element and bubbles
up, i.e. acts as `push` on the backing sequence; `swap` and moves exchange
whole states and create no new ones.) -/
inductive Reachable : List T → Prop
  | protected empty : Reachable []
  | protected heapify (l₀ : List T) : Reachable (heapify less l₀)
  | protected push (l : List T) (v : T) : Reachable l → Reachable (push less l v)
  | protected pop (l : List T) : Reachable l → l ≠ [] → Reachable (pop less l)
  | protected replace (l : List T) (v : T) : Reachable l → l ≠ [] →
      Reachable (replace_top less l v)

/-- Observation sequence: read `top()` and `pop()`, `fuel` times (or until
empty). -/
def popSeq : Nat → List T → List T
  | 0, _ => []
  | _ + 1, [] => []
  | fuel + 1, l => l.getI 0 :: popSeq fuel (pop less l)

/-- `BinaryHeap::bubble_up`'s loop with every sequence access bounds-checked
(`none` = out-of-bounds access) and the parent computed with the exact
`size_t` wraparound; the short-circuit of `idx > ROOT && _comp(cur, _data[par])`
is mirrored: the read of `_data[par]` happens only under the guard. -/
def bubbleUpGoW (l : List T) (cur : T) (idx : Nat) : Option (List T) :=
  if 0 < idx then
    match l[getParentWrap idx]? with
    | none => none
    | some pv =>
      if less cur pv then
        if idx < l.length then
          bubbleUpGoW (l.set idx pv) cur (getParentWrap idx)
        else none
      else
        if idx < l.length then some (l.set idx cur) else none
  else
    if idx < l.length then some (l.set idx cur) else none
termination_by idx
decreasing_by unfold getParentWrap; omega

/-- `BinaryHeap::push` with checked accesses (the initial move of
`_data[idx]` into `cur` included). -/
def pushW (l : List T) (elem : T) : Option (List T) :=
  match (l ++ [elem])[l.length]? with
  | none => none
  | some cur => bubbleUpGoW less (l ++ [elem]) cur l.length

/-- `BinaryHeap::top` with its assertion and the read of `_data[ROOT]`
checked. -/
def topW (l : List T) : Option T :=
  if l.length = 0 then none else l[0]?

/-- The child selection of `bubble_down`/`move_hole_down` with checked
accesses in the source's short-circuit order: `_data[child + 1]` is read
only under `child + 1 < n`, then `_data[child]` is read. -/
def pickChildW (l : List T) (child : Nat) : Option Nat :=
  if child + 1 < l.length then
    match l[child + 1]?, l[child]? with
    | some a, some b => some (if less a b then child + 1 else child)
    | _, _ => none
  else some child

/-- The loop of `BinaryHeap::bubble_down` with every sequence access
bounds-checked; `fuel` only forces termination. -/
def bubbleDownGoW : Nat → List T → T → Nat → Option (List T)
  | 0, _, _, _ => none
  | fuel + 1, l, cur, idx =>
    if get_left idx < l.length then
      match pickChildW less l (get_left idx) with
      | none => none
      | some c =>
        match l[c]? with
        | none => none
        | some cv =>
          if less cv cur then
            if idx < l.length then bubbleDownGoW fuel (l.set idx cv) cur c else none
          else
            if idx < l.length then some (l.set idx cur) else none
    else
      if idx < l.length then some (l.set idx cur) else none

/-- The loop of `BinaryHeap::bubble_up` with every sequence access
bounds-checked; the parent index is only taken at `idx > ROOT`, where
`size_t` and `Nat` agree (the exact wraparound model is `bubbleUpGoW`). -/
def bubbleUpGoP (l : List T) (cur : T) (idx : Nat) : Option (List T) :=
  if 0 < idx then
    match l[get_parent idx]? with
    | none => none
    | some pv =>
      if less cur pv then
        if idx < l.length then bubbleUpGoP (l.set idx pv) cur (get_parent idx)
        else none
      else
        if idx < l.length then some (l.set idx cur) else none
  else
    if idx < l.length then some (l.set idx cur) else none
termination_by idx
decreasing_by exact get_parent_lt (by omega)

/-- The loop of `BinaryHeap::move_hole_down` with every sequence access
bounds-checked; `fuel` only forces termination. -/
def moveHoleDownGoW : Nat → List T → Nat → Option (List T × Nat)
  | 0, _, _ => none
  | fuel + 1, l, idx =>
    if get_left idx < l.length then
      match pickChildW less l (get_left idx) with
      | none => none
      | some c =>
        match l[c]? with
        | none => none
        | some cv =>
          if idx < l.length then moveHoleDownGoW fuel (l.set idx cv) c else none
    else some (l, idx)

/-- `BinaryHeap::pop` with its assertion and every access checked: the hole
propagation, the read of `_data.back()`, the write into the hole, and the
final bubble up (whose initial read of `_data[idx]` is checked too). -/
def popW (l : List T) : Option (List T) :=
  if l.length = 0 then none
  else
    match moveHoleDownGoW less l.length l 0 with
    | none => none
    | some p =>
      if p.2 + 1 = p.1.length then some p.1.dropLast
      else
        match p.1[p.1.length - 1]? with
        | none => none
        | some bv =>
          if p.2 < p.1.length then
            match ((p.1.set p.2 bv).dropLast)[p.2]? with
            | none => none
            | some cur => bubbleUpGoP less ((p.1.set p.2 bv).dropLast) cur p.2
          else none

/-- `BinaryHeap::replace_top` with its assertion and every access checked
(the write of `val` into the root and the initial move of `_data[idx]` into
`cur` included). -/
def replaceTopW (l : List T) (val : T) : Option (List T) :=
  if l.length = 0 then none
  else
    if 0 < l.length then
      match (l.set 0 val)[0]? with
      | none => none
      | some cur => bubbleDownGoW less (l.set 0 val).length (l.set 0 val) cur 0
    else none

end BinaryHeap

namespace IntervalHeap

variable {T : Type} [Inhabited T] (less : T → T → Bool)

/-- The IntervalHeap structural invariant over the backing sequence:
every full node is ordered (`!less(data[2k+1], data[2k])`), the min slots
form a min-heap and the max slots a max-heap under the node-parent relation,
and a trailing lone-min element lies below its parent node's max slot. -/
def IInv (l : List T) : Prop :=
  (∀ i, i < l.length → i % 2 = 1 → less (l.getI i) (l.getI (i - 1)) = false)
  ∧ (∀ i, i < l.length → i % 2 = 0 → 2 ≤ i →
      less (l.getI i) (l.getI (get_parent i)) = false)
  ∧ (∀ i, i < l.length → i % 2 = 1 → 3 ≤ i →
      less (l.getI (get_parent i + 1)) (l.getI i) = false)
  ∧ (∀ i, i + 1 = l.length → i % 2 = 0 → 2 ≤ i →
      less (l.getI (get_parent i + 1)) (l.getI i) = false)

/-- Heap states reachable by the constructors and the mutating operations on
non-empty heaps (`emplace` acts as `push` on the backing sequence; `swap`
and moves exchange whole states and create no new ones). -/
inductive Reachable : List T → Prop
  | protected empty : Reachable []
  | protected heapify (l₀ : List T) : Reachable (heapify less l₀)
  | protected push (l : List T) (v : T) : Reachable l → Reachable (push less l v)
  | protected popMin (l : List T) : Reachable l → l ≠ [] → Reachable (pop_min less l)
  | protected popMax (l : List T) : Reachable l → l ≠ [] → Reachable (pop_max less l)
  | protected replaceMin (l : List T) (v : T) : Reachable l → l ≠ [] →
      Reachable (replace_min less l v)
  | protected replaceMax (l : List T) (v : T) : Reachable l → l ≠ [] →
      Reachable (replace_max less l v)

/-- The value `max()` returns on a non-empty heap:
`size() > 1 ? _data[1] : _data[0]`. -/
def maxVal (l : List T) : T :=
  if 1 < l.length then l.getI 1 else l.getI 0

/-- Observation sequence: read `min()` and `pop_min()`, `fuel` times. -/
def popSeqMin : Nat → List T → List T
  | 0, _ => []
  | _ + 1, [] => []
  | fuel + 1, l => l.getI 0 :: popSeqMin fuel (pop_min less l)

/-- Observation sequence: read `max()` and `pop_max()`, `fuel` times. -/
def popSeqMax : Nat → List T → List T
  | 0, _ => []
  | _ + 1, [] => []
  | fuel + 1, l => maxVal l :: popSeqMax fuel (pop_max less l)

/-- The min-chain do-while loop of `IntervalHeap::bubble_up` with checked
accesses and wraparound parents; `fuel` only forces termination and is
irrelevant when the loop is entered at a valid index. -/
def bubbleUpMinGoW : Nat → List T → T → Nat → Option (List T)
  | 0, _, _, _ => none
  | fuel + 1, l, cur, idx =>
    match l[getParentWrap idx]? with
    | none => none
    | some pv =>
      if idx < l.length then
        if 1 < getParentWrap idx then
          match (l.set idx pv)[getParentWrap (getParentWrap idx)]? with
          | none => none
          | some ppv =>
            if less cur ppv then
              bubbleUpMinGoW fuel (l.set idx pv) cur (getParentWrap idx)
            else
              if getParentWrap idx < l.length then
                some ((l.set idx pv).set (getParentWrap idx) cur)
              else none
        else
          if getParentWrap idx < l.length then
            some ((l.set idx pv).set (getParentWrap idx) cur)
          else none
      else none

/-- The max-chain do-while loop of `IntervalHeap::bubble_up` with checked
accesses and wraparound parents. -/
def bubbleUpMaxGoW : Nat → List T → T → Nat → Option (List T)
  | 0, _, _, _ => none
  | fuel + 1, l, cur, idx =>
    match l[getParentWrap idx + 1]? with
    | none => none
    | some pv =>
      if idx < l.length then
        if 1 < getParentWrap idx + 1 then
          match (l.set idx pv)[getParentWrap (getParentWrap idx + 1) + 1]? with
          | none => none
          | some ppv =>
            if less ppv cur then
              bubbleUpMaxGoW fuel (l.set idx pv) cur (getParentWrap idx + 1)
            else
              if getParentWrap idx + 1 < l.length then
                some ((l.set idx pv).set (getParentWrap idx + 1) cur)
              else none
        else
          if getParentWrap idx + 1 < l.length then
            some ((l.set idx pv).set (getParentWrap idx + 1) cur)
          else none
      else none

/-- `IntervalHeap::push` with checked accesses: the initial move of
`_data[idx]`, the step-1 sibling read guarded by `is_max(idx)`, and the two
guarded parent reads, in the source's short-circuit order. -/
def pushW (l : List T) (elem : T) : Option (List T) :=
  let l0 := l ++ [elem]
  let idx := l.length
  match l0[idx]? with
  | none => none
  | some cur =>
    let step : Option (List T × Nat) :=
      if is_max idx then
        match l0[idx - 1]? with
        | none => none
        | some sv =>
          if less cur sv then
            if idx < l0.length then some (l0.set idx sv, idx - 1) else none
          else some (l0, idx)
      else some (l0, idx)
    match step with
    | none => none
    | some (l1, idx1) =>
      if 1 < idx1 then
        match l1[getParentWrap idx1]? with
        | none => none
        | some pv =>
          if less cur pv then bubbleUpMinGoW less (idx1 + 1) l1 cur idx1
          else
            match l1[getParentWrap idx1 + 1]? with
            | none => none
            | some pv1 =>
              if less pv1 cur then bubbleUpMaxGoW less (idx1 + 1) l1 cur idx1
              else if idx1 < l1.length then some (l1.set idx1 cur) else none
      else if idx1 < l1.length then some (l1.set idx1 cur) else none

/-- `IntervalHeap::min` with its assertion and the read of `_data[ROOT]`
checked. -/
def minW (l : List T) : Option T :=
  if l.length = 0 then none else l[0]?

/-- `IntervalHeap::max` with its assertion and both reads checked. -/
def maxW (l : List T) : Option T :=
  if l.length = 0 then none
  else if 1 < l.length then l[1]? else l[0]?

/-- The smaller-child selection of `bubble_down_min` with checked accesses
in the source's short-circuit order. -/
def pickMinChildW (l : List T) (child : Nat) : Option Nat :=
  if child + 2 < l.length then
    match l[child + 2]?, l[child]? with
    | some a, some b => some (if less a b then child + 2 else child)
    | _, _ => none
  else some child

/-- The node interval fix-up inside `bubble_down_min` with checked accesses
in short-circuit order. -/
def minFixW (l : List T) (c : Nat) : Option (List T) :=
  if c + 1 < l.length then
    match l[c + 1]?, l[c]? with
    | some a, some b => if less a b then swapW l (c + 1) c else some l
    | _, _ => none
  else some l

/-- The loop of `IntervalHeap::bubble_down_min` with every sequence access
bounds-checked; `fuel` only forces termination. -/
def bubbleDownMinGoW : Nat → List T → Nat → Option (List T)
  | 0, _, _ => none
  | fuel + 1, l, idx =>
    if get_left idx < l.length then
      match pickMinChildW less l (get_left idx) with
      | none => none
      | some c =>
        match l[c]?, l[idx]? with
        | some cv, some iv =>
          if less cv iv then
            match swapW l idx c with
            | none => none
            | some l1 =>
              match minFixW less l1 c with
              | none => none
              | some l2 => bubbleDownMinGoW fuel l2 c
          else some l
        | _, _ => none
    else some l

/-- The in-loop child fix-up of `bubble_down_max` with checked accesses
(the reads happen only under the `is_max(child1)` short-circuit guard). -/
def childFixW (l : List T) (c : Nat) : Option (List T) :=
  if is_max c then
    match l[c]?, l[c - 1]? with
    | some a, some b => if less a b then swapW l c (c - 1) else some l
    | _, _ => none
  else some l

/-- The post-loop interval fix-up of `bubble_down_max` with checked accesses
in short-circuit order. -/
def maxFixW (l : List T) (idx : Nat) : Option (List T) :=
  if idx + 1 < l.length then
    match l[idx + 1]?, l[idx]? with
    | some a, some b => if less a b then swapW l idx (idx + 1) else some l
    | _, _ => none
  else some l

/-- The loop of `IntervalHeap::bubble_down_max` (after the initial `idx--`)
with every sequence access bounds-checked in the source's read order;
`fuel` only forces termination. -/
def bubbleDownMaxGoW : Nat → List T → Nat → Option (List T)
  | 0, _, _ => none
  | fuel + 1, l, idx =>
    if get_left idx < l.length then
      if maxChild2 l.length (get_left idx) < l.length then
        match l[maxChild1 l.length (get_left idx)]?, l[maxChild2 l.length (get_left idx)]? with
        | some a, some b =>
          if less a b then
            match l[idx + 1]?, l[maxChild2 l.length (get_left idx)]? with
            | some x, some y =>
              if less x y then
                match swapW l (idx + 1) (maxChild2 l.length (get_left idx)) with
                | none => none
                | some l1 =>
                  match childFixW less l1 (maxChild2 l.length (get_left idx)) with
                  | none => none
                  | some l2 => bubbleDownMaxGoW fuel l2 (get_left idx + 2)
              else maxFixW less l idx
            | _, _ => none
          else
            match l[idx + 1]?, l[maxChild1 l.length (get_left idx)]? with
            | some x, some y =>
              if less x y then
                match swapW l (idx + 1) (maxChild1 l.length (get_left idx)) with
                | none => none
                | some l1 =>
                  match childFixW less l1 (maxChild1 l.length (get_left idx)) with
                  | none => none
                  | some l2 => bubbleDownMaxGoW fuel l2 (get_left idx)
              else maxFixW less l idx
            | _, _ => none
        | _, _ => none
      else
        match l[idx + 1]?, l[maxChild1 l.length (get_left idx)]? with
        | some x, some y =>
          if less x y then
            match swapW l (idx + 1) (maxChild1 l.length (get_left idx)) with
            | none => none
            | some l1 =>
              match childFixW less l1 (maxChild1 l.length (get_left idx)) with
              | none => none
              | some l2 => bubbleDownMaxGoW fuel l2 (get_left idx)
          else maxFixW less l idx
        | _, _ => none
    else maxFixW less l idx

/-- `IntervalHeap::pop_min` with its assertion and every access checked
(the moves of the last node's elements in statement order, then the
descent). -/
def popMinW (l : List T) : Option (List T) :=
  if l.length = 0 then none
  else if l.length = 1 then some l.dropLast
  else if l.length % 2 = 1 then
    match l[l.length - 1]? with
    | none => none
    | some bv =>
      if 0 < l.length then
        bubbleDownMinGoW less (l.set 0 bv).dropLast.length ((l.set 0 bv).dropLast) 0
      else none
  else
    match l[l.length - 2]? with
    | none => none
    | some v2 =>
      if 0 < l.length then
        match (l.set 0 v2)[l.length - 1]? with
        | none => none
        | some v1 =>
          if l.length - 2 < l.length then
            bubbleDownMinGoW less ((l.set 0 v2).set (l.length - 2) v1).dropLast.length
              (((l.set 0 v2).set (l.length - 2) v1).dropLast) 0
          else none
      else none

/-- `IntervalHeap::pop_max` with its assertion and every access checked. -/
def popMaxW (l : List T) : Option (List T) :=
  if l.length = 0 then none
  else if l.length = 1 then some l.dropLast
  else
    match l[l.length - 1]? with
    | none => none
    | some bv =>
      if 1 < l.length then
        if 2 < l.length then
          bubbleDownMaxGoW less ((l.set 1 bv).dropLast).length ((l.set 1 bv).dropLast) 0
        else some ((l.set 1 bv).dropLast)
      else none

/-- `IntervalHeap::balance_node` with checked accesses. -/
def balanceNodeW (l : List T) (idx : Nat) : Option (List T) :=
  match l[idx + 1]?, l[idx]? with
  | some a, some b => if less a b then swapW l (idx + 1) idx else some l
  | _, _ => none

/-- `IntervalHeap::balance_node_check` with checked accesses. -/
def balanceNodeCheckW (l : List T) (idx : Nat) : Option (List T) :=
  if idx + 1 < l.length then balanceNodeW less l idx else some l

/-- `IntervalHeap::replace_min` with its assertion and every access
checked. -/
def replaceMinW (l : List T) (val : T) : Option (List T) :=
  if l.length = 0 then none
  else
    if 0 < l.length then
      match balanceNodeCheckW less (l.set 0 val) 0 with
      | none => none
      | some l1 => bubbleDownMinGoW less l1.length l1 0
    else none

/-- `IntervalHeap::replace_max` with its assertion and every access
checked. -/
def replaceMaxW (l : List T) (val : T) : Option (List T) :=
  if l.length = 0 then none
  else if l.length = 1 then
    if 0 < l.length then some (l.set 0 val) else none
  else
    if 1 < l.length then
      match balanceNodeW less (l.set 1 val) 0 with
      | none => none
      | some l1 => bubbleDownMaxGoW less l1.length l1 0
    else none

end IntervalHeap

/-! ## List access toolkit -/

section Toolkit

variable {T : Type} [Inhabited T]

theorem getI_set_self {l : List T} {i : Nat} (hi : i < l.length) (v : T) :
    (l.set i v).getI i = v := by
  rw [List.getI_eq_getElem _ (by simpa using hi)]
  exact List.getElem_set_self _

theorem getI_set_ne {l : List T} {i : Nat} (j : Nat) (hij : i ≠ j) (v : T) :
    (l.set i v).getI j = l.getI j := by
  by_cases hj : j < l.length
  · rw [List.getI_eq_getElem _ (by simpa using hj), List.getI_eq_getElem _ hj]
    exact List.getElem_set_ne hij _
  · rw [List.getI_eq_default _ (by simp; omega), List.getI_eq_default _ (by omega)]

theorem getI_append_left {l m : List T} {i : Nat} (hi : i < l.length) :
    (l ++ m).getI i = l.getI i := by
  rw [List.getI_eq_getElem _ (by simp; omega), List.getI_eq_getElem _ hi]
  exact List.getElem_append_left _

theorem getI_append_last (l : List T) (v : T) : (l ++ [v]).getI l.length = v := by
  rw [List.getI_eq_getElem _ (by simp)]
  simp

theorem getI_dropLast {l : List T} {i : Nat} (hi : i < l.length - 1) :
    l.dropLast.getI i = l.getI i := by
  rw [List.getI_eq_getElem _ (by simp; omega), List.getI_eq_getElem _ (by omega)]
  exact List.getElem_dropLast ..

theorem set_getI_self {l : List T} {i : Nat} (hi : i < l.length) :
    l.set i (l.getI i) = l := by
  apply List.ext_getElem (by simp)
  intro j h1 h2
  by_cases hj : i = j
  · subst hj
    rw [List.getElem_set_self _, List.getI_eq_getElem _ hi]
  · exact List.getElem_set_ne hj _

theorem multiset_set :
    ∀ {l : List T} {i : Nat}, i < l.length → ∀ v : T,
      ((l.set i v : List T) : Multiset T) + {l.getI i} = (l : Multiset T) + {v}
  | [], i, hi, v => by simp at hi
  | a :: t, 0, hi, v => by
    simp only [List.set_cons_zero, List.getI, List.getD]
    simp only [← Multiset.cons_coe, ← Multiset.singleton_add]
    abel
  | a :: t, i + 1, hi, v => by
    simp only [List.set_cons_succ, List.getI, List.getD, List.get?_cons_succ]
    have ih := multiset_set (l := t) (i := i) (by simpa using hi) v
    simp only [List.getI, List.getD] at ih
    rw [← Multiset.cons_coe, ← Multiset.cons_coe, Multiset.cons_add, Multiset.cons_add, ih]

theorem multiset_listSwap {l : List T} {i j : Nat} (hi : i < l.length)
    (hj : j < l.length) : ((listSwap l i j : List T) : Multiset T) = (l : Multiset T) := by
  by_cases hij : i = j
  · subst hij
    unfold listSwap
    rw [set_getI_self hi, set_getI_self hi]
  · unfold listSwap
    have h1 := multiset_set (l := l.set i (l.getI j)) (i := j) (by simpa using hj) (l.getI i)
    rw [getI_set_ne j hij] at h1
    have h2 := multiset_set (l := l) (i := i) hi (l.getI j)
    have := h1.trans (by rw [h2])
    exact add_right_cancel (this.trans (by abel))

theorem getI_listSwap_left {l : List T} {i j : Nat} (hi : i < l.length) (hij : i ≠ j) :
    (listSwap l i j).getI i = l.getI j := by
  unfold listSwap
  rw [getI_set_ne i (Ne.symm hij), getI_set_self hi]

theorem getI_listSwap_right {l : List T} {i j : Nat} (hj : j < l.length) :
    (listSwap l i j).getI j = l.getI i := by
  unfold listSwap
  rw [getI_set_self (by simpa using hj)]

theorem swapW_eq {l : List T} {i j : Nat} (hi : i < l.length) (hj : j < l.length) :
    swapW l i j = some (listSwap l i j) := by
  unfold swapW
  rw [List.getElem?_eq_getElem hi, List.getElem?_eq_getElem hj]

theorem getI_listSwap_other {l : List T} {i j : Nat} (k : Nat) (hik : i ≠ k)
    (hjk : j ≠ k) : (listSwap l i j).getI k = l.getI k := by
  unfold listSwap
  rw [getI_set_ne k hjk, getI_set_ne k hik]

end Toolkit

/-! ## Length of every operation -/

namespace BinaryHeap

variable {T : Type} [Inhabited T] {less : T → T → Bool}

theorem bubbleUpGo_length (l : List T) (cur : T) (idx : Nat) :
    (bubbleUpGo less l cur idx).length = l.length := by
  induction l, cur, idx using bubbleUpGo.induct less with
  | case1 l cur idx h ih => rw [bubbleUpGo.eq_def, if_pos h]; simpa using ih
  | case2 l cur idx h => rw [bubbleUpGo.eq_def, if_neg h]; simp

theorem bubble_up_length (l : List T) (idx : Nat) :
    (bubble_up less l idx).length = l.length := bubbleUpGo_length ..

theorem push_length (l : List T) (v : T) :
    (push less l v).length = l.length + 1 := by
  unfold push; rw [bubble_up_length]; simp

theorem bubbleDownGo_length (l : List T) (cur : T) (idx : Nat) :
    (bubbleDownGo less l cur idx).length = l.length := by
  induction l, cur, idx using bubbleDownGo.induct less <;>
    · rw [bubbleDownGo.eq_def]
      repeat' split
      all_goals simp_all

theorem bubble_down_length (l : List T) (idx : Nat) :
    (bubble_down less l idx).length = l.length := bubbleDownGo_length ..

theorem moveHoleDownGo_length (l : List T) (idx : Nat) :
    (moveHoleDownGo less l idx).1.length = l.length := by
  induction l, idx using moveHoleDownGo.induct less <;>
    · rw [moveHoleDownGo.eq_def]
      repeat' split
      all_goals simp_all

theorem pop_length (l : List T) :
    (pop less l).length = l.length - 1 := by
  unfold pop
  dsimp only
  split
  · simp [moveHoleDownGo_length, move_hole_down]
  · rw [bubble_up_length]
    simp [moveHoleDownGo_length, move_hole_down]

theorem replace_top_length (l : List T) (v : T) :
    (replace_top less l v).length = l.length := by
  unfold replace_top; rw [bubble_down_length]; simp

theorem heapifyFrom_length (l : List T) (k : Nat) :
    (heapifyFrom less l k).length = l.length := by
  induction k generalizing l with
  | zero => rfl
  | succ k ih => rw [heapifyFrom, ih, bubble_down_length]

theorem heapify_length (l : List T) : (heapify less l).length = l.length :=
  heapifyFrom_length ..

end BinaryHeap

namespace IntervalHeap

variable {T : Type} [Inhabited T] {less : T → T → Bool}

theorem bubbleUpMinGo_length (l : List T) (cur : T) (idx : Nat) :
    (bubbleUpMinGo less l cur idx).length = l.length := by
  induction l, cur, idx using bubbleUpMinGo.induct less <;>
    · rw [bubbleUpMinGo.eq_def]
      repeat' split
      all_goals simp_all

theorem bubbleUpMaxGo_length (l : List T) (cur : T) (idx : Nat) :
    (bubbleUpMaxGo less l cur idx).length = l.length := by
  induction l, cur, idx using bubbleUpMaxGo.induct less <;>
    · rw [bubbleUpMaxGo.eq_def]
      repeat' split
      all_goals simp_all

theorem reconcileStep_length (l : List T) (idx : Nat) (cur : T) :
    (reconcileStep less l idx cur).1.length = l.length := by
  unfold reconcileStep; split <;> simp

theorem ibubble_up_length (l : List T) (idx : Nat) :
    (bubble_up less l idx).length = l.length := by
  unfold bubble_up
  dsimp only
  split
  · rw [bubbleUpMinGo_length, reconcileStep_length]
  · split
    · rw [bubbleUpMaxGo_length, reconcileStep_length]
    · rw [List.length_set, reconcileStep_length]

theorem ipush_length (l : List T) (v : T) :
    (push less l v).length = l.length + 1 := by
  unfold push; rw [ibubble_up_length]; simp

theorem bubble_down_min_length (l : List T) (idx : Nat) :
    (bubble_down_min less l idx).length = l.length := by
  induction l, idx using bubble_down_min.induct less <;>
    · rw [bubble_down_min.eq_def]
      repeat' split
      all_goals simp_all

theorem maxFix_length (l : List T) (idx : Nat) :
    (maxFix less l idx).length = l.length := by
  unfold maxFix; split <;> simp

theorem bubbleDownMaxGo_length (l : List T) (idx : Nat) :
    (bubbleDownMaxGo less l idx).length = l.length := by
  induction l, idx using bubbleDownMaxGo.induct less <;>
    · rw [bubbleDownMaxGo.eq_def]
      repeat' split
      all_goals simp_all [maxFix_length]

theorem bubble_down_max_length (l : List T) (idx : Nat) :
    (bubble_down_max less l idx).length = l.length := bubbleDownMaxGo_length ..

theorem pop_min_length (l : List T) :
    (pop_min less l).length = l.length - 1 := by
  unfold pop_min
  dsimp only
  split
  · simp
  · rw [bubble_down_min_length]
    split <;> simp

theorem pop_max_length (l : List T) :
    (pop_max less l).length = l.length - 1 := by
  unfold pop_max
  dsimp only
  split
  · simp
  · split
    · rw [bubble_down_max_length]; simp
    · simp

theorem balance_node_length (l : List T) (idx : Nat) :
    (balance_node less l idx).length = l.length := by
  unfold balance_node; split <;> simp

theorem balance_node_check_length (l : List T) (idx : Nat) :
    (balance_node_check less l idx).length = l.length := by
  unfold balance_node_check; split <;> simp [balance_node_length]

theorem replace_min_length (l : List T) (v : T) :
    (replace_min less l v).length = l.length := by
  unfold replace_min
  rw [bubble_down_min_length, balance_node_check_length]
  simp

theorem replace_max_length (l : List T) (v : T) :
    (replace_max less l v).length = l.length := by
  unfold replace_max
  split
  · simp
  · rw [bubble_down_max_length, balance_node_length]; simp

theorem balanceAll_length (l : List T) (i : Nat) :
    (balanceAll less l i).length = l.length := by
  induction l, i using balanceAll.induct less <;>
    · rw [balanceAll.eq_def]
      split
      all_goals simp_all [balance_node_length]

theorem heapifyGo_length (l : List T) (k : Nat) :
    (heapifyGo less l k).length = l.length := by
  induction k generalizing l with
  | zero => rfl
  | succ k ih => rw [heapifyGo, ih, bubble_down_min_length, bubble_down_max_length]

theorem iheapify_length (l : List T) : (heapify less l).length = l.length := by
  unfold heapify
  repeat' split
  all_goals simp_all [heapifyGo_length, balanceAll_length]

end IntervalHeap

/-! ## Claim C6: the concrete scenario -/

/-- **C6**: heapifying BinaryHeap from `[5,3,8,1,9,2]` with the natural order
gives `min() == 1`; after `pop()`, `min() == 2`; after `push(0)`,
`min() == 0`.  Heapifying IntervalHeap from the same input gives
`min() == 1` and `max() == 9`; after `pop_max()`, `max() == 8`; after
`replace_min(10)`, `min() == 2` and the element `1` is no longer contained
in the structure. -/
theorem concrete_scenario :
    BinaryHeap.top? (BinaryHeap.heapify natLt [5, 3, 8, 1, 9, 2]) = some 1
    ∧ BinaryHeap.top? (BinaryHeap.pop natLt
        (BinaryHeap.heapify natLt [5, 3, 8, 1, 9, 2])) = some 2
    ∧ BinaryHeap.top? (BinaryHeap.push natLt
        (BinaryHeap.pop natLt (BinaryHeap.heapify natLt [5, 3, 8, 1, 9, 2])) 0) = some 0
    ∧ IntervalHeap.minq (IntervalHeap.heapify natLt [5, 3, 8, 1, 9, 2]) = some 1
    ∧ IntervalHeap.maxq (IntervalHeap.heapify natLt [5, 3, 8, 1, 9, 2]) = some 9
    ∧ IntervalHeap.maxq (IntervalHeap.pop_max natLt
        (IntervalHeap.heapify natLt [5, 3, 8, 1, 9, 2])) = some 8
    ∧ IntervalHeap.minq (IntervalHeap.replace_min natLt
        (IntervalHeap.heapify natLt [5, 3, 8, 1, 9, 2]) 10) = some 2
    ∧ 1 ∉ IntervalHeap.replace_min natLt
        (IntervalHeap.heapify natLt [5, 3, 8, 1, 9, 2]) 10 := by
  have hb0 : BinaryHeap.heapify natLt [5, 3, 8, 1, 9, 2] = [1, 3, 2, 5, 9, 8] := by
    simp [BinaryHeap.heapify, BinaryHeap.heapifyFrom, BinaryHeap.bubble_down,
      BinaryHeap.bubbleDownGo, BinaryHeap.pickChild, BinaryHeap.get_left, natLt,
      List.getI, List.getD]
  have hb1 : BinaryHeap.pop natLt [1, 3, 2, 5, 9, 8] = [2, 3, 8, 5, 9] := by
    simp [BinaryHeap.pop, BinaryHeap.move_hole_down, BinaryHeap.moveHoleDownGo,
      BinaryHeap.pickChild, BinaryHeap.get_left, BinaryHeap.bubble_up,
      BinaryHeap.bubbleUpGo, BinaryHeap.get_parent, natLt, List.getI, List.getD]
  have hb2 : BinaryHeap.push natLt [2, 3, 8, 5, 9] 0 = [0, 3, 2, 5, 9, 8] := by
    simp [BinaryHeap.push, BinaryHeap.bubble_up, BinaryHeap.bubbleUpGo,
      BinaryHeap.get_parent, natLt, List.getI, List.getD]
  have hi0 : IntervalHeap.heapify natLt [5, 3, 8, 1, 9, 2] = [1, 9, 3, 8, 2, 5] := by
    simp [IntervalHeap.heapify, IntervalHeap.heapifyGo, IntervalHeap.balanceAll,
      IntervalHeap.balance_node, IntervalHeap.bubble_down_min, IntervalHeap.bubble_down_max,
      IntervalHeap.bubbleDownMaxGo, IntervalHeap.pickMinChild, IntervalHeap.minFix,
      IntervalHeap.maxFix, IntervalHeap.childFix, IntervalHeap.maxChild1,
      IntervalHeap.maxChild2, IntervalHeap.is_max, IntervalHeap.get_left, listSwap,
      natLt, List.getI, List.getD]
  have hi1 : IntervalHeap.pop_max natLt [1, 9, 3, 8, 2, 5] = [1, 8, 3, 5, 2] := by
    simp [IntervalHeap.pop_max, IntervalHeap.bubble_down_max, IntervalHeap.bubbleDownMaxGo,
      IntervalHeap.maxChild1, IntervalHeap.maxChild2, IntervalHeap.childFix,
      IntervalHeap.maxFix, IntervalHeap.is_max, IntervalHeap.get_left, listSwap,
      natLt, List.getI, List.getD]
  have hi2 : IntervalHeap.replace_min natLt [1, 9, 3, 8, 2, 5] 10 = [2, 10, 3, 8, 5, 9] := by
    simp [IntervalHeap.replace_min, IntervalHeap.balance_node_check,
      IntervalHeap.balance_node, IntervalHeap.bubble_down_min, IntervalHeap.pickMinChild,
      IntervalHeap.minFix, IntervalHeap.get_left, listSwap, natLt, List.getI, List.getD]
  simp only [hb0, hb1, hb2, hi0, hi1, hi2]
  decide

/-! ## Claim C7: size/empty consistency -/

/-- **C7**: `size() == 0` iff `empty()`, for both containers; `push` (and
`emplace`, which appends and bubbles up identically) increases `size()` by
exactly one, and each pop on a non-empty heap decreases it by exactly one. -/
theorem size_empty_consistency {T : Type} [Inhabited T] (less : T → T → Bool) :
    (∀ l : List T,
      ((BinaryHeap.emptyq l = true) ↔ BinaryHeap.size l = 0)
      ∧ ((IntervalHeap.emptyq l = true) ↔ IntervalHeap.size l = 0))
    ∧ (∀ (l : List T) (v : T),
        BinaryHeap.size (BinaryHeap.push less l v) = BinaryHeap.size l + 1
        ∧ IntervalHeap.size (IntervalHeap.push less l v) = IntervalHeap.size l + 1)
    ∧ (∀ l : List T, l ≠ [] →
        BinaryHeap.size (BinaryHeap.pop less l) + 1 = BinaryHeap.size l
        ∧ IntervalHeap.size (IntervalHeap.pop_min less l) + 1 = IntervalHeap.size l
        ∧ IntervalHeap.size (IntervalHeap.pop_max less l) + 1 = IntervalHeap.size l) := by
  refine ⟨fun l => ⟨?_, ?_⟩, fun l v => ⟨?_, ?_⟩, fun l hl => ?_⟩
  · simp [BinaryHeap.emptyq, BinaryHeap.size]
  · simp [IntervalHeap.emptyq, IntervalHeap.size]
  · simp [BinaryHeap.size, BinaryHeap.push_length]
  · simp [IntervalHeap.size, IntervalHeap.ipush_length]
  · have hpos : 0 < l.length := List.length_pos.mpr hl
    refine ⟨?_, ?_, ?_⟩
    · simp only [BinaryHeap.size, BinaryHeap.pop_length]; omega
    · simp only [IntervalHeap.size, IntervalHeap.pop_min_length]; omega
    · simp only [IntervalHeap.size, IntervalHeap.pop_max_length]; omega

/-- Witness for C7 at a concrete input. -/
theorem size_empty_consistency_witness :
    ([3, 1] : List Nat) ≠ [] ∧
      BinaryHeap.size (BinaryHeap.pop natLt [3, 1]) + 1 = BinaryHeap.size [3, 1] :=
  ⟨by decide, ((size_empty_consistency natLt).2.2 [3, 1] (by decide)).1⟩

/-! ## BinaryHeap: the heap invariant under every operation

The comparator hypotheses used throughout are those of a strict weak order:
`hasymm` (asymmetry), `htrans` (transitivity of `less`), `hneg`
(transitivity of `!less`, i.e. of the induced `≤`). -/

namespace BinaryHeap

variable {T : Type} [Inhabited T] {less : T → T → Bool}

theorem less_irrefl (hasymm : ∀ a b, less a b = true → less b a = false) (a : T) :
    less a a = false := by
  by_cases h : less a a = true
  · exact hasymm a a h
  · simpa using h

theorem children_of {j i : Nat} (h : get_parent j = i) (hj : 0 < j) :
    j = 2 * i + 1 ∨ j = 2 * i + 2 := by
  unfold get_parent at h; omega

theorem get_parent_le (j : Nat) : get_parent j ≤ j := by
  unfold get_parent; omega

/-- Main bubble-up lemma: if the sequence is a heap everywhere except at the
hole `idx`, the children of the hole dominate both `cur` and the hole's
parent, then after `bubbleUpGo` the whole sequence is a heap. -/
theorem bubbleUpGo_inv
    (hasymm : ∀ a b, less a b = true → less b a = false)
    (htrans : ∀ a b c, less a b = true → less b c = true → less a c = true)
    (hneg : ∀ a b c, less a b = false → less b c = false → less a c = false)
    (l : List T) (cur : T) (idx : Nat) (hidx : idx < l.length)
    (H1 : ∀ j, 0 < j → j < l.length → j ≠ idx →
      less (l.getI j) (l.getI (get_parent j)) = false)
    (H2 : ∀ j, j < l.length → get_parent j = idx → j ≠ idx →
      less (l.getI j) cur = false)
    (H3 : ∀ j, j < l.length → get_parent j = idx → j ≠ idx → 0 < idx →
      less (l.getI j) (l.getI (get_parent idx)) = false) :
    Inv less (bubbleUpGo less l cur idx) := by
  induction l, cur, idx using bubbleUpGo.induct less with
  | case1 l cur idx hcond ih =>
    obtain ⟨hpos, hless⟩ := hcond
    have hpar : get_parent idx < idx := get_parent_lt hpos
    rw [bubbleUpGo.eq_def, if_pos ⟨hpos, hless⟩]
    set par := get_parent idx with hpardef
    set A := l.set idx (l.getI par) with hAdef
    have hAlen : A.length = l.length := by simp [hAdef]
    have hApar : A.getI par = l.getI par := getI_set_ne par (by omega) _
    have hAidx : A.getI idx = l.getI par := getI_set_self hidx _
    have hAother : ∀ j, j ≠ idx → A.getI j = l.getI j := fun j hj =>
      getI_set_ne j (fun hh => hj hh.symm) _
    apply ih (by omega)
    · -- H1 for A at hole par
      intro j hj0 hjlen hjpar
      rw [hAlen] at hjlen
      by_cases hji : j = idx
      · subst hji
        rw [hAidx, hAother (get_parent j) (by omega)]
        rw [← hpardef]
        exact less_irrefl hasymm _
      · rw [hAother j hji]
        by_cases hpj : get_parent j = idx
        · rw [hpj, hAidx]
          exact H3 j hjlen hpj hji hpos
        · rw [hAother _ hpj]
          exact H1 j hj0 hjlen hji
    · -- H2 for A: children of par dominate cur
      intro j hjlen hpj hjne
      rw [hAlen] at hjlen
      by_cases hji : j = idx
      · subst hji
        rw [hAidx]
        exact hasymm _ _ hless
      · rw [hAother j hji]
        have hj0 : 0 < j := by
          rcases Nat.eq_zero_or_pos j with h0 | h0
          · subst h0
            unfold get_parent at hpj
            omega
          · exact h0
        have hedge : less (l.getI j) (l.getI par) = false := by
          have := H1 j hj0 hjlen hji
          rwa [hpj] at this
        by_cases hc : less (l.getI j) cur = true
        · have := htrans _ _ _ hc hless
          rw [this] at hedge
          exact absurd hedge (by simp)
        · simpa using hc
    · -- H3 for A: children of par dominate par's parent
      intro j hjlen hpj hjne hparpos
      rw [hAlen] at hjlen
      have hpp : get_parent par < par := get_parent_lt hparpos
      rw [hAother (get_parent par) (by omega)]
      by_cases hji : j = idx
      · subst hji
        rw [hAidx]
        exact H1 par hparpos (by omega) (by omega)
      · rw [hAother j hji]
        have hj0 : 0 < j := by
          rcases Nat.eq_zero_or_pos j with h0 | h0
          · subst h0
            unfold get_parent at hpj
            omega
          · exact h0
        have h1 : less (l.getI j) (l.getI par) = false := by
          have := H1 j hj0 hjlen hji
          rwa [hpj] at this
        have h2 : less (l.getI par) (l.getI (get_parent par)) = false :=
          H1 par hparpos (by omega) (by omega)
        exact hneg _ _ _ h1 h2
  | case2 l cur idx hcond =>
    rw [bubbleUpGo.eq_def, if_neg hcond]
    simp only [not_and, Bool.not_eq_true] at hcond
    intro i hi0 hilen
    rw [List.length_set] at hilen
    by_cases hii : i = idx
    · subst hii
      have hpar : get_parent i < i := get_parent_lt hi0
      rw [getI_set_self hidx, getI_set_ne _ (by omega)]
      exact hcond hi0
    · rw [getI_set_ne _ (fun hh => hii hh.symm)]
      by_cases hpi : get_parent i = idx
      · rw [hpi, getI_set_self hidx]
        exact H2 i hilen hpi hii
      · rw [getI_set_ne _ (fun hh => hpi hh.symm)]
        exact H1 i hi0 hilen hii

/-- `push` preserves the heap invariant. -/
theorem push_inv
    (hasymm : ∀ a b, less a b = true → less b a = false)
    (htrans : ∀ a b c, less a b = true → less b c = true → less a c = true)
    (hneg : ∀ a b c, less a b = false → less b c = false → less a c = false)
    {l : List T} (hInv : Inv less l) (v : T) : Inv less (push less l v) := by
  unfold push bubble_up
  rw [getI_append_last]
  apply bubbleUpGo_inv hasymm htrans hneg _ _ _ (by simp)
  · intro j hj0 hjlen hjne
    rw [List.length_append, List.length_singleton] at hjlen
    have hjl : j < l.length := by omega
    have hp : get_parent j < l.length := by
      have := get_parent_le j
      omega
    rw [getI_append_left hjl, getI_append_left hp]
    exact hInv j hj0 hjl
  · intro j hjlen hpj hjne
    rcases children_of hpj (by by_contra h0; push_neg at h0; unfold get_parent at hpj; omega)
      with h | h <;> (rw [List.length_append, List.length_singleton] at hjlen; omega)
  · intro j hjlen hpj hjne hpos
    rcases children_of hpj (by by_contra h0; push_neg at h0; unfold get_parent at hpj; omega)
      with h | h <;> (rw [List.length_append, List.length_singleton] at hjlen; omega)

/-- In a heap, the root dominates every element. -/
theorem inv_min
    (hasymm : ∀ a b, less a b = true → less b a = false)
    (hneg : ∀ a b c, less a b = false → less b c = false → less a c = false)
    {l : List T} (hInv : Inv less l) :
    ∀ i, i < l.length → less (l.getI i) (l.getI 0) = false := by
  intro i
  induction i using Nat.strong_induction_on with
  | _ i ih =>
    intro hilen
    rcases Nat.eq_zero_or_pos i with h0 | h0
    · subst h0
      exact less_irrefl hasymm _
    · have hpar : get_parent i < i := get_parent_lt h0
      exact hneg _ _ _ (hInv i h0 hilen) (ih (get_parent i) hpar (by omega))

/-- Bubble-up is content-preserving: it permutes the sequence obtained by
writing `cur` into the hole. -/
theorem bubbleUpGo_multiset (l : List T) (cur : T) (idx : Nat) (hidx : idx < l.length) :
    ((bubbleUpGo less l cur idx : List T) : Multiset T) + {l.getI idx}
      = (l : Multiset T) + {cur} := by
  induction l, cur, idx using bubbleUpGo.induct less with
  | case1 l cur idx hcond ih =>
    obtain ⟨hpos, hless⟩ := hcond
    have hpar : get_parent idx < idx := get_parent_lt hpos
    rw [bubbleUpGo.eq_def, if_pos ⟨hpos, hless⟩]
    set par := get_parent idx with hpardef
    set A := l.set idx (l.getI par) with hAdef
    have hApar : A.getI par = l.getI par := getI_set_ne par (by omega) _
    have ihA := ih (by simp [hAdef]; omega)
    rw [hApar] at ihA
    have hsetA : (A : Multiset T) + {l.getI idx} = (l : Multiset T) + {l.getI par} :=
      multiset_set hidx _
    apply add_right_cancel (b := ({l.getI par} : Multiset T))
    calc ((bubbleUpGo less A cur par : List T) : Multiset T) + {l.getI idx} + {l.getI par}
        = (((bubbleUpGo less A cur par : List T) : Multiset T) + {l.getI par})
            + {l.getI idx} := by abel
      _ = ((A : Multiset T) + {cur}) + {l.getI idx} := by rw [ihA]
      _ = ((A : Multiset T) + {l.getI idx}) + {cur} := by abel
      _ = ((l : Multiset T) + {l.getI par}) + {cur} := by rw [hsetA]
      _ = (l : Multiset T) + {cur} + {l.getI par} := by abel
  | case2 l cur idx hcond =>
    rw [bubbleUpGo.eq_def, if_neg hcond]
    exact multiset_set hidx _

/-- `push` adds exactly the pushed element to the content. -/
theorem push_multiset (l : List T) (v : T) :
    ((push less l v : List T) : Multiset T) = (l : Multiset T) + {v} := by
  unfold push bubble_up
  apply add_right_cancel (b := ({(l ++ [v]).getI l.length} : Multiset T))
  rw [bubbleUpGo_multiset _ _ _ (by simp)]
  rw [getI_append_last]
  have : ((l ++ [v] : List T) : Multiset T) = (l : Multiset T) + {v} := by
    rw [← Multiset.coe_add]; rfl
  rw [this]

theorem get_left_eq (idx : Nat) : get_left idx = 2 * idx + 1 := rfl

theorem get_parent_eq (idx : Nat) : get_parent idx = (idx - 1) / 2 := rfl

theorem pickChild_or (l : List T) (child : Nat) :
    pickChild less l child = child ∨ pickChild less l child = child + 1 := by
  unfold pickChild; split
  · exact Or.inr rfl
  · exact Or.inl rfl

theorem pickChild_parent (l : List T) (idx : Nat) :
    get_parent (pickChild less l (get_left idx)) = idx := by
  rcases @pickChild_or T _ less l (get_left idx) with h | h <;>
    (rw [h, get_left_eq, get_parent_eq]; omega)

theorem pickChild_ne (l : List T) (idx : Nat) :
    pickChild less l (get_left idx) ≠ idx := by
  have h1 := pickChild_lb less l (get_left idx)
  have h2 := get_left_eq idx
  omega

/-- Bounds for the hole's final position: it lies in the tree below `idx`
and is a leaf of the full sequence. -/
theorem moveHoleDownGo_snd (l : List T) (idx : Nat) (hidx : idx < l.length) :
    idx ≤ (moveHoleDownGo less l idx).2
      ∧ (moveHoleDownGo less l idx).2 < l.length
      ∧ l.length ≤ get_left (moveHoleDownGo less l idx).2 := by
  induction l, idx using moveHoleDownGo.induct less with
  | case1 l idx h ih =>
    rw [moveHoleDownGo.eq_def, dif_pos h]
    have hub := pickChild_ub less h
    have hlb := pickChild_lb less l (get_left idx)
    have hgl := get_left_eq idx
    have hrec := ih (by simpa using hub)
    simp only [List.length_set] at hrec
    exact ⟨by omega, hrec.2.1, hrec.2.2⟩
  | case2 l idx h =>
    rw [moveHoleDownGo.eq_def, dif_neg h]
    exact ⟨le_refl _, hidx, Nat.le_of_not_lt h⟩

/-- Content of the hole-propagation result: writing any `x` into the final
hole yields (as a multiset) the original sequence with `x` written at the
starting hole. -/
theorem moveHoleDownGo_multiset (l : List T) (idx : Nat) (hidx : idx < l.length) :
    ∀ x : T, (((moveHoleDownGo less l idx).1.set (moveHoleDownGo less l idx).2 x
        : List T) : Multiset T) = ((l.set idx x : List T) : Multiset T) := by
  induction l, idx using moveHoleDownGo.induct less with
  | case1 l idx h ih =>
    intro x
    rw [moveHoleDownGo.eq_def, dif_pos h]
    have hub := pickChild_ub less h
    have hne : pickChild less l (get_left idx) ≠ idx := pickChild_ne l idx
    set c := pickChild less l (get_left idx) with hcdef
    set A := l.set idx (l.getI c) with hAdef
    have ihA := ih (by simpa [hAdef] using hub) x
    rw [ihA]
    have hAc : A.getI c = l.getI c := getI_set_ne c (Ne.symm hne) _
    have e1 : ((A.set c x : List T) : Multiset T) + {l.getI c}
        = (A : Multiset T) + {x} := by
      have := multiset_set (l := A) (i := c) (by simpa [hAdef] using hub) x
      rwa [hAc] at this
    have e2 : (A : Multiset T) + {l.getI idx} = (l : Multiset T) + {l.getI c} :=
      multiset_set hidx _
    have e3 : ((l.set idx x : List T) : Multiset T) + {l.getI idx}
        = (l : Multiset T) + {x} := multiset_set hidx _
    apply add_right_cancel (b := ({l.getI c} : Multiset T))
    apply add_right_cancel (b := ({l.getI idx} : Multiset T))
    calc ((A.set c x : List T) : Multiset T) + {l.getI c} + {l.getI idx}
        = ((A : Multiset T) + {x}) + {l.getI idx} := by rw [e1]
      _ = ((A : Multiset T) + {l.getI idx}) + {x} := by abel
      _ = ((l : Multiset T) + {l.getI c}) + {x} := by rw [e2]
      _ = ((l : Multiset T) + {x}) + {l.getI c} := by abel
      _ = (((l.set idx x : List T) : Multiset T) + {l.getI idx}) + {l.getI c} := by
            rw [e3]
      _ = ((l.set idx x : List T) : Multiset T) + {l.getI idx} + {l.getI c} := by abel
      _ = ((l.set idx x : List T) : Multiset T) + {l.getI c} + {l.getI idx} := by abel
  | case2 l idx h =>
    intro x
    rw [moveHoleDownGo.eq_def, dif_neg h]

/-- Hole propagation preserves the heap invariant (the stale duplicate left
at the hole equals its parent's value, so every edge still holds). -/
theorem moveHoleDownGo_inv
    (hasymm : ∀ a b, less a b = true → less b a = false)
    (hneg : ∀ a b c, less a b = false → less b c = false → less a c = false)
    (l : List T) (idx : Nat) (hInv : Inv less l) :
    Inv less (moveHoleDownGo less l idx).1 := by
  induction l, idx using moveHoleDownGo.induct less with
  | case1 l idx h ih =>
    rw [moveHoleDownGo.eq_def, dif_pos h]
    have hub := pickChild_ub less h
    have hlb := pickChild_lb less l (get_left idx)
    have hgl := get_left_eq idx
    have hidx : idx < l.length := by omega
    have hcne : pickChild less l (get_left idx) ≠ idx := pickChild_ne l idx
    have hcpar : get_parent (pickChild less l (get_left idx)) = idx :=
      pickChild_parent l idx
    have hsel : ∀ j, j < l.length → get_parent j = idx → j ≠ idx →
        less (l.getI j) (l.getI (pickChild less l (get_left idx))) = false := by
      intro j hjlen hpj hjne
      have hj0 : 0 < j := by
        rw [get_parent_eq] at hpj
        omega
      by_cases hcc : get_left idx + 1 < l.length ∧
          less (l.getI (get_left idx + 1)) (l.getI (get_left idx)) = true
      · have hc : pickChild less l (get_left idx) = get_left idx + 1 := by
          unfold pickChild; rw [if_pos hcc]
        rw [hc]
        rcases children_of hpj hj0 with hj | hj
        · have hjgl : j = get_left idx := by omega
          rw [hjgl]
          exact hasymm _ _ hcc.2
        · have hjgl : j = get_left idx + 1 := by omega
          rw [hjgl]
          exact less_irrefl hasymm _
      · have hc : pickChild less l (get_left idx) = get_left idx := by
          unfold pickChild; rw [if_neg hcc]
        rw [hc]
        rcases children_of hpj hj0 with hj | hj
        · have hjgl : j = get_left idx := by omega
          rw [hjgl]
          exact less_irrefl hasymm _
        · have hjgl : j = get_left idx + 1 := by omega
          rw [not_and] at hcc
          have := hcc (by omega)
          rw [hjgl]
          simpa using this
    apply ih
    -- the sequence with the child promoted into the hole is again a full heap
    intro j hj0 hjlen
    rw [List.length_set] at hjlen
    by_cases hji : j = idx
    · subst hji
      have hp : get_parent j < j := get_parent_lt hj0
      rw [getI_set_self hidx, getI_set_ne _ (by omega)]
      have h1 : less (l.getI (pickChild less l (get_left j)))
          (l.getI j) = false := by
        have := hInv (pickChild less l (get_left j)) (by omega) (by omega)
        rwa [hcpar] at this
      have h2 : less (l.getI j) (l.getI (get_parent j)) = false := hInv j hj0 (by omega)
      exact hneg _ _ _ h1 h2
    · rw [getI_set_ne _ (fun hh => hji hh.symm)]
      by_cases hpj : get_parent j = idx
      · rw [hpj, getI_set_self hidx]
        exact hsel j hjlen hpj hji
      · rw [getI_set_ne _ (fun hh => hpj hh.symm)]
        exact hInv j hj0 hjlen
  | case2 l idx h =>
    rw [moveHoleDownGo.eq_def, dif_neg h]
    exact hInv

/-- Dropping the last element preserves the heap invariant. -/
theorem inv_dropLast {l : List T} (hInv : Inv less l) : Inv less l.dropLast := by
  intro i hi0 hilen
  rw [List.length_dropLast] at hilen
  have hp : get_parent i < i := get_parent_lt hi0
  rw [getI_dropLast hilen, getI_dropLast (by omega)]
  exact hInv i hi0 (by omega)

/-- `pop` removes exactly the root from the content. -/
theorem pop_multiset (l : List T) (hl : l ≠ []) :
    ((pop less l : List T) : Multiset T) + {l.getI 0} = (l : Multiset T) := by
  have hpos : 0 < l.length := List.length_pos.mpr hl
  obtain ⟨hk0, hklen, hkleaf⟩ := @moveHoleDownGo_snd T _ less l 0 hpos
  unfold pop move_hole_down
  dsimp only
  set p := moveHoleDownGo less l 0 with hpdef
  have hplen : p.1.length = l.length := moveHoleDownGo_length ..
  split
  · -- hole ended at the last slot
    rename_i hlast
    have hlast' : p.2 = l.length - 1 := by omega
    have hp1ne : p.1 ≠ [] := by
      intro hcon
      rw [hcon] at hplen
      simp at hplen
      omega
    have hsplit : (p.1 : Multiset T) = (p.1.dropLast : List T) + {p.1.getI (l.length - 1)} := by
      conv_lhs => rw [← List.dropLast_append_getLast hp1ne]
      have : p.1.getLast hp1ne = p.1.getI (l.length - 1) := by
        rw [List.getLast_eq_getElem, List.getI_eq_getElem _ (by omega)]
        congr 1
        omega
      rw [this, ← Multiset.coe_add]
      rfl
    have hself : ((p.1.set p.2 (p.1.getI p.2) : List T) : Multiset T)
        = ((l.set 0 (p.1.getI p.2) : List T) : Multiset T) :=
      moveHoleDownGo_multiset l 0 hpos _
    rw [set_getI_self (by omega)] at hself
    have e3 : ((l.set 0 (p.1.getI p.2) : List T) : Multiset T) + {l.getI 0}
        = (l : Multiset T) + {p.1.getI p.2} := multiset_set hpos _
    rw [hself] at hsplit
    apply add_right_cancel (b := ({p.1.getI p.2} : Multiset T))
    calc ((p.1.dropLast : List T) : Multiset T) + {l.getI 0} + {p.1.getI p.2}
        = (((p.1.dropLast : List T) : Multiset T) + {p.1.getI (l.length - 1)})
            + {l.getI 0} := by rw [hlast']; abel
      _ = ((l.set 0 (p.1.getI p.2) : List T) : Multiset T) + {l.getI 0} := by
            rw [← hsplit]
      _ = (l : Multiset T) + {p.1.getI p.2} := e3
  · -- hole not at the last slot: move the last element in and bubble up
    rename_i hlast
    have hklt : p.2 < l.length - 1 := by omega
    set vlast := p.1.getI (p.1.length - 1) with hvdef
    set B := p.1.set p.2 vlast with hBdef
    have hBlen : B.length = l.length := by simp [hBdef, hplen]
    have hBget : B.getI p.2 = vlast := getI_set_self (by omega) _
    have hBlast : B.getI (l.length - 1) = vlast := by
      rw [hBdef, getI_set_ne _ (by omega), hvdef, hplen]
    have hBne : B ≠ [] := by
      intro hcon
      rw [hcon] at hBlen
      simp at hBlen
      omega
    have hBsplit : (B : Multiset T) = (B.dropLast : List T) + {vlast} := by
      conv_lhs => rw [← List.dropLast_append_getLast hBne]
      have : B.getLast hBne = B.getI (l.length - 1) := by
        rw [List.getLast_eq_getElem, List.getI_eq_getElem _ (by omega)]
        congr 1
        omega
      rw [this, hBlast, ← Multiset.coe_add]
      rfl
    have hBmul : (B : Multiset T) + {p.1.getI p.2} = (p.1 : Multiset T) + {vlast} := by
      rw [hBdef]
      exact multiset_set (by omega) _
    have hp1mul : (p.1 : Multiset T) + {l.getI 0} = (l : Multiset T) + {p.1.getI p.2} := by
      have hself : ((p.1.set p.2 (p.1.getI p.2) : List T) : Multiset T)
          = ((l.set 0 (p.1.getI p.2) : List T) : Multiset T) :=
        moveHoleDownGo_multiset l 0 hpos _
      rw [set_getI_self (by omega)] at hself
      rw [hself]
      exact multiset_set hpos _
    have hdl : (B.dropLast).getI p.2 = vlast := by
      rw [getI_dropLast (by omega), hBget]
    have hbu : ((bubbleUpGo less B.dropLast ((B.dropLast).getI p.2) p.2 : List T)
        : Multiset T) + {(B.dropLast).getI p.2}
        = ((B.dropLast : List T) : Multiset T) + {(B.dropLast).getI p.2} :=
      bubbleUpGo_multiset _ _ _ (by simp [hBlen]; omega)
    unfold bubble_up
    apply add_right_cancel (b := ({vlast} : Multiset T))
    apply add_right_cancel (b := ({p.1.getI p.2} : Multiset T))
    have hcan : ((bubbleUpGo less B.dropLast ((B.dropLast).getI p.2) p.2 : List T)
        : Multiset T) = ((B.dropLast : List T) : Multiset T) :=
      add_right_cancel hbu
    calc ((bubbleUpGo less B.dropLast ((B.dropLast).getI p.2) p.2 : List T) : Multiset T)
          + {l.getI 0} + {vlast} + {p.1.getI p.2}
        = (((B.dropLast : List T) : Multiset T) + {vlast}) + {l.getI 0}
            + {p.1.getI p.2} := by rw [hcan]; abel
      _ = ((B : Multiset T) + {p.1.getI p.2}) + {l.getI 0} := by rw [← hBsplit]; abel
      _ = ((p.1 : Multiset T) + {vlast}) + {l.getI 0} := by rw [hBmul]
      _ = ((p.1 : Multiset T) + {l.getI 0}) + {vlast} := by abel
      _ = ((l : Multiset T) + {p.1.getI p.2}) + {vlast} := by rw [hp1mul]
      _ = (l : Multiset T) + {vlast} + {p.1.getI p.2} := by abel

end BinaryHeap

theorem Desc.le' {i j : Nat} (h : Desc i j) : i ≤ j := by
  induction h with
  | refl => exact le_refl _
  | left _ ih => omega
  | right _ ih => omega

namespace BinaryHeap

variable {T : Type} [Inhabited T] {less : T → T → Bool}

theorem desc_ne_ge {i j : Nat} (h : Desc i j) (hne : j ≠ i) : 2 * i + 1 ≤ j := by
  cases h with
  | refl => exact absurd rfl hne
  | left h' => exact h'.le'
  | right h' => have := h'.le'; omega

theorem desc_parent {i j : Nat} (h : Desc i j) (hne : j ≠ i) :
    Desc i (get_parent j) := by
  induction h with
  | refl => exact absurd rfl hne
  | left h' ih =>
    rename_i i' k
    by_cases hk : k = 2 * i' + 1
    · subst hk
      have : get_parent (2 * i' + 1) = i' := by rw [get_parent_eq]; omega
      rw [this]
      exact Desc.refl _
    · exact Desc.left (ih hk)
  | right h' ih =>
    rename_i i' k
    by_cases hk : k = 2 * i' + 2
    · subst hk
      have : get_parent (2 * i' + 2) = i' := by rw [get_parent_eq]; omega
      rw [this]
      exact Desc.refl _
    · exact Desc.right (ih hk)

theorem desc_trans {i j k : Nat} (h1 : Desc i j) (h2 : Desc j k) : Desc i k := by
  induction h1 with
  | refl => exact h2
  | left _ ih => exact Desc.left (ih h2)
  | right _ ih => exact Desc.right (ih h2)

theorem desc_child_up {i p j : Nat} (hp : Desc i p) (hj : 0 < j)
    (hpar : get_parent j = p) : Desc i j := by
  rcases children_of hpar hj with hc | hc
  · subst hc
    exact desc_trans hp (Desc.left (Desc.refl _))
  · subst hc
    exact desc_trans hp (Desc.right (Desc.refl _))

theorem desc_root (j : Nat) : Desc 0 j := by
  induction j using Nat.strong_induction_on with
  | _ j ih =>
    rcases Nat.eq_zero_or_pos j with h0 | h0
    · subst h0; exact Desc.refl _
    · exact desc_child_up (ih (get_parent j) (get_parent_lt h0)) h0 rfl

/-- The root of a subtree whose internal edges all satisfy the heap property
dominates the whole subtree. -/
theorem subtree_min
    (hasymm : ∀ a b, less a b = true → less b a = false)
    (hneg : ∀ a b c, less a b = false → less b c = false → less a c = false)
    {l : List T} {c : Nat}
    (Hsub : ∀ j, j < l.length → Desc c j → j ≠ c →
      less (l.getI j) (l.getI (get_parent j)) = false) :
    ∀ j, j < l.length → Desc c j → less (l.getI j) (l.getI c) = false := by
  intro j
  induction j using Nat.strong_induction_on with
  | _ j ih =>
    intro hjlen hdesc
    by_cases hjc : j = c
    · subst hjc; exact less_irrefl hasymm _
    · have hcle : c ≤ j := hdesc.le'
      have hj0 : 0 < j := by omega
      have hpard : Desc c (get_parent j) := desc_parent hdesc hjc
      have hplt : get_parent j < j := get_parent_lt hj0
      exact hneg _ _ _ (Hsub j hjlen hdesc hjc)
        (ih (get_parent j) hplt (by omega) hpard)

/-- The selected child is (weakly) the smaller of the hole's children. -/
theorem pickChild_sel
    (hasymm : ∀ a b, less a b = true → less b a = false)
    {l : List T} {idx : Nat} :
    ∀ j, j < l.length → get_parent j = idx → j ≠ idx →
      less (l.getI j) (l.getI (pickChild less l (get_left idx))) = false := by
  intro j hjlen hpj hjne
  have hgl := get_left_eq idx
  have hj0 : 0 < j := by
    rw [get_parent_eq] at hpj
    omega
  by_cases hcc : get_left idx + 1 < l.length ∧
      less (l.getI (get_left idx + 1)) (l.getI (get_left idx)) = true
  · have hc : pickChild less l (get_left idx) = get_left idx + 1 := by
      unfold pickChild; rw [if_pos hcc]
    rw [hc]
    rcases children_of hpj hj0 with hj | hj
    · have hjgl : j = get_left idx := by omega
      rw [hjgl]
      exact hasymm _ _ hcc.2
    · have hjgl : j = get_left idx + 1 := by omega
      rw [hjgl]
      exact less_irrefl hasymm _
  · have hc : pickChild less l (get_left idx) = get_left idx := by
      unfold pickChild; rw [if_neg hcc]
    rw [hc]
    rcases children_of hpj hj0 with hj | hj
    · have hjgl : j = get_left idx := by omega
      rw [hjgl]
      exact less_irrefl hasymm _
    · have hjgl : j = get_left idx + 1 := by omega
      rw [not_and] at hcc
      have := hcc (by omega)
      rw [hjgl]
      simpa using this

/-- Main bubble-down lemma.  If every edge strictly inside the subtree of
`idx` (not incident to `idx` itself) satisfies the heap property, then after
`bubbleDownGo`: (frame) nothing outside the subtree changed, (edges) every
edge inside the subtree holds, and (dominance) every element of the final
subtree is one of `cur` or the original subtree's elements, in the sense
that it still dominates any lower bound of those. -/
theorem bubbleDownGo_spec
    (hasymm : ∀ a b, less a b = true → less b a = false)
    (htrans : ∀ a b c, less a b = true → less b c = true → less a c = true)
    (hneg : ∀ a b c, less a b = false → less b c = false → less a c = false) :
    ∀ (l : List T) (cur : T) (idx : Nat), idx < l.length →
    (∀ j, j < l.length → Desc idx j → j ≠ idx → get_parent j ≠ idx →
        less (l.getI j) (l.getI (get_parent j)) = false) →
    ((∀ j, j < l.length → ¬ Desc idx j →
        (bubbleDownGo less l cur idx).getI j = l.getI j)
    ∧ (∀ j, j < l.length → Desc idx j → j ≠ idx →
        less ((bubbleDownGo less l cur idx).getI j)
          ((bubbleDownGo less l cur idx).getI (get_parent j)) = false)
    ∧ (∀ x, less cur x = false →
        (∀ j, j < l.length → Desc idx j → j ≠ idx → less (l.getI j) x = false) →
        ∀ j, j < l.length → Desc idx j →
          less ((bubbleDownGo less l cur idx).getI j) x = false)) := by
  intro l cur idx
  induction l, cur, idx using bubbleDownGo.induct less with
  | case1 l cur idx h hless ih =>
    intro hidx pre
    rw [bubbleDownGo.eq_def, dif_pos h, if_pos hless]
    have hgl := get_left_eq idx
    have hclb := pickChild_lb less l (get_left idx)
    have hcub := pickChild_ub less h
    have hcpar := @pickChild_parent T _ less l idx
    have hcne := @pickChild_ne T _ less l idx
    set c := pickChild less l (get_left idx) with hcdef
    set A := l.set idx (l.getI c) with hAdef
    have hAlen : A.length = l.length := by simp [hAdef]
    have hAidx : A.getI idx = l.getI c := getI_set_self hidx _
    have hAother : ∀ j, j ≠ idx → A.getI j = l.getI j := fun j hj =>
      getI_set_ne j (fun hh => hj hh.symm) _
    have hcup : ∀ j, Desc c j → Desc idx j := by
      intro j hd
      rcases @pickChild_or T _ less l (get_left idx) with hc | hc
      · rw [← hcdef] at hc
        rw [hc, hgl] at hd
        exact Desc.left hd
      · rw [← hcdef] at hc
        have h2 : get_left idx + 1 = 2 * idx + 2 := by omega
        rw [hc, h2] at hd
        exact Desc.right hd
    have hninc : ¬ Desc c idx := fun hd => by
      have := hd.le'
      omega
    have hsel := @pickChild_sel T _ less hasymm l idx
    rw [← hcdef] at hsel
    have preA : ∀ j, j < A.length → Desc c j → j ≠ c → get_parent j ≠ c →
        less (A.getI j) (A.getI (get_parent j)) = false := by
      intro j hjlen hd hjc hpjc
      rw [hAlen] at hjlen
      have hjlb : 2 * c + 1 ≤ j := desc_ne_ge hd hjc
      have hpard : Desc c (get_parent j) := desc_parent hd hjc
      have hpge : c ≤ get_parent j := hpard.le'
      rw [hAother j (by omega), hAother (get_parent j) (by omega)]
      exact pre j hjlen (hcup j hd) (by omega) (by omega)
    have ihc := ih (by omega) preA
    refine ⟨?_, ?_, ?_⟩
    · -- frame
      intro j hjlen hnd
      have hji : j ≠ idx := fun hh => hnd (hh ▸ Desc.refl idx)
      have hndc : ¬ Desc c j := fun hd => hnd (hcup j hd)
      rw [ihc.1 j (by omega) hndc, hAother j hji]
    · -- edges
      intro j hjlen hd hjne
      by_cases hdc : Desc c j
      · by_cases hjc : j = c
        · subst hjc
          rw [hcpar]
          have hr_idx : (bubbleDownGo less A cur c).getI idx = l.getI c := by
            rw [ihc.1 idx (by omega) hninc, hAidx]
          rw [hr_idx]
          refine ihc.2.2 (l.getI c) (hasymm _ _ hless) ?_ c (by omega) (Desc.refl c)
          intro j' hj'len hd' hj'c
          rw [hAlen] at hj'len
          have hjlb' : 2 * c + 1 ≤ j' := desc_ne_ge hd' hj'c
          rw [hAother j' (by omega)]
          refine subtree_min hasymm hneg ?_ j' hj'len hd'
          intro j'' hj''len hd'' hj''c
          have hpard'' : Desc c (get_parent j'') := desc_parent hd'' hj''c
          have hpge'' : c ≤ get_parent j'' := hpard''.le'
          have hjlb'' : 2 * c + 1 ≤ j'' := desc_ne_ge hd'' hj''c
          exact pre j'' hj''len (hcup j'' hd'') (by omega) (by omega)
        · exact ihc.2.1 j (by omega) hdc hjc
      · have hji : j ≠ idx := hjne
        have hrj : (bubbleDownGo less A cur c).getI j = l.getI j := by
          rw [ihc.1 j (by omega) hdc, hAother j hji]
        have hj0 : 0 < j := by
          have := desc_ne_ge hd hjne
          omega
        by_cases hpj : get_parent j = idx
        · have hro : (bubbleDownGo less A cur c).getI (get_parent j) = l.getI c := by
            rw [hpj, ihc.1 idx (by omega) hninc, hAidx]
          rw [hrj, hro]
          exact hsel j hjlen hpj hji
        · have hpd' : Desc idx (get_parent j) := desc_parent hd hjne
          have hpnc : ¬ Desc c (get_parent j) := fun hcon =>
            hdc (desc_child_up hcon hj0 rfl)
          have hple : get_parent j ≤ j := get_parent_le j
          have hrp : (bubbleDownGo less A cur c).getI (get_parent j)
              = l.getI (get_parent j) := by
            rw [ihc.1 (get_parent j) (by omega) hpnc, hAother _ hpj]
          rw [hrj, hrp]
          exact pre j hjlen hd hjne hpj
    · -- dominance
      intro x hx hdom j hjlen hd
      by_cases hdc : Desc c j
      · apply ihc.2.2 x hx ?_ j (by omega) hdc
        intro j' hj'len hd' hj'c
        rw [hAlen] at hj'len
        have hjlb' : 2 * c + 1 ≤ j' := desc_ne_ge hd' hj'c
        rw [hAother j' (by omega)]
        exact hdom j' hj'len (hcup j' hd') (by omega)
      · have hrj : (bubbleDownGo less A cur c).getI j = A.getI j :=
          ihc.1 j (by omega) hdc
        by_cases hji : j = idx
        · subst hji
          rw [hrj, hAidx]
          exact hdom c hcub (hcup c (Desc.refl c)) hcne
        · rw [hrj, hAother j hji]
          exact hdom j hjlen hd hji
  | case2 l cur idx h hless =>
    intro hidx pre
    rw [bubbleDownGo.eq_def, dif_pos h, if_neg hless]
    have hgl := get_left_eq idx
    have hexit : less (l.getI (pickChild less l (get_left idx))) cur = false := by
      simpa using hless
    have hsel := @pickChild_sel T _ less hasymm l idx
    refine ⟨?_, ?_, ?_⟩
    · intro j hjlen hnd
      have hji : j ≠ idx := fun hh => hnd (hh ▸ Desc.refl idx)
      rw [getI_set_ne j (fun hh => hji hh.symm)]
    · intro j hjlen hd hjne
      rw [getI_set_ne j (fun hh => hjne hh.symm)]
      by_cases hpj : get_parent j = idx
      · rw [hpj, getI_set_self hidx]
        exact hneg _ _ _ (hsel j hjlen hpj hjne) hexit
      · rw [getI_set_ne _ (fun hh => hpj hh.symm)]
        exact pre j hjlen hd hjne hpj
    · intro x hx hdom j hjlen hd
      by_cases hji : j = idx
      · subst hji
        rw [getI_set_self hidx]
        exact hx
      · rw [getI_set_ne j (fun hh => hji hh.symm)]
        exact hdom j hjlen hd hji
  | case3 l cur idx h =>
    intro hidx pre
    rw [bubbleDownGo.eq_def, dif_neg h]
    have hgl := get_left_eq idx
    refine ⟨?_, ?_, ?_⟩
    · intro j hjlen hnd
      have hji : j ≠ idx := fun hh => hnd (hh ▸ Desc.refl idx)
      rw [getI_set_ne j (fun hh => hji hh.symm)]
    · intro j hjlen hd hjne
      have := desc_ne_ge hd hjne
      omega
    · intro x hx hdom j hjlen hd
      by_cases hji : j = idx
      · subst hji
        rw [getI_set_self hidx]
        exact hx
      · have := desc_ne_ge hd hji
        omega

/-- Bubble-down is content-preserving. -/
theorem bubbleDownGo_multiset (l : List T) (cur : T) (idx : Nat) (hidx : idx < l.length) :
    ((bubbleDownGo less l cur idx : List T) : Multiset T)
      = ((l.set idx cur : List T) : Multiset T) := by
  induction l, cur, idx using bubbleDownGo.induct less with
  | case1 l cur idx h hless ih =>
    rw [bubbleDownGo.eq_def, dif_pos h, if_pos hless]
    have hclb := pickChild_lb less l (get_left idx)
    have hcub := pickChild_ub less h
    have hcne := @pickChild_ne T _ less l idx
    have hgl := get_left_eq idx
    set c := pickChild less l (get_left idx) with hcdef
    set A := l.set idx (l.getI c) with hAdef
    have hAc : A.getI c = l.getI c := getI_set_ne c (Ne.symm hcne) _
    have ihA := ih (by simp [hAdef]; omega)
    rw [ihA]
    have e1 : ((A.set c cur : List T) : Multiset T) + {l.getI c}
        = (A : Multiset T) + {cur} := by
      have := multiset_set (l := A) (i := c) (by simp [hAdef]; omega) cur
      rwa [hAc] at this
    have e2 : (A : Multiset T) + {l.getI idx} = (l : Multiset T) + {l.getI c} :=
      multiset_set hidx _
    have e3 : ((l.set idx cur : List T) : Multiset T) + {l.getI idx}
        = (l : Multiset T) + {cur} := multiset_set hidx _
    apply add_right_cancel (b := ({l.getI c} : Multiset T))
    apply add_right_cancel (b := ({l.getI idx} : Multiset T))
    calc ((A.set c cur : List T) : Multiset T) + {l.getI c} + {l.getI idx}
        = ((A : Multiset T) + {cur}) + {l.getI idx} := by rw [e1]
      _ = ((A : Multiset T) + {l.getI idx}) + {cur} := by abel
      _ = ((l : Multiset T) + {l.getI c}) + {cur} := by rw [e2]
      _ = ((l : Multiset T) + {cur}) + {l.getI c} := by abel
      _ = (((l.set idx cur : List T) : Multiset T) + {l.getI idx}) + {l.getI c} := by
            rw [e3]
      _ = ((l.set idx cur : List T) : Multiset T) + {l.getI c} + {l.getI idx} := by abel
  | case2 l cur idx h hless =>
    rw [bubbleDownGo.eq_def, dif_pos h, if_neg hless]
  | case3 l cur idx h =>
    rw [bubbleDownGo.eq_def, dif_neg h]

theorem bubble_down_multiset (l : List T) (idx : Nat) (hidx : idx < l.length) :
    ((bubble_down less l idx : List T) : Multiset T) = (l : Multiset T) := by
  unfold bubble_down
  rw [bubbleDownGo_multiset _ _ _ hidx, set_getI_self hidx]

/-- `replace_top` swaps the root for the new value in the content. -/
theorem replace_top_multiset (l : List T) (v : T) (hl : l ≠ []) :
    ((replace_top less l v : List T) : Multiset T) + {l.getI 0}
      = (l : Multiset T) + {v} := by
  have hpos : 0 < l.length := List.length_pos.mpr hl
  unfold replace_top
  rw [bubble_down_multiset _ _ (by simpa using hpos)]
  exact multiset_set hpos _

/-- `replace_top` preserves the heap invariant. -/
theorem replace_top_inv
    (hasymm : ∀ a b, less a b = true → less b a = false)
    (htrans : ∀ a b c, less a b = true → less b c = true → less a c = true)
    (hneg : ∀ a b c, less a b = false → less b c = false → less a c = false)
    {l : List T} (hInv : Inv less l) (hl : l ≠ []) (v : T) :
    Inv less (replace_top less l v) := by
  have hpos : 0 < l.length := List.length_pos.mpr hl
  unfold replace_top bubble_down
  have hspec := bubbleDownGo_spec hasymm htrans hneg (l.set 0 v)
    ((l.set 0 v).getI 0) 0 (by simpa using hpos) ?pre
  case pre =>
    intro j hjlen hd hjne hpjne
    rw [List.length_set] at hjlen
    rw [getI_set_ne j (fun hh => hjne hh.symm), getI_set_ne _ (fun hh => hpjne hh.symm)]
    exact hInv j (by omega) hjlen
  intro i hi0 hilen
  rw [bubbleDownGo_length, List.length_set] at hilen
  exact hspec.2.1 i (by simpa using hilen) (desc_root i) (by omega)

/-- One heapify step: after `bubble_down i`, every edge whose parent is
`≥ i` holds, provided that held for parents `≥ i + 1`. -/
theorem heapify_step
    (hasymm : ∀ a b, less a b = true → less b a = false)
    (htrans : ∀ a b c, less a b = true → less b c = true → less a c = true)
    (hneg : ∀ a b c, less a b = false → less b c = false → less a c = false)
    {l : List T} {i : Nat} (hi : i < l.length)
    (hH : ∀ j, 0 < j → j < l.length → i + 1 ≤ get_parent j →
      less (l.getI j) (l.getI (get_parent j)) = false) :
    ∀ j, 0 < j → j < l.length → i ≤ get_parent j →
      less ((bubble_down less l i).getI j)
        ((bubble_down less l i).getI (get_parent j)) = false := by
  unfold bubble_down
  have hspec := bubbleDownGo_spec hasymm htrans hneg l (l.getI i) i hi ?pre
  case pre =>
    intro j hjlen hd hjne hpjne
    have hpd : Desc i (get_parent j) := desc_parent hd hjne
    have hpge : i ≤ get_parent j := hpd.le'
    exact hH j (by have := desc_ne_ge hd hjne; omega) hjlen (by omega)
  intro j hj0 hjlen hpge
  by_cases hdj : Desc i j
  · have hjne : j ≠ i := by
      intro hh
      subst hh
      rcases Nat.eq_zero_or_pos j with h0 | h0
      · omega
      · have := get_parent_lt h0
        omega
    exact hspec.2.1 j hjlen hdj hjne
  · have hpnd : ¬ Desc i (get_parent j) := fun hcon => hdj (desc_child_up hcon hj0 rfl)
    have hple : get_parent j ≤ j := get_parent_le j
    rw [hspec.1 j hjlen hdj, hspec.1 (get_parent j) (by omega) hpnd]
    have hpne : get_parent j ≠ i := fun hh => hpnd (hh ▸ Desc.refl i)
    exact hH j hj0 hjlen (by omega)

theorem heapifyFrom_inv
    (hasymm : ∀ a b, less a b = true → less b a = false)
    (htrans : ∀ a b c, less a b = true → less b c = true → less a c = true)
    (hneg : ∀ a b c, less a b = false → less b c = false → less a c = false) :
    ∀ (k : Nat) (l : List T), k ≤ l.length →
    (∀ j, 0 < j → j < l.length → k ≤ get_parent j →
      less (l.getI j) (l.getI (get_parent j)) = false) →
    Inv less (heapifyFrom less l k) := by
  intro k
  induction k with
  | zero =>
    intro l _ hH
    exact fun i hi0 hilen => hH i hi0 hilen (Nat.zero_le _)
  | succ k ih =>
    intro l hk hH
    rw [heapifyFrom]
    apply ih
    · rw [bubble_down_length]; omega
    · intro j hj0 hjlen hpge
      rw [bubble_down_length] at hjlen
      exact heapify_step hasymm htrans hneg (by omega) hH j hj0 hjlen hpge

/-- `heapify` establishes the heap invariant from an arbitrary sequence. -/
theorem heapify_inv
    (hasymm : ∀ a b, less a b = true → less b a = false)
    (htrans : ∀ a b c, less a b = true → less b c = true → less a c = true)
    (hneg : ∀ a b c, less a b = false → less b c = false → less a c = false)
    (l : List T) : Inv less (heapify less l) := by
  unfold heapify
  apply heapifyFrom_inv hasymm htrans hneg
  · omega
  · intro j hj0 hjlen hpge
    rw [get_parent_eq] at hpge
    omega

theorem heapifyFrom_multiset :
    ∀ (k : Nat) (l : List T), k ≤ l.length →
      ((heapifyFrom less l k : List T) : Multiset T) = (l : Multiset T) := by
  intro k
  induction k with
  | zero => intro l _; rfl
  | succ k ih =>
    intro l hk
    rw [heapifyFrom, ih _ (by rw [bubble_down_length]; omega),
      bubble_down_multiset _ _ (by omega)]

/-- `heapify` permutes the input. -/
theorem heapify_multiset (l : List T) :
    ((heapify less l : List T) : Multiset T) = (l : Multiset T) :=
  heapifyFrom_multiset _ _ (by omega)

/-- `pop` preserves the heap invariant. -/
theorem pop_inv
    (hasymm : ∀ a b, less a b = true → less b a = false)
    (htrans : ∀ a b c, less a b = true → less b c = true → less a c = true)
    (hneg : ∀ a b c, less a b = false → less b c = false → less a c = false)
    {l : List T} (hInv : Inv less l) (hl : l ≠ []) : Inv less (pop less l) := by
  have hpos : 0 < l.length := List.length_pos.mpr hl
  obtain ⟨hk0, hklen, hkleaf⟩ := @moveHoleDownGo_snd T _ less l 0 hpos
  have hpinv : Inv less (moveHoleDownGo less l 0).1 :=
    moveHoleDownGo_inv hasymm hneg l 0 hInv
  unfold pop move_hole_down
  dsimp only
  set p := moveHoleDownGo less l 0 with hpdef
  have hplen : p.1.length = l.length := moveHoleDownGo_length ..
  split
  · exact inv_dropLast hpinv
  · rename_i hlast
    have hklt : p.2 < l.length - 1 := by omega
    set vlast := p.1.getI (p.1.length - 1) with hvdef
    set B := p.1.set p.2 vlast with hBdef
    have hBlen : B.length = l.length := by simp [hBdef, hplen]
    have hDlen : B.dropLast.length = l.length - 1 := by simp [hBlen]
    have hDget : ∀ j, j < l.length - 1 → j ≠ p.2 →
        (B.dropLast).getI j = p.1.getI j := by
      intro j hjlen hjne
      rw [getI_dropLast (by omega), hBdef, getI_set_ne _ (fun hh => hjne hh.symm)]
    unfold bubble_up
    apply bubbleUpGo_inv hasymm htrans hneg _ _ _ (by omega)
    · -- heap away from the hole p.2
      intro j hj0 hjlen hjne
      rw [hDlen] at hjlen
      have hpjne : get_parent j ≠ p.2 := by
        intro hcon
        rcases children_of hcon hj0 with hj | hj <;>
          (unfold get_left at hkleaf; omega)
      rw [hDget j hjlen hjne, hDget _ (by have := get_parent_lt hj0; omega) hpjne]
      exact hpinv j hj0 (by omega)
    · -- the hole is a leaf in the shrunk sequence
      intro j hjlen hpj hjne
      rw [hDlen] at hjlen
      exfalso
      rcases children_of hpj (by unfold get_parent at hpj; omega) with hj | hj <;>
        (unfold get_left at hkleaf; omega)
    · intro j hjlen hpj hjne _
      rw [hDlen] at hjlen
      exfalso
      rcases children_of hpj (by unfold get_parent at hpj; omega) with hj | hj <;>
        (unfold get_left at hkleaf; omega)

/-- Every reachable BinaryHeap state satisfies the heap invariant. -/
theorem reachable_inv
    (hasymm : ∀ a b, less a b = true → less b a = false)
    (htrans : ∀ a b c, less a b = true → less b c = true → less a c = true)
    (hneg : ∀ a b c, less a b = false → less b c = false → less a c = false)
    {l : List T} (hr : Reachable less l) : Inv less l := by
  induction hr with
  | empty => intro i hi0 hilen; simp at hilen
  | heapify l₀ => exact heapify_inv hasymm htrans hneg l₀
  | push l v _ ih => exact push_inv hasymm htrans hneg ih v
  | pop l _ hne ih => exact pop_inv hasymm htrans hneg ih hne
  | replace l v _ hne ih => exact replace_top_inv hasymm htrans hneg ih hne v

/-- In a heap, the root is a member and a minimal element of the content. -/
theorem inv_top_min
    (hasymm : ∀ a b, less a b = true → less b a = false)
    (hneg : ∀ a b c, less a b = false → less b c = false → less a c = false)
    {l : List T} (hInv : Inv less l) (hl : l ≠ []) :
    l.getI 0 ∈ l ∧ ∀ x ∈ l, less x (l.getI 0) = false := by
  have hpos : 0 < l.length := List.length_pos.mpr hl
  constructor
  · rw [List.getI_eq_getElem _ hpos]
    exact List.getElem_mem _
  · intro x hx
    obtain ⟨i, hi, rfl⟩ := List.mem_iff_getElem.mp hx
    rw [← List.getI_eq_getElem _ hi]
    exact inv_min hasymm hneg hInv i hi

/-- The pop sequence enumerates the content (with enough fuel). -/
theorem popSeq_multiset :
    ∀ (fuel : Nat) (l : List T), l.length ≤ fuel →
      ((popSeq less fuel l : List T) : Multiset T) = (l : Multiset T) := by
  intro fuel
  induction fuel with
  | zero =>
    intro l hfuel
    have : l = [] := by
      cases l with
      | nil => rfl
      | cons a t => simp at hfuel
    subst this
    rfl
  | succ fuel ih =>
    intro l hfuel
    cases l with
    | nil => rfl
    | cons a t =>
      show (((a :: t).getI 0 :: popSeq less fuel (pop less (a :: t)) : List T)
        : Multiset T) = _
      rw [← Multiset.cons_coe, ih _ (by rw [pop_length]; simp at hfuel ⊢; omega)]
      rw [← Multiset.singleton_add]
      rw [add_comm]
      exact pop_multiset (a :: t) (by simp)

/-- Every element read by the pop sequence is an element of the heap. -/
theorem popSeq_subset :
    ∀ (fuel : Nat) (l : List T) (x : T), x ∈ popSeq less fuel l → x ∈ l := by
  intro fuel
  induction fuel with
  | zero => intro l x hx; simp [popSeq] at hx
  | succ fuel ih =>
    intro l x hx
    cases l with
    | nil => simp [popSeq] at hx
    | cons a t =>
      have : x = (a :: t).getI 0 ∨ x ∈ popSeq less fuel (pop less (a :: t)) := by
        simpa [popSeq] using hx
      rcases this with h | h
      · rw [h, List.getI_eq_getElem _ (by simp : (0 : Nat) < (a :: t).length)]
        exact List.getElem_mem _
      · have hxp : x ∈ pop less (a :: t) := ih _ x h
        have hm := @pop_multiset T _ less (a :: t) (by simp)
        have : x ∈ ((pop less (a :: t) : List T) : Multiset T)
            + {(a :: t).getI 0} := by
          rw [Multiset.mem_add]
          exact Or.inl (by simpa using hxp)
        rw [hm] at this
        simpa using this

/-- The pop sequence of a valid heap is non-decreasing under the comparator. -/
theorem popSeq_sorted
    (hasymm : ∀ a b, less a b = true → less b a = false)
    (htrans : ∀ a b c, less a b = true → less b c = true → less a c = true)
    (hneg : ∀ a b c, less a b = false → less b c = false → less a c = false) :
    ∀ (fuel : Nat) (l : List T), Inv less l →
      List.Sorted (fun a b => less b a = false) (popSeq less fuel l) := by
  intro fuel
  induction fuel with
  | zero => intro l _; simp [popSeq]
  | succ fuel ih =>
    intro l hInv
    cases l with
    | nil => simp [popSeq]
    | cons a t =>
      show List.Sorted _ ((a :: t).getI 0 :: popSeq less fuel (pop less (a :: t)))
      rw [List.sorted_cons]
      constructor
      · intro b hb
        have hbp : b ∈ pop less (a :: t) := popSeq_subset _ _ b hb
        have hm := @pop_multiset T _ less (a :: t) (by simp)
        have hmem : b ∈ ((pop less (a :: t) : List T) : Multiset T)
            + {(a :: t).getI 0} := by
          rw [Multiset.mem_add]
          exact Or.inl (by simpa using hbp)
        rw [hm] at hmem
        have hbl : b ∈ (a :: t) := by simpa using hmem
        exact (inv_top_min hasymm hneg hInv (by simp)).2 b hbl
      · exact ih _ (pop_inv hasymm htrans hneg hInv (by simp))

/-- Two valid heaps with the same content produce the same pop sequence,
when incomparable elements are equal (antisymmetric comparator). -/
theorem popSeq_congr
    (hasymm : ∀ a b, less a b = true → less b a = false)
    (htrans : ∀ a b c, less a b = true → less b c = true → less a c = true)
    (hneg : ∀ a b c, less a b = false → less b c = false → less a c = false)
    (hanti : ∀ a b : T, less a b = false → less b a = false → a = b) :
    ∀ (fuel : Nat) (l₁ l₂ : List T), Inv less l₁ → Inv less l₂ →
      (l₁ : Multiset T) = (l₂ : Multiset T) →
      popSeq less fuel l₁ = popSeq less fuel l₂ := by
  intro fuel
  induction fuel with
  | zero => intro l₁ l₂ _ _ _; rfl
  | succ fuel ih =>
    intro l₁ l₂ h1 h2 hm
    have hlen : l₁.length = l₂.length := by
      have := congrArg Multiset.card hm
      simpa using this
    cases hl1 : l₁ with
    | nil =>
      cases hl2 : l₂ with
      | nil => rfl
      | cons b t₂ => rw [hl1, hl2] at hlen; simp at hlen
    | cons a t₁ =>
      cases hl2 : l₂ with
      | nil => rw [hl1, hl2] at hlen; simp at hlen
      | cons b t₂ =>
        subst hl1; subst hl2
        have hne1 : (a :: t₁ : List T) ≠ [] := by simp
        have hne2 : (b :: t₂ : List T) ≠ [] := by simp
        have hmin1 := inv_top_min hasymm hneg h1 hne1
        have hmin2 := inv_top_min hasymm hneg h2 hne2
        have hm12 : (a :: t₁).getI 0 ∈ (b :: t₂) := by
          have : (a :: t₁).getI 0 ∈ ((a :: t₁ : List T) : Multiset T) := by
            simpa using hmin1.1
          rw [hm] at this
          simpa using this
        have hm21 : (b :: t₂).getI 0 ∈ (a :: t₁) := by
          have : (b :: t₂).getI 0 ∈ ((b :: t₂ : List T) : Multiset T) := by
            simpa using hmin2.1
          rw [← hm] at this
          simpa using this
        have hhead : (a :: t₁).getI 0 = (b :: t₂).getI 0 :=
          hanti _ _ (hmin2.2 _ hm12) (hmin1.2 _ hm21)
        show (a :: t₁).getI 0 :: popSeq less fuel (pop less (a :: t₁))
          = (b :: t₂).getI 0 :: popSeq less fuel (pop less (b :: t₂))
        rw [hhead]
        congr 1
        apply ih _ _ (pop_inv hasymm htrans hneg h1 hne1)
          (pop_inv hasymm htrans hneg h2 hne2)
        apply add_right_cancel (b := ({(b :: t₂).getI 0} : Multiset T))
        rw [pop_multiset _ hne2, ← hhead, pop_multiset _ hne1, hm]

/-- `replace_top v` and `pop` followed by `push v` produce the same content. -/
theorem fusion_multiset (l : List T) (v : T) (hl : l ≠ []) :
    ((replace_top less l v : List T) : Multiset T)
      = ((push less (pop less l) v : List T) : Multiset T) := by
  apply add_right_cancel (b := ({l.getI 0} : Multiset T))
  rw [replace_top_multiset _ _ hl, push_multiset]
  have := @pop_multiset T _ less l hl
  calc (l : Multiset T) + {v}
      = ((pop less l : List T) : Multiset T) + {l.getI 0} + {v} := by rw [this]
    _ = ((pop less l : List T) : Multiset T) + {v} + {l.getI 0} := by abel

/-- Below `2^64` and away from the root, the wrapped parent computation
agrees with the mathematical one. -/
theorem getParentWrap_eq {idx : Nat} (h1 : 0 < idx) (h2 : idx < 2 ^ 64) :
    getParentWrap idx = get_parent idx := by
  unfold getParentWrap get_parent
  have hmod : (idx + (2 ^ 64 - 1)) % 2 ^ 64 = idx - 1 := by omega
  rw [hmod]

/-- The checked bubble-up loop never fails and agrees with the plain loop
when started in bounds on a sequence indexable by `size_t`. -/
theorem bubbleUpGoW_eq :
    ∀ (idx : Nat) (l : List T) (cur : T), idx < l.length → l.length ≤ 2 ^ 64 →
      bubbleUpGoW less l cur idx = some (bubbleUpGo less l cur idx) := by
  intro idx
  induction idx using Nat.strong_induction_on with
  | _ idx ih =>
    intro l cur hlt hlen
    rw [bubbleUpGoW.eq_def, bubbleUpGo.eq_def]
    by_cases h0 : 0 < idx
    · rw [if_pos h0]
      have hw : getParentWrap idx = get_parent idx := getParentWrap_eq h0 (by omega)
      have hplt : get_parent idx < l.length := by
        unfold get_parent
        omega
      rw [hw]
      have hsome : l[get_parent idx]? = some (l.getI (get_parent idx)) := by
        rw [List.getElem?_eq_getElem hplt, List.getI_eq_getElem _ hplt]
      simp only [hsome]
      by_cases hc : less cur (l.getI (get_parent idx)) = true
      · rw [if_pos hc, if_pos hlt, if_pos ⟨h0, hc⟩]
        exact ih (get_parent idx) (by unfold get_parent; omega)
          (l.set idx (l.getI (get_parent idx))) cur
          (by simp only [List.length_set]; omega)
          (by simp only [List.length_set]; omega)
      · rw [if_neg hc, if_pos hlt, if_neg (fun hand => hc hand.2)]
    · rw [if_neg h0, if_pos hlt, if_neg (fun hand => h0 hand.1)]

/-- **C9**, BinaryHeap side: `push` with every access bounds-checked and the
parent computed in exact `size_t` arithmetic succeeds and agrees with the
plain model whenever the resulting size fits in `size_t`. -/
theorem pushW_eq (l : List T) (v : T) (hlen : l.length + 1 ≤ 2 ^ 64) :
    pushW less l v = some (push less l v) := by
  unfold pushW push bubble_up
  have hidx : l.length < (l ++ [v]).length := by simp
  have hsome : (l ++ [v])[l.length]? = some ((l ++ [v]).getI l.length) := by
    rw [List.getElem?_eq_getElem hidx, List.getI_eq_getElem _ hidx]
  simp only [hsome]
  exact bubbleUpGoW_eq l.length (l ++ [v]) _ hidx (by simp; omega)

/-- The checked child selection never fails and agrees with the plain one
when the left child is in bounds. -/
theorem pickChildW_eq {l : List T} {child : Nat} (h : child < l.length) :
    pickChildW less l child = some (pickChild less l child) := by
  unfold pickChildW pickChild
  by_cases h1 : child + 1 < l.length
  · rw [if_pos h1]
    have hs1 : l[child + 1]? = some (l.getI (child + 1)) := by
      rw [List.getElem?_eq_getElem h1, List.getI_eq_getElem _ h1]
    have hs2 : l[child]? = some (l.getI child) := by
      rw [List.getElem?_eq_getElem h, List.getI_eq_getElem _ h]
    simp only [hs1, hs2]
    by_cases hc : less (l.getI (child + 1)) (l.getI child) = true
    · rw [if_pos hc, if_pos ⟨h1, hc⟩]
    · rw [if_neg hc,
        if_neg (fun hand : child + 1 < l.length
            ∧ less (l.getI (child + 1)) (l.getI child) = true => hc hand.2)]
  · rw [if_neg h1,
      if_neg (fun hand : child + 1 < l.length
          ∧ less (l.getI (child + 1)) (l.getI child) = true => h1 hand.1)]

/-- The checked bubble-down loop never fails and agrees with the plain
loop. -/
theorem bubbleDownGoW_eq :
    ∀ (fuel : Nat) (l : List T) (cur : T) (idx : Nat), idx < l.length →
      l.length - idx ≤ fuel → 0 < fuel →
      bubbleDownGoW less fuel l cur idx = some (bubbleDownGo less l cur idx) := by
  intro fuel
  induction fuel with
  | zero => intro l cur idx hidx hf hf0; exact absurd hf0 (by omega)
  | succ fuel ih =>
    intro l cur idx hidx hf hf0
    rw [bubbleDownGoW, bubbleDownGo.eq_def]
    by_cases h : get_left idx < l.length
    · rw [if_pos h, dif_pos h]
      simp only [pickChildW_eq h]
      have hcub : pickChild less l (get_left idx) < l.length := pickChild_ub less h
      have hsc : l[pickChild less l (get_left idx)]?
          = some (l.getI (pickChild less l (get_left idx))) := by
        rw [List.getElem?_eq_getElem hcub, List.getI_eq_getElem _ hcub]
      simp only [hsc]
      by_cases hcond : less (l.getI (pickChild less l (get_left idx))) cur = true
      · rw [if_pos hcond, if_pos hidx, if_pos hcond]
        exact ih (l.set idx (l.getI (pickChild less l (get_left idx)))) cur
          (pickChild less l (get_left idx))
          (by simp only [List.length_set]; omega)
          (by have h1 := pickChild_lb less l (get_left idx)
              have h2 := get_left_eq idx
              simp only [List.length_set]
              omega)
          (by have h1 := pickChild_lb less l (get_left idx)
              have h2 := get_left_eq idx
              omega)
      · rw [if_neg hcond, if_pos hidx, if_neg hcond]
    · rw [if_neg h, dif_neg h, if_pos hidx]

/-- The checked bubble-up loop (mathematical parent) never fails and agrees
with the plain loop when started in bounds. -/
theorem bubbleUpGoP_eq :
    ∀ (idx : Nat) (l : List T) (cur : T), idx < l.length →
      bubbleUpGoP less l cur idx = some (bubbleUpGo less l cur idx) := by
  intro idx
  induction idx using Nat.strong_induction_on with
  | _ idx ih =>
    intro l cur hlt
    rw [bubbleUpGoP.eq_def, bubbleUpGo.eq_def]
    by_cases h0 : 0 < idx
    · rw [if_pos h0]
      have hplt : get_parent idx < l.length := by
        unfold get_parent
        omega
      have hsome : l[get_parent idx]? = some (l.getI (get_parent idx)) := by
        rw [List.getElem?_eq_getElem hplt, List.getI_eq_getElem _ hplt]
      simp only [hsome]
      by_cases hc : less cur (l.getI (get_parent idx)) = true
      · rw [if_pos hc, if_pos hlt, if_pos ⟨h0, hc⟩]
        exact ih (get_parent idx) (by unfold get_parent; omega)
          (l.set idx (l.getI (get_parent idx))) cur
          (by simp only [List.length_set]; omega)
      · rw [if_neg hc, if_pos hlt, if_neg (fun hand => hc hand.2)]
    · rw [if_neg h0, if_pos hlt, if_neg (fun hand => h0 hand.1)]

/-- The checked hole-propagation loop never fails and agrees with the plain
loop. -/
theorem moveHoleDownGoW_eq :
    ∀ (fuel : Nat) (l : List T) (idx : Nat), idx < l.length →
      l.length - idx ≤ fuel → 0 < fuel →
      moveHoleDownGoW less fuel l idx = some (moveHoleDownGo less l idx) := by
  intro fuel
  induction fuel with
  | zero => intro l idx hidx hf hf0; exact absurd hf0 (by omega)
  | succ fuel ih =>
    intro l idx hidx hf hf0
    rw [moveHoleDownGoW, moveHoleDownGo.eq_def]
    by_cases h : get_left idx < l.length
    · rw [if_pos h, dif_pos h]
      simp only [pickChildW_eq h]
      have hcub : pickChild less l (get_left idx) < l.length := pickChild_ub less h
      have hsc : l[pickChild less l (get_left idx)]?
          = some (l.getI (pickChild less l (get_left idx))) := by
        rw [List.getElem?_eq_getElem hcub, List.getI_eq_getElem _ hcub]
      simp only [hsc]
      rw [if_pos hidx]
      exact ih (l.set idx (l.getI (pickChild less l (get_left idx))))
        (pickChild less l (get_left idx))
        (by simp only [List.length_set]; omega)
        (by have h1 := pickChild_lb less l (get_left idx)
            have h2 := get_left_eq idx
            simp only [List.length_set]
            omega)
        (by have h1 := pickChild_lb less l (get_left idx)
            have h2 := get_left_eq idx
            omega)
    · rw [if_neg h, dif_neg h]

/-- **C5**, `BinaryHeap::top`: the checked read never fails on a non-empty
heap. -/
theorem topW_eq (l : List T) (hl : l ≠ []) : topW (T := T) l = some (l.getI 0) := by
  have hpos : 0 < l.length := List.length_pos.mpr hl
  unfold topW
  rw [if_neg (by omega), List.getElem?_eq_getElem hpos, List.getI_eq_getElem _ hpos]

/-- **C5**, `BinaryHeap::pop`: on a non-empty heap the checked model never
fails and agrees with the plain one. -/
theorem popW_eq (l : List T) (hl : l ≠ []) : popW less l = some (pop less l) := by
  have hpos : 0 < l.length := List.length_pos.mpr hl
  unfold popW pop move_hole_down
  dsimp only
  rw [if_neg (by omega)]
  simp only [moveHoleDownGoW_eq l.length l 0 hpos (by omega) (by omega)]
  obtain ⟨hk0, hklen, hkleaf⟩ := @moveHoleDownGo_snd T _ less l 0 hpos
  have hplen : (moveHoleDownGo less l 0).1.length = l.length := by
    rw [moveHoleDownGo_length]
  by_cases hlast : (moveHoleDownGo less l 0).2 + 1 = (moveHoleDownGo less l 0).1.length
  · rw [if_pos hlast, if_pos hlast]
  · rw [if_neg hlast, if_neg hlast]
    have hs1 : (moveHoleDownGo less l 0).1[(moveHoleDownGo less l 0).1.length - 1]?
        = some ((moveHoleDownGo less l 0).1.getI
          ((moveHoleDownGo less l 0).1.length - 1)) := by
      rw [List.getElem?_eq_getElem (by omega), List.getI_eq_getElem _ (by omega)]
    simp only [hs1]
    rw [if_pos (by omega)]
    have hb2 : (moveHoleDownGo less l 0).2
        < (((moveHoleDownGo less l 0).1.set (moveHoleDownGo less l 0).2
          ((moveHoleDownGo less l 0).1.getI
            ((moveHoleDownGo less l 0).1.length - 1))).dropLast).length := by
      simp only [List.length_dropLast, List.length_set]
      omega
    have hs2 : (((moveHoleDownGo less l 0).1.set (moveHoleDownGo less l 0).2
          ((moveHoleDownGo less l 0).1.getI
            ((moveHoleDownGo less l 0).1.length - 1))).dropLast)[(moveHoleDownGo
          less l 0).2]?
        = some ((((moveHoleDownGo less l 0).1.set (moveHoleDownGo less l 0).2
          ((moveHoleDownGo less l 0).1.getI
            ((moveHoleDownGo less l 0).1.length - 1))).dropLast).getI
          (moveHoleDownGo less l 0).2) := by
      rw [List.getElem?_eq_getElem hb2, List.getI_eq_getElem _ hb2]
    simp only [hs2]
    unfold bubble_up
    exact bubbleUpGoP_eq (moveHoleDownGo less l 0).2 _ _
      (by simp only [List.length_dropLast, List.length_set]; omega)

/-- **C5**, `BinaryHeap::replace_top`: on a non-empty heap the checked model
never fails and agrees with the plain one. -/
theorem replaceTopW_eq (l : List T) (val : T) (hl : l ≠ []) :
    replaceTopW less l val = some (replace_top less l val) := by
  have hpos : 0 < l.length := List.length_pos.mpr hl
  unfold replaceTopW replace_top bubble_down
  rw [if_neg (by omega), if_pos hpos]
  have hs : (l.set 0 val)[0]? = some ((l.set 0 val).getI 0) := by
    rw [List.getElem?_eq_getElem (by simp only [List.length_set]; omega),
      List.getI_eq_getElem _ (by simp only [List.length_set]; omega)]
  simp only [hs]
  exact bubbleDownGoW_eq _ _ _ 0 (by simp only [List.length_set]; omega)
    (by omega) (by simp only [List.length_set]; omega)

end BinaryHeap

/-! ## IntervalHeap: invariant machinery -/

namespace IntervalHeap

variable {T : Type} [Inhabited T] {less : T → T → Bool}

theorem iless_irrefl (hasymm : ∀ a b, less a b = true → less b a = false) (a : T) :
    less a a = false := by
  by_cases h : less a a = true
  · exact hasymm a a h
  · simpa using h

theorem ipar_eq (i : Nat) : get_parent i = (i - 2) / 4 * 2 := rfl

theorem ileft_eq (i : Nat) : get_left i = (i + 1) * 2 := rfl

theorem ipar_even (i : Nat) : get_parent i % 2 = 0 := by
  unfold get_parent; omega

theorem ipar_sub2 {i : Nat} (h : 2 ≤ i) : get_parent i + 2 ≤ i := by
  unfold get_parent; omega

theorem ipar_pair {i : Nat} (h : i % 2 = 1) : get_parent i = get_parent (i - 1) := by
  unfold get_parent; omega

theorem ichildren {j p : Nat} (hj : j % 2 = 0) (h2 : 2 ≤ j) (hp : get_parent j = p) :
    j = 2 * p + 2 ∨ j = 2 * p + 4 := by
  unfold get_parent at hp; omega

theorem ichild_ge {j p : Nat} (hp : get_parent j = p) (h2 : 2 ≤ p) :
    2 * p + 2 ≤ j := by
  unfold get_parent at hp; omega

/-- In a valid interval heap the root min slot dominates everything. -/
theorem iinv_min
    (hasymm : ∀ a b, less a b = true → less b a = false)
    (hneg : ∀ a b c, less a b = false → less b c = false → less a c = false)
    {l : List T} (hI : IInv less l) :
    ∀ i, i < l.length → less (l.getI i) (l.getI 0) = false := by
  obtain ⟨h1, h2, h3, h4⟩ := hI
  intro i
  induction i using Nat.strong_induction_on with
  | _ i ih =>
    intro hilen
    rcases Nat.eq_zero_or_pos i with h0 | h0
    · subst h0; exact iless_irrefl hasymm _
    · by_cases hodd : i % 2 = 1
      · exact hneg _ _ _ (h1 i hilen hodd) (ih (i - 1) (by omega) (by omega))
      · have heven : i % 2 = 0 := by omega
        have h2i : 2 ≤ i := by omega
        have := ipar_sub2 h2i
        exact hneg _ _ _ (h2 i hilen heven h2i)
          (ih (get_parent i) (by omega) (by omega))

/-- In a valid interval heap of size ≥ 2 the slot-1 max dominates every
max slot (odd index or trailing lone min). -/
theorem iinv_max_odd
    (hasymm : ∀ a b, less a b = true → less b a = false)
    (hneg : ∀ a b c, less a b = false → less b c = false → less a c = false)
    {l : List T} (hI : IInv less l) :
    ∀ i, i < l.length → i % 2 = 1 → less (l.getI 1) (l.getI i) = false := by
  obtain ⟨h1, h2, h3, h4⟩ := hI
  intro i
  induction i using Nat.strong_induction_on with
  | _ i ih =>
    intro hilen hodd
    by_cases hi1 : i = 1
    · subst hi1; exact iless_irrefl hasymm _
    · have h3i : 3 ≤ i := by omega
      have := ipar_sub2 (show 2 ≤ i by omega)
      have hpe := ipar_even i
      exact hneg _ _ _
        (ih (get_parent i + 1) (by omega) (by omega) (by omega))
        (h3 i hilen hodd h3i)

/-- In a valid interval heap of size ≥ 2 the slot-1 max dominates every
element. -/
theorem iinv_max
    (hasymm : ∀ a b, less a b = true → less b a = false)
    (hneg : ∀ a b c, less a b = false → less b c = false → less a c = false)
    {l : List T} (hI : IInv less l) (hlen : 2 ≤ l.length) :
    ∀ i, i < l.length → less (l.getI 1) (l.getI i) = false := by
  intro i hilen
  by_cases hodd : i % 2 = 1
  · exact iinv_max_odd hasymm hneg hI i hilen hodd
  · have heven : i % 2 = 0 := by omega
    by_cases hnext : i + 1 < l.length
    · exact hneg _ _ _ (iinv_max_odd hasymm hneg hI (i + 1) hnext (by omega))
        (hI.1 (i + 1) hnext (by omega))
    · -- i is the trailing lone min, or i = 0 with length 2 impossible here
      have hlast : i + 1 = l.length := by omega
      rcases Nat.eq_zero_or_pos i with h0 | h0
      · omega
      · have h2i : 2 ≤ i := by omega
        have := ipar_sub2 h2i
        have hpe := ipar_even i
        exact hneg _ _ _
          (iinv_max_odd hasymm hneg hI (get_parent i + 1) (by omega) (by omega))
          (hI.2.2.2 i hlast heven h2i)

/-- Invariant lemma for the min-chain of `bubble_up`: the hole at even index
`idx ≥ 2` carries `cur`, which is strictly below the parent min; the
sequence satisfies the invariant except at the hole, the hole's children and
pair max dominate both `cur` and the hole's parent min. -/
theorem bubbleUpMinGo_inv
    (hasymm : ∀ a b, less a b = true → less b a = false)
    (htrans : ∀ a b c, less a b = true → less b c = true → less a c = true)
    (hneg : ∀ a b c, less a b = false → less b c = false → less a c = false) :
    ∀ (l : List T) (cur : T) (idx : Nat),
      idx < l.length → idx % 2 = 0 → 2 ≤ idx →
      less cur (l.getI (get_parent idx)) = true →
      (∀ i, i < l.length → i % 2 = 1 → i ≠ idx + 1 →
        less (l.getI i) (l.getI (i - 1)) = false) →
      (∀ i, i < l.length → i % 2 = 0 → 2 ≤ i → i ≠ idx →
        less (l.getI i) (l.getI (get_parent i)) = false) →
      (∀ i, i < l.length → i % 2 = 1 → 3 ≤ i →
        less (l.getI (get_parent i + 1)) (l.getI i) = false) →
      (∀ i, i + 1 = l.length → i % 2 = 0 → 2 ≤ i → i ≠ idx →
        less (l.getI (get_parent i + 1)) (l.getI i) = false) →
      (∀ j, j < l.length → j % 2 = 0 → get_parent j = idx →
        less (l.getI j) cur = false) →
      (∀ j, j < l.length → j % 2 = 0 → get_parent j = idx →
        less (l.getI j) (l.getI (get_parent idx)) = false) →
      (idx + 1 < l.length → less (l.getI (idx + 1)) cur = false) →
      (idx + 1 < l.length → less (l.getI (idx + 1)) (l.getI (get_parent idx)) = false) →
      IInv less (bubbleUpMinGo less l cur idx) := by
  intro l cur idx
  induction l, cur, idx using bubbleUpMinGo.induct less with
  | case1 l cur idx hcond ih =>
    intro hidx heven h2idx hentry E1 E2 E3 E4 HC1 HM3 HC2 HC2'
    obtain ⟨hpar2, hcont⟩ := hcond
    rw [bubbleUpMinGo.eq_def, if_pos ⟨hpar2, hcont⟩]
    have hps := ipar_sub2 h2idx
    have hpe := ipar_even idx
    have hps' := ipar_sub2 (show 2 ≤ get_parent idx by omega)
    have hpe' := ipar_even (get_parent idx)
    set par := get_parent idx with hpardef
    set pv := l.getI par with hpvdef
    set A := l.set idx pv with hAdef
    have hAlen : A.length = l.length := by simp [hAdef]
    have hAidx : A.getI idx = pv := getI_set_self hidx _
    have hAo : ∀ j, j ≠ idx → A.getI j = l.getI j := fun j hj =>
      getI_set_ne j (fun hh => hj hh.symm) _
    have hparA : A.getI par = pv := by rw [hAo par (by omega), hpvdef]
    have hgparA : A.getI (get_parent par) = l.getI (get_parent par) :=
      hAo _ (by omega)
    apply ih (by omega) (by omega) (by omega) hcont
    · -- E1 for the new hole par
      intro i hilen hodd hne
      rw [hAlen] at hilen
      by_cases hip : i = idx + 1
      · subst hip
        rw [hAo _ (by omega)]
        have : idx + 1 - 1 = idx := by omega
        rw [this, hAidx]
        exact HC2' (by omega)
      · rw [hAo i (by omega), hAo (i - 1) (by omega)]
        exact E1 i hilen hodd hip
    · -- E2 for the new hole par
      intro i hilen hie h2i hne
      rw [hAlen] at hilen
      by_cases hii : i = idx
      · subst hii
        rw [hAidx, ← hpardef, hparA]
        exact iless_irrefl hasymm _
      · rw [hAo i hii]
        by_cases hpi : get_parent i = idx
        · rw [hpi, hAidx]
          exact HM3 i hilen hie hpi
        · rw [hAo _ hpi]
          exact E2 i hilen hie h2i hii
    · -- E3
      intro i hilen hodd h3i
      rw [hAlen] at hilen
      have hpei := ipar_even i
      rw [hAo i (by omega), hAo (get_parent i + 1) (by omega)]
      exact E3 i hilen hodd h3i
    · -- E4
      intro i hiplus hie h2i hne
      rw [hAlen] at hiplus
      have hpei := ipar_even i
      have := ipar_sub2 h2i
      by_cases hii : i = idx
      · subst hii
        rw [hAidx, hAo _ (by omega), ← hpardef]
        exact E1 (par + 1) (by omega) (by omega) (by omega)
      · rw [hAo i hii, hAo _ (by omega)]
        exact E4 i hiplus hie h2i hii
    · -- HC1 for par
      intro j hjlen hje hpj
      rw [hAlen] at hjlen
      by_cases hji : j = idx
      · subst hji
        rw [hAidx]
        exact hasymm _ _ hentry
      · rw [hAo j hji]
        by_cases hc : less (l.getI j) cur = true
        · have := htrans _ _ _ hc hentry
          have h2j : 2 ≤ j := by have := ichild_ge hpj (by omega); omega
          have hedge := E2 j hjlen hje (by omega) hji
          rw [hpj] at hedge
          rw [this] at hedge
          exact absurd hedge (by simp)
        · simpa using hc
    · -- HM3 for par
      intro j hjlen hje hpj
      rw [hAlen] at hjlen
      rw [hgparA]
      have h2p : 2 ≤ par := by omega
      by_cases hji : j = idx
      · subst hji
        rw [hAidx, hpvdef]
        exact E2 par (by omega) (by omega) h2p (by omega)
      · rw [hAo j hji]
        have h2j : 2 ≤ j := by have := ichild_ge hpj (by omega); omega
        have hedge := E2 j hjlen hje h2j hji
        rw [hpj] at hedge
        exact hneg _ _ _ hedge (E2 par (by omega) (by omega) h2p (by omega))
    · -- HC2 for par
      intro hlt
      rw [hAlen] at hlt
      rw [hAo _ (by omega)]
      by_cases hc : less (l.getI (par + 1)) cur = true
      · have hlc := htrans _ _ _ hc hentry
        have hedge := E1 (par + 1) (by omega) (by omega) (by omega)
        have h' : par + 1 - 1 = par := by omega
        rw [h'] at hedge
        rw [hlc] at hedge
        exact absurd hedge (by simp)
      · simpa using hc
    · -- HC2' for par
      intro hlt
      rw [hAlen] at hlt
      rw [hAo _ (by omega), hgparA]
      have h2p : 2 ≤ par := by omega
      have hedge := E1 (par + 1) (by omega) (by omega) (by omega)
      have hedge' : less (l.getI (par + 1)) (l.getI par) = false := by
        have h' : par + 1 - 1 = par := by omega
        rwa [h'] at hedge
      exact hneg _ _ _ hedge' (E2 par (by omega) (by omega) h2p (by omega))
  | case2 l cur idx hcond =>
    intro hidx heven h2idx hentry E1 E2 E3 E4 HC1 HM3 HC2 HC2'
    rw [bubbleUpMinGo.eq_def, if_neg hcond]
    have hps := ipar_sub2 h2idx
    have hpe := ipar_even idx
    set par := get_parent idx with hpardef
    set pv := l.getI par with hpvdef
    have hrlen : ((l.set idx pv).set par cur).length = l.length := by simp
    have hr1 : ((l.set idx pv).set par cur).getI idx = pv := by
      rw [getI_set_ne idx (by omega), getI_set_self hidx]
    have hr2 : ((l.set idx pv).set par cur).getI par = cur :=
      getI_set_self (by simp; omega) _
    have hro : ∀ j, j ≠ idx → j ≠ par →
        ((l.set idx pv).set par cur).getI j = l.getI j := by
      intro j hj1 hj2
      rw [getI_set_ne j (fun hh => hj2 hh.symm), getI_set_ne j (fun hh => hj1 hh.symm)]
    simp only [not_and, Bool.not_eq_true] at hcond
    refine ⟨?_, ?_, ?_, ?_⟩
    · -- interval pairs
      intro i hilen hodd
      rw [hrlen] at hilen
      by_cases hip : i = idx + 1
      · subst hip
        have h' : idx + 1 - 1 = idx := by omega
        rw [h', hr1, hro _ (by omega) (by omega)]
        exact HC2' (by omega)
      · by_cases hpp : i = par + 1
        · subst hpp
          have h' : par + 1 - 1 = par := by omega
          rw [h', hr2, hro _ (by omega) (by omega)]
          by_cases hc : less (l.getI (par + 1)) cur = true
          · have := htrans _ _ _ hc hentry
            have hedge := E1 (par + 1) hilen (by omega) (by omega)
            rw [h'] at hedge
            rw [this] at hedge
            exact absurd hedge (by simp)
          · simpa using hc
        · rw [hro i (by omega) (by omega), hro (i - 1) (by omega) (by omega)]
          exact E1 i hilen hodd hip
    · -- min heap
      intro i hilen hie h2i
      rw [hrlen] at hilen
      by_cases hii : i = idx
      · subst hii
        rw [hr1, ← hpardef, hr2]
        exact hasymm _ _ hentry
      · by_cases hip : i = par
        · subst hip
          rw [hr2, hro _ (by have := ipar_sub2 h2i; omega)
            (by have := ipar_sub2 h2i; omega)]
          have := hcond (by omega)
          rwa [getI_set_ne _ (by have := ipar_sub2 h2i; omega)] at this
        · rw [hro i hii hip]
          by_cases hpi : get_parent i = idx
          · rw [hpi, hr1]
            exact HM3 i hilen hie hpi
          · by_cases hpi' : get_parent i = par
            · rw [hpi', hr2]
              by_cases hc : less (l.getI i) cur = true
              · have := htrans _ _ _ hc hentry
                have hedge := E2 i hilen hie h2i hii
                rw [hpi'] at hedge
                rw [this] at hedge
                exact absurd hedge (by simp)
              · simpa using hc
            · rw [hro _ hpi hpi']
              exact E2 i hilen hie h2i hii
    · -- max heap
      intro i hilen hodd h3i
      rw [hrlen] at hilen
      have hpei := ipar_even i
      have := ipar_sub2 (show 2 ≤ i by omega)
      rw [hro i (by omega) (by omega), hro (get_parent i + 1) (by omega) (by omega)]
      exact E3 i hilen hodd h3i
  -- lone-min clause
    · intro i hiplus hie h2i
      rw [hrlen] at hiplus
      have hpei := ipar_even i
      have := ipar_sub2 h2i
      by_cases hii : i = idx
      · subst hii
        rw [hr1, ← hpardef, hro _ (by omega) (by omega)]
        have hedge := E1 (par + 1) (by omega) (by omega) (by omega)
        have h' : par + 1 - 1 = par := by omega
        rw [h'] at hedge
        exact hedge
      · have hinp : i ≠ par := by omega
        rw [hro i hii hinp, hro _ (by omega) (by omega)]
        exact E4 i hiplus hie h2i hii

/-- Invariant lemma for the max-chain of `bubble_up`: the hole at `idx`
(a max slot, or the trailing lone-min slot) carries `cur`, strictly above
the parent max; the sequence satisfies the invariant except at the hole;
the hole's children (max slots or trailing lone min) lie below the parent
max, and for a max-slot hole the sibling min lies below the parent max. -/
theorem bubbleUpMaxGo_inv
    (hasymm : ∀ a b, less a b = true → less b a = false)
    (htrans : ∀ a b c, less a b = true → less b c = true → less a c = true)
    (hneg : ∀ a b c, less a b = false → less b c = false → less a c = false) :
    ∀ (l : List T) (cur : T) (idx : Nat),
      idx < l.length → (idx % 2 = 1 ∨ (idx % 2 = 0 ∧ idx + 1 = l.length)) →
      2 ≤ idx →
      less (l.getI (get_parent idx + 1)) cur = true →
      (∀ i, i < l.length → i % 2 = 1 → i ≠ idx →
        less (l.getI i) (l.getI (i - 1)) = false) →
      (∀ i, i < l.length → i % 2 = 0 → 2 ≤ i → i ≠ idx →
        less (l.getI i) (l.getI (get_parent i)) = false) →
      (∀ i, i < l.length → i % 2 = 1 → 3 ≤ i → i ≠ idx → get_parent i + 1 ≠ idx →
        less (l.getI (get_parent i + 1)) (l.getI i) = false) →
      (∀ i, i + 1 = l.length → i % 2 = 0 → 2 ≤ i → i ≠ idx → get_parent i + 1 ≠ idx →
        less (l.getI (get_parent i + 1)) (l.getI i) = false) →
      (∀ j, j < l.length → get_parent j + 1 = idx → (j % 2 = 1 ∨ j + 1 = l.length) →
        less (l.getI (get_parent idx + 1)) (l.getI j) = false) →
      (idx % 2 = 1 → less (l.getI (get_parent idx + 1)) (l.getI (idx - 1)) = false) →
      IInv less (bubbleUpMaxGo less l cur idx) := by
  intro l cur idx
  induction l, cur, idx using bubbleUpMaxGo.induct less with
  | case1 l cur idx hcond ih =>
    intro hidx hshape h2idx hentry E1 E2 E3 E4 HD3 HD2
    obtain ⟨hpar2, hcont⟩ := hcond
    rw [bubbleUpMaxGo.eq_def, if_pos ⟨hpar2, hcont⟩]
    have hps := ipar_sub2 h2idx
    have hpe := ipar_even idx
    have hpse := ipar_even (get_parent idx + 1)
    have hps' := ipar_sub2 (show 2 ≤ get_parent idx + 1 by omega)
    set par := get_parent idx + 1 with hpardef
    set pv := l.getI par with hpvdef
    set A := l.set idx pv with hAdef
    have hAlen : A.length = l.length := by simp [hAdef]
    have hAidx : A.getI idx = pv := getI_set_self hidx _
    have hAo : ∀ j, j ≠ idx → A.getI j = l.getI j := fun j hj =>
      getI_set_ne j (fun hh => hj hh.symm) _
    have hpodd : par % 2 = 1 := by omega
    have h3p : 3 ≤ par := by omega
    have hgpA : A.getI (get_parent par + 1) = l.getI (get_parent par + 1) :=
      hAo _ (by omega)
    have hE3par := E3 par (by omega) hpodd h3p (by omega) (by omega)
    apply ih (by omega) (Or.inl hpodd) (by omega) hcont
    · -- E1 for hole par
      intro i hilen hodd hne
      rw [hAlen] at hilen
      by_cases hii : i = idx
      · subst hii
        rw [hAidx, hAo _ (by omega)]
        exact HD2 (by omega)
      · have him : i - 1 ≠ idx := by
          rcases hshape with hs | hs
          · omega
          · omega
        rw [hAo i hii, hAo _ him]
        exact E1 i hilen hodd hii
    · -- E2 for hole par
      intro i hilen hie h2i hne
      rw [hAlen] at hilen
      have hpei := ipar_even i
      by_cases hii : i = idx
      · subst hii
        rw [hAidx, hAo _ (by omega), hpvdef]
        have := E1 par (by omega) hpodd (by omega)
        have h' : par - 1 = get_parent i := by omega
        rwa [h'] at this
      · rw [hAo i hii]
        have hnc : get_parent i ≠ idx := by
          rcases hshape with hs | hs
          · omega
          · intro hcc
            have := ichild_ge (j := i) (p := idx) hcc (by omega)
            omega
        rw [hAo _ hnc]
        exact E2 i hilen hie h2i hii
    · -- E3 for hole par
      intro i hilen hodd h3i hne hpne
      rw [hAlen] at hilen
      by_cases hci : get_parent i + 1 = idx
      · rw [hAo i (by intro hcc; subst hcc; omega), hci, hAidx]
        exact HD3 i hilen hci (Or.inl hodd)
      · have hii : i ≠ idx := by intro hcc; subst hcc; omega
        rw [hAo i hii, hAo _ hci]
        exact E3 i hilen hodd h3i hii hci
    · -- E4 for hole par
      intro i hiplus hie h2i hne hpne
      rw [hAlen] at hiplus
      by_cases hci : get_parent i + 1 = idx
      · have hii : i ≠ idx := by intro hcc; subst hcc; omega
        rw [hAo i hii, hci, hAidx]
        exact HD3 i (by omega) hci (Or.inr hiplus)
      · have hii : i ≠ idx := by
          rcases hshape with hs | hs
          · omega
          · intro hcc
            subst hcc
            omega
        rw [hAo i hii, hAo _ hci]
        exact E4 i hiplus hie h2i hii hci
    · -- HD3 for hole par
      intro j hjlen hpj hj2
      rw [hAlen] at hjlen hj2
      rw [hgpA]
      by_cases hji : j = idx
      · subst hji
        rw [hAidx, hpvdef]
        exact hE3par
      · rw [hAo j hji]
        have hpj' := ipar_eq j
        have hj' : less (l.getI par) (l.getI j) = false := by
          rcases hj2 with hodd | hlone
          · have h3j : 3 ≤ j := by omega
            have := E3 j hjlen hodd h3j hji (by omega)
            rwa [hpj] at this
          · have h2j : 2 ≤ j := by omega
            by_cases hje : j % 2 = 0
            · have := E4 j hlone hje h2j hji (by omega)
              rwa [hpj] at this
            · have := E3 j hjlen (by omega) (by omega) hji (by omega)
              rwa [hpj] at this
        exact hneg _ _ _ hE3par hj'
    · -- HD2 for hole par
      intro _
      have h' : par - 1 = get_parent idx := by omega
      rw [hgpA, h', hAo _ (by omega)]
      have he1 := E1 par (by omega) hpodd (by omega)
      have h'' : par - 1 = get_parent idx := by omega
      rw [h''] at he1
      exact hneg _ _ _ hE3par he1
  | case2 l cur idx hcond =>
    intro hidx hshape h2idx hentry E1 E2 E3 E4 HD3 HD2
    rw [bubbleUpMaxGo.eq_def, if_neg hcond]
    have hps := ipar_sub2 h2idx
    have hpe := ipar_even idx
    set par := get_parent idx + 1 with hpardef
    set pv := l.getI par with hpvdef
    have hpodd : par % 2 = 1 := by omega
    have hrlen : ((l.set idx pv).set par cur).length = l.length := by simp
    have hr1 : ((l.set idx pv).set par cur).getI idx = pv := by
      rw [getI_set_ne idx (by omega), getI_set_self hidx]
    have hr2 : ((l.set idx pv).set par cur).getI par = cur :=
      getI_set_self (by simp; omega) _
    have hro : ∀ j, j ≠ idx → j ≠ par →
        ((l.set idx pv).set par cur).getI j = l.getI j := by
      intro j hj1 hj2
      rw [getI_set_ne j (fun hh => hj2 hh.symm), getI_set_ne j (fun hh => hj1 hh.symm)]
    simp only [not_and, Bool.not_eq_true] at hcond
    refine ⟨?_, ?_, ?_, ?_⟩
    · -- interval pairs
      intro i hilen hodd
      rw [hrlen] at hilen
      by_cases hip : i = par
      · subst hip
        have h' : par - 1 = get_parent idx := by omega
        rw [h', hr2, hro _ (by omega) (by omega)]
        by_cases hc : less cur (l.getI (get_parent idx)) = true
        · have hl2 := htrans _ _ _ hentry hc
          have he1 := E1 par (by omega) hpodd (by omega)
          rw [h', ← hpvdef] at he1
          rw [hl2] at he1
          exact absurd he1 (by simp)
        · simpa using hc
      · by_cases hii : i = idx
        · subst hii
          have hiodd : i % 2 = 1 := hodd
          have him : i - 1 ≠ par := by omega
          rw [hr1, hro _ (by omega) him]
          exact HD2 hodd
        · have him : i - 1 ≠ idx := by
            rcases hshape with hs | hs
            · omega
            · omega
          have him2 : i - 1 ≠ par := by omega
          rw [hro i hii hip, hro _ him him2]
          exact E1 i hilen hodd hii
    · -- min heap
      intro i hilen hie h2i
      rw [hrlen] at hilen
      have hpei := ipar_even i
      by_cases hii : i = idx
      · subst hii
        rw [hr1, hro _ (by omega) (by omega), hpvdef]
        have := E1 par (by omega) hpodd (by omega)
        have h' : par - 1 = get_parent i := by omega
        rwa [h'] at this
      · have hnc : get_parent i ≠ idx := by
          rcases hshape with hs | hs
          · omega
          · intro hcc
            have := ichild_ge (j := i) (p := idx) hcc (by omega)
            omega
        rw [hro i hii (by omega), hro _ hnc (by omega)]
        exact E2 i hilen hie h2i hii
    · -- max heap
      intro i hilen hodd h3i
      rw [hrlen] at hilen
      by_cases hip : i = par
      · subst hip
        have hps2 := ipar_sub2 (show 2 ≤ par by omega)
        rw [hr2, hro _ (by omega) (by omega)]
        have := hcond (by omega)
        rwa [getI_set_ne _ (by omega)] at this
      · by_cases hii : i = idx
        · subst hii
          have h' : get_parent i + 1 = par := by omega
          rw [h', hr2, hr1]
          exact hasymm _ _ hentry
        · by_cases hci : get_parent i + 1 = idx
          · rw [hro i hii hip, hci, hr1]
            exact HD3 i hilen hci (Or.inl hodd)
          · by_cases hcp : get_parent i + 1 = par
            · rw [hro i hii hip, hcp, hr2]
              by_cases hc : less cur (l.getI i) = true
              · have hl2 := htrans _ _ _ hentry hc
                have := E3 i hilen hodd h3i hii hci
                rw [hcp] at this
                rw [hpvdef] at hl2
                rw [hl2] at this
                exact absurd this (by simp)
              · simpa using hc
            · rw [hro i hii hip, hro _ hci hcp]
              exact E3 i hilen hodd h3i hii hci
    · -- lone-min clause
      intro i hiplus hie h2i
      rw [hrlen] at hiplus
      have hpei := ipar_even i
      by_cases hii : i = idx
      · subst hii
        have h' : get_parent i + 1 = par := by omega
        rw [h', hr2, hr1]
        exact hasymm _ _ hentry
      · by_cases hci : get_parent i + 1 = idx
        · rw [hro i hii (by omega), hci, hr1]
          exact HD3 i (by omega) hci (Or.inr hiplus)
        · by_cases hcp : get_parent i + 1 = par
          · rw [hro i hii (by omega), hcp, hr2]
            by_cases hc : less cur (l.getI i) = true
            · have hl2 := htrans _ _ _ hentry hc
              have := E4 i hiplus hie h2i hii hci
              rw [hcp] at this
              rw [hpvdef] at hl2
              rw [hl2] at this
              exact absurd this (by simp)
            · simpa using hc
          · rw [hro i hii (by omega), hro _ hci hcp]
            exact E4 i hiplus hie h2i hii hci

theorem IInv_small {l : List T} (h : l.length ≤ 1) : IInv less l := by
  refine ⟨?_, ?_, ?_, ?_⟩ <;> intro i h1 h2 <;> intros <;> exfalso <;> omega

theorem IInv_pair {a b : T} (h : less b a = false) : IInv less [a, b] := by
  refine ⟨?_, ?_, ?_, ?_⟩
  · intro i h1 h2
    simp only [List.length_cons, List.length_nil] at h1
    interval_cases i
    · exact absurd h2 (by omega)
    · exact h
  · intro i h1 h2 h3
    exfalso
    simp only [List.length_cons, List.length_nil] at h1
    omega
  · intro i h1 h2 h3
    exfalso
    simp only [List.length_cons, List.length_nil] at h1
    omega
  · intro i h1 h2 h3
    exfalso
    simp only [List.length_cons, List.length_nil] at h1
    omega

/-- Pushing onto an interval heap preserves the invariant. -/
theorem ipush_inv
    (hasymm : ∀ a b, less a b = true → less b a = false)
    (htrans : ∀ a b c, less a b = true → less b c = true → less a c = true)
    (hneg : ∀ a b c, less a b = false → less b c = false → less a c = false)
    {l : List T} (hInv : IInv less l) (v : T) : IInv less (push less l v) := by
  obtain ⟨I1, I2, I3, I4⟩ := hInv
  unfold push bubble_up
  dsimp only
  rw [getI_append_last]
  have hLlen : (l ++ [v]).length = l.length + 1 := by simp
  have hLi : ∀ i, i < l.length → (l ++ [v]).getI i = l.getI i := fun i hi =>
    getI_append_left hi
  by_cases hn2 : 2 ≤ l.length
  · by_cases hodd : l.length % 2 = 1
    · -- the new slot is a max slot
      have hn3 : 3 ≤ l.length := by omega
      have hgp := ipar_eq l.length
      have hgp2 : get_parent l.length + 1 ≤ l.length - 2 := by omega
      have hpair : get_parent (l.length - 1) = get_parent l.length :=
        (ipar_pair hodd).symm
      by_cases hrec : less v ((l ++ [v]).getI (l.length - 1)) = true
      · -- step 1 reconciles the pair
        have hrecl : less v (l.getI (l.length - 1)) = true := by
          rwa [hLi _ (by omega)] at hrec
        have hrs : reconcileStep less (l ++ [v]) l.length v
            = ((l ++ [v]).set l.length ((l ++ [v]).getI (l.length - 1)), l.length - 1) := by
          unfold reconcileStep
          rw [if_pos ⟨by simp [is_max]; omega, hrec⟩]
        rw [hrs]
        dsimp only
        set A := (l ++ [v]).set l.length ((l ++ [v]).getI (l.length - 1)) with hAdef
        have hAlen : A.length = l.length + 1 := by simp [hAdef]
        have hAtop : A.getI l.length = l.getI (l.length - 1) := by
          rw [hAdef, getI_set_self (by simp), hLi _ (by omega)]
        have hAi : ∀ i, i < l.length → A.getI i = l.getI i := by
          intro i hi
          rw [hAdef, getI_set_ne i (by omega), hLi i hi]
        by_cases hmin : less v (A.getI (get_parent (l.length - 1))) = true
        · rw [if_pos ⟨by omega, hmin⟩]
          apply bubbleUpMinGo_inv hasymm htrans hneg A v (l.length - 1)
            (by omega) (by omega) (by omega) hmin
          · intro i hilen hio hine
            rw [hAlen] at hilen
            have hiln : i < l.length := by omega
            rw [hAi i hiln, hAi _ (by omega)]
            exact I1 i hiln hio
          · intro i hilen hie h2i hine
            rw [hAlen] at hilen
            have hp := ipar_sub2 h2i
            rw [hAi i (by omega), hAi _ (by omega)]
            exact I2 i (by omega) hie h2i
          · intro i hilen hio h3i
            rw [hAlen] at hilen
            by_cases hieq : i = l.length
            · subst hieq
              rw [hAtop, hAi _ (by omega)]
              have h4 := I4 (l.length - 1) (by omega) (by omega) (by omega)
              rwa [hpair] at h4
            · have hp := ipar_sub2 (show 2 ≤ i by omega)
              rw [hAi i (by omega), hAi _ (by omega)]
              exact I3 i (by omega) hio h3i
          · intro i hiplus hie h2i hine
            exfalso
            rw [hAlen] at hiplus
            omega
          · intro j hjlen hje hpj
            exfalso
            rw [hAlen] at hjlen
            have := ichild_ge hpj (by omega)
            omega
          · intro j hjlen hje hpj
            exfalso
            rw [hAlen] at hjlen
            have := ichild_ge hpj (by omega)
            omega
          · intro _
            have h' : l.length - 1 + 1 = l.length := by omega
            rw [h', hAtop]
            exact hasymm _ _ hrecl
          · intro _
            have h' : l.length - 1 + 1 = l.length := by omega
            have hp := ipar_sub2 (show 2 ≤ l.length - 1 by omega)
            rw [h', hAtop, hAi _ (by omega)]
            exact I2 (l.length - 1) (by omega) (by omega) (by omega)
        · -- reconciled holes never ascend the max chain
          have hmaxf : less (A.getI (get_parent (l.length - 1) + 1)) v = false := by
            by_contra hc
            rw [Bool.not_eq_false] at hc
            have hp := ipar_sub2 (show 2 ≤ l.length - 1 by omega)
            rw [hAi _ (by omega)] at hc
            have h2 := htrans _ _ _ hc hrecl
            have h4 := I4 (l.length - 1) (by omega) (by omega) (by omega)
            rw [h2] at h4
            exact absurd h4 (by simp)
          rw [if_neg (by intro hcc; exact hmin hcc.2),
            if_neg (by rintro ⟨-, hcc⟩; rw [hmaxf] at hcc; simp at hcc)]
          have hrlen : (A.set (l.length - 1) v).length = l.length + 1 := by
            simp [hAlen]
          have hrmid : (A.set (l.length - 1) v).getI (l.length - 1) = v :=
            getI_set_self (by omega) _
          have hrtop : (A.set (l.length - 1) v).getI l.length = l.getI (l.length - 1) := by
            rw [getI_set_ne _ (by omega), hAtop]
          have hri : ∀ i, i < l.length - 1 →
              (A.set (l.length - 1) v).getI i = l.getI i := by
            intro i hi
            rw [getI_set_ne i (by omega), hAi i (by omega)]
          refine ⟨?_, ?_, ?_, ?_⟩
          · intro i hilen hio
            rw [hrlen] at hilen
            by_cases hieq : i = l.length
            · subst hieq
              rw [hrtop, hrmid]
              exact hasymm _ _ hrecl
            · rw [hri i (by omega), hri _ (by omega)]
              exact I1 i (by omega) hio
          · intro i hilen hie h2i
            rw [hrlen] at hilen
            have hp := ipar_sub2 h2i
            by_cases hieq : i = l.length - 1
            · subst hieq
              rw [hrmid, hri _ (by omega)]
              have hminf : less v (A.getI (get_parent (l.length - 1))) = false := by
                simpa using hmin
              rwa [hAi _ (by omega)] at hminf
            · rw [hri i (by omega), hri _ (by omega)]
              exact I2 i (by omega) hie h2i
          · intro i hilen hio h3i
            rw [hrlen] at hilen
            by_cases hieq : i = l.length
            · subst hieq
              rw [hrtop, hri _ (by omega)]
              have h4 := I4 (l.length - 1) (by omega) (by omega) (by omega)
              rwa [hpair] at h4
            · have hp := ipar_sub2 (show 2 ≤ i by omega)
              rw [hri i (by omega), hri _ (by omega)]
              exact I3 i (by omega) hio h3i
          · intro i hiplus hie h2i
            exfalso
            rw [hrlen] at hiplus
            omega
      · -- no reconcile: the new element respects its pair
        have hrecf : less v (l.getI (l.length - 1)) = false := by
          have h' : less v ((l ++ [v]).getI (l.length - 1)) = false := by
            simpa using hrec
          rwa [hLi _ (by omega)] at h'
        have hrs : reconcileStep less (l ++ [v]) l.length v = (l ++ [v], l.length) := by
          unfold reconcileStep
          rw [if_neg (by intro hcc; exact hrec hcc.2)]
        rw [hrs]
        dsimp only
        have hminf : less v ((l ++ [v]).getI (get_parent l.length)) = false := by
          rw [hLi _ (by omega)]
          have h2 := I2 (l.length - 1) (by omega) (by omega) (by omega)
          rw [hpair] at h2
          exact hneg _ _ _ hrecf h2
        rw [if_neg (by rintro ⟨-, hcc⟩; rw [hminf] at hcc; simp at hcc)]
        by_cases hmax : less ((l ++ [v]).getI (get_parent l.length + 1)) v = true
        · rw [if_pos ⟨by omega, hmax⟩]
          apply bubbleUpMaxGo_inv hasymm htrans hneg (l ++ [v]) v l.length
            (by rw [hLlen]; omega) (Or.inl hodd) (by omega) hmax
          · intro i hilen hio hine
            rw [hLlen] at hilen
            rw [hLi i (by omega), hLi _ (by omega)]
            exact I1 i (by omega) hio
          · intro i hilen hie h2i hine
            rw [hLlen] at hilen
            have hp := ipar_sub2 h2i
            rw [hLi i (by omega), hLi _ (by omega)]
            exact I2 i (by omega) hie h2i
          · intro i hilen hio h3i hine hpne
            rw [hLlen] at hilen
            have hp := ipar_sub2 (show 2 ≤ i by omega)
            rw [hLi i (by omega), hLi _ (by omega)]
            exact I3 i (by omega) hio h3i
          · intro i hiplus hie h2i hine hpne
            exfalso
            rw [hLlen] at hiplus
            omega
          · intro j hjlen hpj hj2
            exfalso
            rw [hLlen] at hjlen
            have := ichild_ge (j := j) (p := l.length - 1) (by omega) (by omega)
            omega
          · intro _
            rw [hLi _ (by omega), hLi _ (by omega)]
            have h4 := I4 (l.length - 1) (by omega) (by omega) (by omega)
            rwa [hpair] at h4
        · rw [if_neg (by intro hcc; exact hmax hcc.2)]
          have hset : (l ++ [v]).set l.length v = l ++ [v] := by
            have h' := set_getI_self (l := l ++ [v]) (i := l.length) (by simp)
            rwa [getI_append_last] at h'
          rw [hset]
          refine ⟨?_, ?_, ?_, ?_⟩
          · intro i hilen hio
            rw [hLlen] at hilen
            by_cases hieq : i = l.length
            · subst hieq
              rw [getI_append_last, hLi _ (by omega)]
              exact hrecf
            · rw [hLi i (by omega), hLi _ (by omega)]
              exact I1 i (by omega) hio
          · intro i hilen hie h2i
            rw [hLlen] at hilen
            have hp := ipar_sub2 h2i
            rw [hLi i (by omega), hLi _ (by omega)]
            exact I2 i (by omega) hie h2i
          · intro i hilen hio h3i
            rw [hLlen] at hilen
            by_cases hieq : i = l.length
            · subst hieq
              rw [getI_append_last]
              simpa using hmax
            · have hp := ipar_sub2 (show 2 ≤ i by omega)
              rw [hLi i (by omega), hLi _ (by omega)]
              exact I3 i (by omega) hio h3i
          · intro i hiplus hie h2i
            exfalso
            rw [hLlen] at hiplus
            omega
    · -- the new slot is a lone min slot
      have heven : l.length % 2 = 0 := by omega
      have hrs : reconcileStep less (l ++ [v]) l.length v = (l ++ [v], l.length) := by
        unfold reconcileStep
        rw [if_neg (by rintro ⟨h1, -⟩; simp [is_max] at h1; omega)]
      rw [hrs]
      dsimp only
      by_cases hmin : less v ((l ++ [v]).getI (get_parent l.length)) = true
      · rw [if_pos ⟨by omega, hmin⟩]
        apply bubbleUpMinGo_inv hasymm htrans hneg (l ++ [v]) v l.length
          (by rw [hLlen]; omega) heven (by omega) hmin
        · intro i hilen hio hine
          rw [hLlen] at hilen
          rw [hLi i (by omega), hLi _ (by omega)]
          exact I1 i (by omega) hio
        · intro i hilen hie h2i hine
          rw [hLlen] at hilen
          have hp := ipar_sub2 h2i
          rw [hLi i (by omega), hLi _ (by omega)]
          exact I2 i (by omega) hie h2i
        · intro i hilen hio h3i
          rw [hLlen] at hilen
          have hp := ipar_sub2 (show 2 ≤ i by omega)
          rw [hLi i (by omega), hLi _ (by omega)]
          exact I3 i (by omega) hio h3i
        · intro i hiplus hie h2i hine
          exfalso
          rw [hLlen] at hiplus
          omega
        · intro j hjlen hje hpj
          exfalso
          rw [hLlen] at hjlen
          have := ichild_ge hpj (by omega)
          omega
        · intro j hjlen hje hpj
          exfalso
          rw [hLlen] at hjlen
          have := ichild_ge hpj (by omega)
          omega
        · intro hcc
          exfalso
          rw [hLlen] at hcc
          omega
        · intro hcc
          exfalso
          rw [hLlen] at hcc
          omega
      · by_cases hmax : less ((l ++ [v]).getI (get_parent l.length + 1)) v = true
        · rw [if_neg (by intro hcc; exact hmin hcc.2), if_pos ⟨by omega, hmax⟩]
          apply bubbleUpMaxGo_inv hasymm htrans hneg (l ++ [v]) v l.length
            (by rw [hLlen]; omega) (Or.inr ⟨heven, hLlen.symm⟩) (by omega) hmax
          · intro i hilen hio hine
            rw [hLlen] at hilen
            rw [hLi i (by omega), hLi _ (by omega)]
            exact I1 i (by omega) hio
          · intro i hilen hie h2i hine
            rw [hLlen] at hilen
            have hp := ipar_sub2 h2i
            rw [hLi i (by omega), hLi _ (by omega)]
            exact I2 i (by omega) hie h2i
          · intro i hilen hio h3i hine hpne
            rw [hLlen] at hilen
            have hp := ipar_sub2 (show 2 ≤ i by omega)
            rw [hLi i (by omega), hLi _ (by omega)]
            exact I3 i (by omega) hio h3i
          · intro i hiplus hie h2i hine hpne
            exfalso
            rw [hLlen] at hiplus
            omega
          · intro j hjlen hpj hj2
            exfalso
            have hpe := ipar_even j
            omega
          · intro hio
            exfalso
            omega
        · rw [if_neg (by intro hcc; exact hmin hcc.2),
            if_neg (by intro hcc; exact hmax hcc.2)]
          have hset : (l ++ [v]).set l.length v = l ++ [v] := by
            have h' := set_getI_self (l := l ++ [v]) (i := l.length) (by simp)
            rwa [getI_append_last] at h'
          rw [hset]
          refine ⟨?_, ?_, ?_, ?_⟩
          · intro i hilen hio
            rw [hLlen] at hilen
            rw [hLi i (by omega), hLi _ (by omega)]
            exact I1 i (by omega) hio
          · intro i hilen hie h2i
            rw [hLlen] at hilen
            by_cases hieq : i = l.length
            · subst hieq
              rw [getI_append_last]
              simpa using hmin
            · have hp := ipar_sub2 h2i
              rw [hLi i (by omega), hLi _ (by omega)]
              exact I2 i (by omega) hie h2i
          · intro i hilen hio h3i
            rw [hLlen] at hilen
            have hp := ipar_sub2 (show 2 ≤ i by omega)
            rw [hLi i (by omega), hLi _ (by omega)]
            exact I3 i (by omega) hio h3i
          · intro i hiplus hie h2i
            rw [hLlen] at hiplus
            have hieq : i = l.length := by omega
            subst hieq
            rw [getI_append_last]
            simpa using hmax
  · -- tiny heaps: no chain can run
    rcases l with - | ⟨a, l'⟩
    · simp only [List.nil_append, List.length_nil]
      have hrs0 : reconcileStep less [v] 0 v = ([v], 0) := by
        unfold reconcileStep
        rw [if_neg (by rintro ⟨h1, -⟩; simp [is_max] at h1)]
      rw [hrs0]
      dsimp only
      rw [if_neg (by rintro ⟨h, -⟩; omega), if_neg (by rintro ⟨h, -⟩; omega)]
      simp only [List.set_cons_zero]
      exact IInv_small (by simp)
    · rcases l' with - | ⟨b, l''⟩
      · simp only [List.cons_append, List.nil_append, List.length_cons, List.length_nil]
        by_cases hr : less v a = true
        · have hrs : reconcileStep less [a, v] 1 v = ([a, a], 0) := by
            unfold reconcileStep
            rw [if_pos ⟨by simp [is_max], hr⟩]
            rfl
          rw [hrs]
          dsimp only
          rw [if_neg (by rintro ⟨h, -⟩; omega), if_neg (by rintro ⟨h, -⟩; omega)]
          simp only [List.set_cons_zero]
          exact IInv_pair (hasymm _ _ hr)
        · have hrs : reconcileStep less [a, v] 1 v = ([a, v], 1) := by
            unfold reconcileStep
            rw [if_neg (by rintro ⟨-, h2⟩; exact hr h2)]
          rw [hrs]
          dsimp only
          rw [if_neg (by rintro ⟨h, -⟩; omega), if_neg (by rintro ⟨h, -⟩; omega)]
          have hset2 : [a, v].set 1 v = [a, v] := rfl
          rw [hset2]
          exact IInv_pair (by simpa using hr)
      · exfalso
        simp only [List.length_cons] at hn2
        omega

/-- Min-chain ascent permutes the sequence obtained by writing `cur` into
the hole. -/
theorem bubbleUpMinGo_multiset :
    ∀ (l : List T) (cur : T) (idx : Nat), 2 ≤ idx → idx < l.length →
    ((bubbleUpMinGo less l cur idx : List T) : Multiset T) + {l.getI idx}
      = (l : Multiset T) + {cur} := by
  intro l cur idx
  induction l, cur, idx using bubbleUpMinGo.induct less with
  | case1 l cur idx hcond ih =>
    intro h2 hidx
    obtain ⟨hpos, hless⟩ := hcond
    have hpar : get_parent idx < idx := iparent_lt hpos
    rw [bubbleUpMinGo.eq_def, if_pos ⟨hpos, hless⟩]
    set par := get_parent idx with hpardef
    set A := l.set idx (l.getI par) with hAdef
    have hApar : A.getI par = l.getI par := getI_set_ne par (by omega) _
    have ihA := ih (by omega) (by simp [hAdef]; omega)
    rw [hApar] at ihA
    have hsetA : (A : Multiset T) + {l.getI idx} = (l : Multiset T) + {l.getI par} :=
      multiset_set hidx _
    apply add_right_cancel (b := ({l.getI par} : Multiset T))
    calc ((bubbleUpMinGo less A cur par : List T) : Multiset T) + {l.getI idx} + {l.getI par}
        = (((bubbleUpMinGo less A cur par : List T) : Multiset T) + {l.getI par})
            + {l.getI idx} := by abel
      _ = ((A : Multiset T) + {cur}) + {l.getI idx} := by rw [ihA]
      _ = ((A : Multiset T) + {l.getI idx}) + {cur} := by abel
      _ = ((l : Multiset T) + {l.getI par}) + {cur} := by rw [hsetA]
      _ = (l : Multiset T) + {cur} + {l.getI par} := by abel
  | case2 l cur idx hcond =>
    intro h2 hidx
    have hps := ipar_sub2 h2
    rw [bubbleUpMinGo.eq_def, if_neg hcond]
    set par := get_parent idx with hpardef
    set A := l.set idx (l.getI par) with hAdef
    have hApar : A.getI par = l.getI par := getI_set_ne par (by omega) _
    have hstep : ((A.set par cur : List T) : Multiset T) + {A.getI par}
        = (A : Multiset T) + {cur} := multiset_set (by simp [hAdef]; omega) _
    rw [hApar] at hstep
    have hsetA : (A : Multiset T) + {l.getI idx} = (l : Multiset T) + {l.getI par} :=
      multiset_set hidx _
    apply add_right_cancel (b := ({l.getI par} : Multiset T))
    calc ((A.set par cur : List T) : Multiset T) + {l.getI idx} + {l.getI par}
        = (((A.set par cur : List T) : Multiset T) + {l.getI par}) + {l.getI idx} := by abel
      _ = ((A : Multiset T) + {cur}) + {l.getI idx} := by rw [hstep]
      _ = ((A : Multiset T) + {l.getI idx}) + {cur} := by abel
      _ = ((l : Multiset T) + {l.getI par}) + {cur} := by rw [hsetA]
      _ = (l : Multiset T) + {cur} + {l.getI par} := by abel

/-- Max-chain ascent permutes the sequence obtained by writing `cur` into
the hole. -/
theorem bubbleUpMaxGo_multiset :
    ∀ (l : List T) (cur : T) (idx : Nat), 2 ≤ idx → idx < l.length →
    ((bubbleUpMaxGo less l cur idx : List T) : Multiset T) + {l.getI idx}
      = (l : Multiset T) + {cur} := by
  intro l cur idx
  induction l, cur, idx using bubbleUpMaxGo.induct less with
  | case1 l cur idx hcond ih =>
    intro h2 hidx
    obtain ⟨hpos, hless⟩ := hcond
    have hpar : get_parent idx + 1 < idx := get_parent_succ_lt hpos
    rw [bubbleUpMaxGo.eq_def, if_pos ⟨hpos, hless⟩]
    set par := get_parent idx + 1 with hpardef
    set A := l.set idx (l.getI par) with hAdef
    have hApar : A.getI par = l.getI par := getI_set_ne par (by omega) _
    have ihA := ih (by omega) (by simp [hAdef]; omega)
    rw [hApar] at ihA
    have hsetA : (A : Multiset T) + {l.getI idx} = (l : Multiset T) + {l.getI par} :=
      multiset_set hidx _
    apply add_right_cancel (b := ({l.getI par} : Multiset T))
    calc ((bubbleUpMaxGo less A cur par : List T) : Multiset T) + {l.getI idx} + {l.getI par}
        = (((bubbleUpMaxGo less A cur par : List T) : Multiset T) + {l.getI par})
            + {l.getI idx} := by abel
      _ = ((A : Multiset T) + {cur}) + {l.getI idx} := by rw [ihA]
      _ = ((A : Multiset T) + {l.getI idx}) + {cur} := by abel
      _ = ((l : Multiset T) + {l.getI par}) + {cur} := by rw [hsetA]
      _ = (l : Multiset T) + {cur} + {l.getI par} := by abel
  | case2 l cur idx hcond =>
    intro h2 hidx
    have hps := ipar_sub2 h2
    rw [bubbleUpMaxGo.eq_def, if_neg hcond]
    set par := get_parent idx + 1 with hpardef
    set A := l.set idx (l.getI par) with hAdef
    have hApar : A.getI par = l.getI par := getI_set_ne par (by omega) _
    have hstep : ((A.set par cur : List T) : Multiset T) + {A.getI par}
        = (A : Multiset T) + {cur} := multiset_set (by simp [hAdef]; omega) _
    rw [hApar] at hstep
    have hsetA : (A : Multiset T) + {l.getI idx} = (l : Multiset T) + {l.getI par} :=
      multiset_set hidx _
    apply add_right_cancel (b := ({l.getI par} : Multiset T))
    calc ((A.set par cur : List T) : Multiset T) + {l.getI idx} + {l.getI par}
        = (((A.set par cur : List T) : Multiset T) + {l.getI par}) + {l.getI idx} := by abel
      _ = ((A : Multiset T) + {cur}) + {l.getI idx} := by rw [hstep]
      _ = ((A : Multiset T) + {l.getI idx}) + {cur} := by abel
      _ = ((l : Multiset T) + {l.getI par}) + {cur} := by rw [hsetA]
      _ = (l : Multiset T) + {cur} + {l.getI par} := by abel

/-- `bubble_up` is content-preserving. -/
theorem ibubble_up_multiset (l : List T) (idx : Nat) (hidx : idx < l.length) :
    ((bubble_up less l idx : List T) : Multiset T) = (l : Multiset T) := by
  unfold bubble_up
  dsimp only
  by_cases hrec : is_max idx = true ∧ less (l.getI idx) (l.getI (idx - 1)) = true
  · have hrs : reconcileStep less l idx (l.getI idx)
        = (l.set idx (l.getI (idx - 1)), idx - 1) := by
      unfold reconcileStep
      rw [if_pos hrec]
    rw [hrs]
    dsimp only
    have hodd : idx % 2 = 1 := by
      have h1 := hrec.1
      simpa [is_max] using h1
    set A := l.set idx (l.getI (idx - 1)) with hAdef
    have hAlen : A.length = l.length := by simp [hAdef]
    have hAmid : A.getI (idx - 1) = l.getI (idx - 1) := getI_set_ne _ (by omega) _
    have hsetA : (A : Multiset T) + {l.getI idx} = (l : Multiset T) + {l.getI (idx - 1)} :=
      multiset_set hidx _
    have hfin : ∀ res : List T,
        (res : Multiset T) + {A.getI (idx - 1)} = (A : Multiset T) + {l.getI idx} →
        (res : Multiset T) = (l : Multiset T) := by
      intro res hres
      rw [hAmid] at hres
      apply add_right_cancel (b := ({l.getI (idx - 1)} : Multiset T))
      rw [hres]
      apply add_right_cancel (b := ({l.getI idx} : Multiset T))
      calc (A : Multiset T) + {l.getI idx} + {l.getI idx}
          = ((A : Multiset T) + {l.getI idx}) + {l.getI idx} := by abel
        _ = ((l : Multiset T) + {l.getI (idx - 1)}) + {l.getI idx} := by rw [hsetA]
        _ = (l : Multiset T) + {l.getI (idx - 1)} + {l.getI idx} := by abel
    split
    · next hmin =>
      apply hfin
      rw [bubbleUpMinGo_multiset _ _ _ (by omega) (by omega)]
    · split
      · next hmax =>
        apply hfin
        rw [bubbleUpMaxGo_multiset _ _ _ (by omega) (by omega)]
      · apply hfin
        rw [multiset_set (by omega)]
  · have hrs : reconcileStep less l idx (l.getI idx) = (l, idx) := by
      unfold reconcileStep
      rw [if_neg hrec]
    rw [hrs]
    dsimp only
    have hfin : ∀ res : List T,
        (res : Multiset T) + {l.getI idx} = (l : Multiset T) + {l.getI idx} →
        (res : Multiset T) = (l : Multiset T) := by
      intro res hres
      exact add_right_cancel hres
    split
    · next hmin =>
      apply hfin
      rw [bubbleUpMinGo_multiset _ _ _ (by omega) hidx]
    · split
      · next hmax =>
        apply hfin
        rw [bubbleUpMaxGo_multiset _ _ _ (by omega) hidx]
      · rw [set_getI_self hidx]

/-- `push` adds exactly the pushed element to the content. -/
theorem ipush_multiset (l : List T) (v : T) :
    ((push less l v : List T) : Multiset T) = (l : Multiset T) + {v} := by
  unfold push
  rw [ibubble_up_multiset _ _ (by simp)]
  rw [← Multiset.coe_add]
  rfl

theorem ipar_left {i : Nat} (h : i % 2 = 0) : get_parent ((i + 1) * 2) = i := by
  unfold get_parent; omega

theorem ipar_left2 {i : Nat} (h : i % 2 = 0) : get_parent ((i + 1) * 2 + 2) = i := by
  unfold get_parent; omega

theorem pickMinChild_or (cmp : T → T → Bool) (l : List T) (c : Nat) :
    pickMinChild cmp l c = c ∨ pickMinChild cmp l c = c + 2 := by
  unfold pickMinChild; split
  · exact Or.inr rfl
  · exact Or.inl rfl

/-- Invariant restoration for `bubble_down_min`: if the invariant holds
except possibly on the edges from the children min slots of node `idx` up
into `idx`, and those children dominate the grandparent min slot, then the
descent restores the full invariant. -/
theorem bubble_down_min_inv
    (hasymm : ∀ a b, less a b = true → less b a = false)
    (htrans : ∀ a b c, less a b = true → less b c = true → less a c = true)
    (hneg : ∀ a b c, less a b = false → less b c = false → less a c = false)
    (s : Nat) :
    ∀ (l : List T) (idx : Nat),
      idx % 2 = 0 → idx < l.length → s ≤ idx →
      (∀ i, i < l.length → i % 2 = 1 → less (l.getI i) (l.getI (i - 1)) = false) →
      (∀ i, i < l.length → i % 2 = 0 → 2 ≤ i → s ≤ get_parent i →
        (get_parent i = idx → i = idx) →
        less (l.getI i) (l.getI (get_parent i)) = false) →
      (∀ i, i < l.length → i % 2 = 1 → 3 ≤ i → s ≤ get_parent i →
        less (l.getI (get_parent i + 1)) (l.getI i) = false) →
      (∀ i, i + 1 = l.length → i % 2 = 0 → 2 ≤ i → s ≤ get_parent i →
        less (l.getI (get_parent i + 1)) (l.getI i) = false) →
      (s + 2 ≤ idx → ∀ j, j < l.length → j % 2 = 0 → get_parent j = idx → j ≠ idx →
        less (l.getI j) (l.getI (get_parent idx)) = false) →
      ((∀ i, i < (bubble_down_min less l idx).length → i % 2 = 1 →
          less ((bubble_down_min less l idx).getI i)
            ((bubble_down_min less l idx).getI (i - 1)) = false)
        ∧ (∀ i, i < (bubble_down_min less l idx).length → i % 2 = 0 → 2 ≤ i →
            s ≤ get_parent i →
            less ((bubble_down_min less l idx).getI i)
              ((bubble_down_min less l idx).getI (get_parent i)) = false)
        ∧ (∀ i, i < (bubble_down_min less l idx).length → i % 2 = 1 → 3 ≤ i →
            s ≤ get_parent i →
            less ((bubble_down_min less l idx).getI (get_parent i + 1))
              ((bubble_down_min less l idx).getI i) = false)
        ∧ (∀ i, i + 1 = (bubble_down_min less l idx).length → i % 2 = 0 → 2 ≤ i →
            s ≤ get_parent i →
            less ((bubble_down_min less l idx).getI (get_parent i + 1))
              ((bubble_down_min less l idx).getI i) = false)) := by
  intro l idx
  induction l, idx using bubble_down_min.induct less with
  | case1 l idx h htest ih =>
    intro hev hlt hsi P1 P2 P3 P4 HX
    rw [bubble_down_min.eq_def, dif_pos h, if_pos htest]
    have hle := ileft_eq idx
    have hcub : pickMinChild less l (get_left idx) < l.length := pickMinChild_ub less h
    have hc_or := pickMinChild_or less l (get_left idx)
    set c := pickMinChild less l (get_left idx) with hcdef
    have hcgp : get_parent c = idx := by
      rcases hc_or with h1 | h1
      · rw [h1, hle]
        exact ipar_left hev
      · rw [h1, hle]
        exact ipar_left2 hev
    have hc2 : idx + 2 ≤ c := by rcases hc_or with h1 | h1 <;> omega
    have hce : c % 2 = 0 := by rcases hc_or with h1 | h1 <;> omega
    have hi1 : idx + 1 < l.length := by omega
    have hsel : (c = get_left idx ∧ (get_left idx + 2 < l.length →
          less (l.getI (get_left idx + 2)) (l.getI (get_left idx)) = false))
        ∨ (c = get_left idx + 2 ∧
          less (l.getI (get_left idx + 2)) (l.getI (get_left idx)) = true) := by
      have hpick := hcdef
      unfold pickMinChild at hpick
      split at hpick
      · next hcond => exact Or.inr ⟨hpick, hcond.2⟩
      · next hcond =>
        refine Or.inl ⟨hpick, fun hb => ?_⟩
        by_contra hcon
        rw [Bool.not_eq_false] at hcon
        exact hcond ⟨hb, hcon⟩
    have hsib : ∀ j, j < l.length → j % 2 = 0 → get_parent j = idx → j ≠ idx → j ≠ c →
        less (l.getI j) (l.getI c) = false := by
      intro j hj hje hgpj hjne hjc
      have hpj := ipar_eq j
      have h2j : 2 ≤ j := by omega
      have hch := ichildren hje h2j hgpj
      rcases hsel with ⟨hc1, hrest⟩ | ⟨hc1, hcond⟩
      · have hj2 : j = get_left idx + 2 := by omega
        rw [hj2, hc1]
        exact hrest (by omega)
      · have hj1 : j = get_left idx := by omega
        by_contra hcon
        rw [Bool.not_eq_false] at hcon
        rw [hj1, hc1] at hcon
        have := hasymm _ _ hcond
        rw [this] at hcon
        exact absurd hcon (by simp)
    -- facts about the sequence after the swap and the node fix-up
    obtain ⟨hlen2, F1, FO, F2, F3, F5, F6, F8⟩ :
        (minFix less (listSwap l idx c) c).length = l.length
        ∧ (minFix less (listSwap l idx c) c).getI idx = l.getI c
        ∧ (∀ j, j ≠ idx → j ≠ c → j ≠ c + 1 →
            (minFix less (listSwap l idx c) c).getI j = l.getI j)
        ∧ less ((minFix less (listSwap l idx c) c).getI c) (l.getI c) = false
        ∧ (c + 1 < l.length →
            less ((minFix less (listSwap l idx c) c).getI (c + 1))
              ((minFix less (listSwap l idx c) c).getI c) = false)
        ∧ (c + 1 < l.length →
            less (l.getI (idx + 1)) ((minFix less (listSwap l idx c) c).getI (c + 1)) = false)
        ∧ (c + 1 < l.length → ∀ x : T, less (l.getI (c + 1)) x = false →
            less ((minFix less (listSwap l idx c) c).getI (c + 1)) x = false)
        ∧ (c + 1 = l.length → less (l.getI (idx + 1))
            ((minFix less (listSwap l idx c) c).getI c) = false) := by
      have hBc1 : c + 1 < l.length → (listSwap l idx c).getI (c + 1) = l.getI (c + 1) :=
        fun _ => getI_listSwap_other _ (by omega) (by omega)
      have hBc : (listSwap l idx c).getI c = l.getI idx := getI_listSwap_right hcub
      have hBidx : (listSwap l idx c).getI idx = l.getI c :=
        getI_listSwap_left (by omega) (by omega)
      unfold minFix
      split
      · next hfix =>
        obtain ⟨hb, hlessf⟩ := hfix
        simp only [listSwap_length] at hb
        rw [hBc1 hb, hBc] at hlessf
        have hnw : less (l.getI idx) (l.getI (c + 1)) = false := hasymm _ _ hlessf
        have hg1 : (listSwap (listSwap l idx c) (c + 1) c).getI (c + 1) = l.getI idx := by
          rw [getI_listSwap_left (by simp; omega) (by omega), hBc]
        have hg2 : (listSwap (listSwap l idx c) (c + 1) c).getI c = l.getI (c + 1) := by
          rw [getI_listSwap_right (by simp; omega), hBc1 hb]
        have hg3 : (listSwap (listSwap l idx c) (c + 1) c).getI idx = l.getI c := by
          rw [getI_listSwap_other _ (by omega) (by omega), hBidx]
        refine ⟨by simp, hg3, ?_, ?_, ?_, ?_, ?_, ?_⟩
        · intro j hj1 hj2 hj3
          rw [getI_listSwap_other _ (by omega) (by omega),
            getI_listSwap_other _ (by omega) (by omega)]
        · rw [hg2]
          have h1 := P1 (c + 1) hb (by omega)
          rwa [Nat.add_sub_cancel] at h1
        · intro _
          rw [hg1, hg2]
          exact hnw
        · intro _
          rw [hg1]
          have h1 := P1 (idx + 1) hi1 (by omega)
          rwa [Nat.add_sub_cancel] at h1
        · intro _ x hx
          rw [hg1]
          exact hneg _ _ _ hnw hx
        · intro hcl
          omega
      · next hfix =>
        have hnofix : c + 1 < l.length → less (l.getI (c + 1)) (l.getI idx) = false := by
          intro hb
          by_contra hcon
          rw [Bool.not_eq_false] at hcon
          exact hfix ⟨by simpa using hb, by rwa [hBc1 hb, hBc]⟩
        refine ⟨by simp, hBidx, ?_, ?_, ?_, ?_, ?_, ?_⟩
        · intro j hj1 hj2 hj3
          exact getI_listSwap_other _ (by omega) (by omega)
        · rw [hBc]
          exact hasymm _ _ htest
        · intro hb
          rw [hBc1 hb, hBc]
          exact hnofix hb
        · intro hb
          rw [hBc1 hb]
          have hgp1 : get_parent (c + 1) = idx := by
            rw [ipar_pair (by omega), Nat.add_sub_cancel, hcgp]
          have hp3 := P3 (c + 1) hb (by omega) (by omega) (by rw [hgp1]; omega)
          rwa [hgp1] at hp3
        · intro hb x hx
          rwa [hBc1 hb]
        · intro _
          rw [hBc]
          have h1 := P1 (idx + 1) hi1 (by omega)
          rwa [Nat.add_sub_cancel] at h1
    set L2 := minFix less (listSwap l idx c) c with hL2def
    apply ih hce (by omega) (by omega)
    · -- interval pairs
      intro i hilen hio
      rw [hlen2] at hilen
      by_cases hix : i = idx + 1
      · subst hix
        rw [Nat.add_sub_cancel, FO _ (by omega) (by omega) (by omega), F1]
        have h1 := P1 (idx + 1) hi1 (by omega)
        have h2 : less (l.getI idx) (l.getI c) = false := hasymm _ _ htest
        rw [Nat.add_sub_cancel] at h1
        exact hneg _ _ _ h1 h2
      · by_cases hic : i = c + 1
        · subst hic
          have h3 : c + 1 - 1 = c := by omega
          rw [h3]
          exact F3 (by omega)
        · have h4 : i - 1 ≠ c := by omega
          rw [FO i (by omega) (by omega) hic, FO _ (by omega) h4 (by omega)]
          exact P1 i (by omega) hio
    · -- min-heap edges except children of c
      intro i hilen hie h2i hsg hguard
      rw [hlen2] at hilen
      have hpi := ipar_eq i
      have hps := ipar_sub2 h2i
      by_cases hi0 : i = idx
      · subst hi0
        rw [F1, FO _ (by omega) (by omega) (by omega)]
        exact HX (by omega) c hcub hce hcgp (by omega)
      · by_cases hic : i = c
        · subst hic
          rw [hcgp, F1]
          exact F2
        · by_cases hgpi : get_parent i = idx
          · rw [FO i hi0 hic (by omega), hgpi, F1]
            exact hsib i (by omega) hie hgpi hi0 hic
          · have hgc : get_parent i ≠ c := fun hcc => hic (hguard hcc)
            have hpe := ipar_even i
            rw [FO i hi0 hic (by omega), FO _ hgpi hgc (by omega)]
            exact P2 i (by omega) hie h2i hsg (fun hgp => absurd hgp hgpi)
    · -- max-heap edges
      intro i hilen hio h3i hsg
      rw [hlen2] at hilen
      have hpi := ipar_eq i
      by_cases hic1 : i = c + 1
      · subst hic1
        have hx' : get_parent (c + 1) = idx := by
          rw [ipar_pair (by omega), Nat.add_sub_cancel, hcgp]
        rw [hx', FO _ (by omega) (by omega) (by omega)]
        exact F5 (by omega)
      · by_cases hgi : get_parent i = c
        · have h2c : 2 ≤ c := by omega
          have hge := ichild_ge hgi h2c
          rw [FO i (by omega) (by omega) hic1, hgi]
          have hp3 := P3 i (by omega) hio h3i (by rw [hgi]; omega)
          rw [hgi] at hp3
          exact F6 (by omega) _ hp3
        · have hpe := ipar_even i
          rw [FO i (by omega) (by omega) hic1, FO _ (by omega) (by omega) (by omega)]
          exact P3 i (by omega) hio h3i hsg
    · -- lone-min edges
      intro i hiplus hie h2i hsg
      rw [hlen2] at hiplus
      have hpi := ipar_eq i
      by_cases hic : i = c
      · subst hic
        rw [hcgp, FO _ (by omega) (by omega) (by omega)]
        exact F8 (by omega)
      · by_cases hgi : get_parent i = c
        · have h2c : 2 ≤ c := by omega
          have hge := ichild_ge hgi h2c
          rw [FO i (by omega) (by omega) (by omega), hgi]
          have hp4 := P4 i (by omega) hie h2i (by rw [hgi]; omega)
          rw [hgi] at hp4
          exact F6 (by omega) _ hp4
        · have hpe := ipar_even i
          rw [FO i (by omega) (by omega) (by omega), FO _ (by omega) (by omega) (by omega)]
          exact P4 i (by omega) hie h2i hsg
    · -- children of c dominate the grandparent min
      intro hs2 j hj hje hgpj hjne
      rw [hlen2] at hj
      have hge := ichild_ge hgpj (by omega)
      rw [FO j (by omega) (by omega) (by omega), hcgp, F1]
      have hp2 := P2 j hj hje (by omega) (by rw [hgpj]; omega) (by intro hh; omega)
      rwa [hgpj] at hp2
  | case2 l idx h htest =>
    intro hev hlt hsi P1 P2 P3 P4 HX
    rw [bubble_down_min.eq_def, dif_pos h, if_neg htest]
    have hle := ileft_eq idx
    have hcub : pickMinChild less l (get_left idx) < l.length := pickMinChild_ub less h
    have hc_or := pickMinChild_or less l (get_left idx)
    set c := pickMinChild less l (get_left idx) with hcdef
    have htf : less (l.getI c) (l.getI idx) = false := by simpa using htest
    have hsel : (c = get_left idx ∧ (get_left idx + 2 < l.length →
          less (l.getI (get_left idx + 2)) (l.getI (get_left idx)) = false))
        ∨ (c = get_left idx + 2 ∧
          less (l.getI (get_left idx + 2)) (l.getI (get_left idx)) = true) := by
      have hpick := hcdef
      unfold pickMinChild at hpick
      split at hpick
      · next hcond => exact Or.inr ⟨hpick, hcond.2⟩
      · next hcond =>
        refine Or.inl ⟨hpick, fun hb => ?_⟩
        by_contra hcon
        rw [Bool.not_eq_false] at hcon
        exact hcond ⟨hb, hcon⟩
    refine ⟨P1, ?_, P3, P4⟩
    intro i hilen hie h2i hsg
    by_cases hgpi : get_parent i = idx ∧ i ≠ idx
    · obtain ⟨hgp, hne⟩ := hgpi
      have hpi := ipar_eq i
      have hch := ichildren hie h2i hgp
      rw [hgp]
      rcases hsel with ⟨hc1, hrest⟩ | ⟨hc1, hcond⟩
      · rcases hch with h1 | h1
        · have hieq : i = c := by omega
          rw [hieq]
          exact htf
        · have hi2 : i = get_left idx + 2 := by omega
          have htf' := htf
          rw [hc1] at htf'
          rw [hi2]
          exact hneg _ _ _ (hrest (by omega)) htf'
      · rcases hch with h1 | h1
        · have hi1 : i = get_left idx := by omega
          have htf' := htf
          rw [hc1] at htf'
          rw [hi1]
          by_contra hcon
          rw [Bool.not_eq_false] at hcon
          have hcombo := htrans _ _ _ hcond hcon
          rw [hcombo] at htf'
          exact absurd htf' (by simp)
        · have hieq : i = c := by omega
          rw [hieq]
          exact htf
    · exact P2 i hilen hie h2i hsg (fun hgp => by
        by_contra hne
        exact hgpi ⟨hgp, hne⟩)
  | case3 l idx h =>
    intro hev hlt hsi P1 P2 P3 P4 HX
    rw [bubble_down_min.eq_def, dif_neg h]
    have hle := ileft_eq idx
    refine ⟨P1, ?_, P3, P4⟩
    intro i hilen hie h2i hsg
    refine P2 i hilen hie h2i hsg ?_
    intro hgp
    by_contra hne
    have hpi := ipar_eq i
    omega

/-- One descent step of `bubble_down_max`: swapping the hole max at
`idx + 1` with the dominating child max candidate `m` of the child node
with min slot `k'`, then fixing that node's interval, re-establishes the
descent invariant one level down. -/
theorem bdmax_step
    (hasymm : ∀ a b, less a b = true → less b a = false)
    (htrans : ∀ a b c, less a b = true → less b c = true → less a c = true)
    (hneg : ∀ a b c, less a b = false → less b c = false → less a c = false)
    {l : List T} {idx k' m s : Nat}
    (hev : idx % 2 = 0) (hlt : idx < l.length) (hsi : s ≤ idx)
    (D1 : ∀ i, i < l.length → i % 2 = 1 → less (l.getI i) (l.getI (i - 1)) = false)
    (D2 : ∀ i, i < l.length → i % 2 = 0 → 2 ≤ i → s + 2 ≤ get_parent i →
      less (l.getI i) (l.getI (get_parent i)) = false)
    (D3 : ∀ i, i < l.length → i % 2 = 1 → 3 ≤ i → s ≤ get_parent i → get_parent i ≠ idx →
      less (l.getI (get_parent i + 1)) (l.getI i) = false)
    (D4 : ∀ i, i + 1 = l.length → i % 2 = 0 → 2 ≤ i → s ≤ get_parent i → get_parent i ≠ idx →
      less (l.getI (get_parent i + 1)) (l.getI i) = false)
    (HXm : s + 2 ≤ idx → ∀ j, j < l.length → get_parent j = idx →
      ((j % 2 = 1 ∧ 3 ≤ j) ∨ (j + 1 = l.length ∧ j % 2 = 0 ∧ 2 ≤ j)) →
      less (l.getI (get_parent idx + 1)) (l.getI j) = false)
    (hkgp : get_parent k' = idx) (hke : k' % 2 = 0) (hk2 : idx + 2 ≤ k')
    (hmk : (m = k' + 1 ∧ k' + 1 < l.length) ∨ (m = k' ∧ k' + 1 = l.length))
    (hmlt : m < l.length)
    (hsw : less (l.getI (idx + 1)) (l.getI m) = true)
    (hoth : ∀ j, j < l.length → get_parent j = idx →
      ((j % 2 = 1 ∧ 3 ≤ j) ∨ (j + 1 = l.length ∧ j % 2 = 0 ∧ 2 ≤ j)) → j ≠ m →
      less (l.getI m) (l.getI j) = false) :
    k' % 2 = 0 ∧ k' < (childFix less (listSwap l (idx + 1) m) m).length ∧ s ≤ k'
    ∧ (∀ i, i < (childFix less (listSwap l (idx + 1) m) m).length → i % 2 = 1 →
        less ((childFix less (listSwap l (idx + 1) m) m).getI i)
          ((childFix less (listSwap l (idx + 1) m) m).getI (i - 1)) = false)
    ∧ (∀ i, i < (childFix less (listSwap l (idx + 1) m) m).length → i % 2 = 0 → 2 ≤ i →
        s + 2 ≤ get_parent i →
        less ((childFix less (listSwap l (idx + 1) m) m).getI i)
          ((childFix less (listSwap l (idx + 1) m) m).getI (get_parent i)) = false)
    ∧ (∀ i, i < (childFix less (listSwap l (idx + 1) m) m).length → i % 2 = 1 → 3 ≤ i →
        s ≤ get_parent i → get_parent i ≠ k' →
        less ((childFix less (listSwap l (idx + 1) m) m).getI (get_parent i + 1))
          ((childFix less (listSwap l (idx + 1) m) m).getI i) = false)
    ∧ (∀ i, i + 1 = (childFix less (listSwap l (idx + 1) m) m).length → i % 2 = 0 → 2 ≤ i →
        s ≤ get_parent i → get_parent i ≠ k' →
        less ((childFix less (listSwap l (idx + 1) m) m).getI (get_parent i + 1))
          ((childFix less (listSwap l (idx + 1) m) m).getI i) = false)
    ∧ (s + 2 ≤ k' → ∀ j, j < (childFix less (listSwap l (idx + 1) m) m).length →
        get_parent j = k' →
        ((j % 2 = 1 ∧ 3 ≤ j) ∨
          (j + 1 = (childFix less (listSwap l (idx + 1) m) m).length ∧ j % 2 = 0 ∧ 2 ≤ j)) →
        less ((childFix less (listSwap l (idx + 1) m) m).getI (get_parent k' + 1))
          ((childFix less (listSwap l (idx + 1) m) m).getI j) = false)
    ∧ (∀ j, j ≤ idx → (childFix less (listSwap l (idx + 1) m) m).getI j = l.getI j)
    ∧ (∀ x : T, less (l.getI (idx + 1)) x = false →
        (∀ j, j < l.length → j % 2 = 0 → less (l.getI j) x = false) →
        k' + 1 < (childFix less (listSwap l (idx + 1) m) m).length →
        less ((childFix less (listSwap l (idx + 1) m) m).getI (k' + 1)) x = false)
    ∧ (∀ x : T, less (l.getI (idx + 1)) x = false →
        (∀ j, j < l.length → j % 2 = 0 → less (l.getI j) x = false) →
        ∀ j, j < (childFix less (listSwap l (idx + 1) m) m).length → j % 2 = 0 →
        less ((childFix less (listSwap l (idx + 1) m) m).getI j) x = false) := by
  have hi1 : idx + 1 < l.length := by omega
  have hpsk := ipar_sub2 (show 2 ≤ k' by omega)
  have hgpk1 : get_parent (k' + 1) = idx := by
    rw [ipar_pair (by omega), Nat.add_sub_cancel, hkgp]
  obtain ⟨E1, Eidx, EO, Ek, EkT, Ek1, Esub, Elone, Ekv, Ekv2⟩ :
      (childFix less (listSwap l (idx + 1) m) m).length = l.length
      ∧ (childFix less (listSwap l (idx + 1) m) m).getI (idx + 1) = l.getI m
      ∧ (∀ j, j ≠ idx + 1 → j ≠ k' → j ≠ k' + 1 →
          (childFix less (listSwap l (idx + 1) m) m).getI j = l.getI j)
      ∧ (s + 2 ≤ idx →
          less ((childFix less (listSwap l (idx + 1) m) m).getI k') (l.getI idx) = false)
      ∧ (∀ x : T, less x (l.getI k') = false →
          less x ((childFix less (listSwap l (idx + 1) m) m).getI k') = false)
      ∧ (k' + 1 < l.length →
          less ((childFix less (listSwap l (idx + 1) m) m).getI (k' + 1))
            ((childFix less (listSwap l (idx + 1) m) m).getI k') = false)
      ∧ (k' + 1 < l.length →
          less ((childFix less (listSwap l (idx + 1) m) m).getI (idx + 1))
            ((childFix less (listSwap l (idx + 1) m) m).getI (k' + 1)) = false)
      ∧ (m = k' → less ((childFix less (listSwap l (idx + 1) m) m).getI (idx + 1))
          ((childFix less (listSwap l (idx + 1) m) m).getI k') = false)
      ∧ (k' + 1 < l.length →
          (childFix less (listSwap l (idx + 1) m) m).getI (k' + 1) = l.getI (idx + 1)
          ∨ (childFix less (listSwap l (idx + 1) m) m).getI (k' + 1) = l.getI k')
      ∧ ((childFix less (listSwap l (idx + 1) m) m).getI k' = l.getI k'
          ∨ (childFix less (listSwap l (idx + 1) m) m).getI k' = l.getI (idx + 1)) := by
    have hBi : (listSwap l (idx + 1) m).getI (idx + 1) = l.getI m :=
      getI_listSwap_left hi1 (by omega)
    have hBm : (listSwap l (idx + 1) m).getI m = l.getI (idx + 1) :=
      getI_listSwap_right hmlt
    have hBo : ∀ j, j ≠ idx + 1 → j ≠ m → (listSwap l (idx + 1) m).getI j = l.getI j :=
      fun j h1 h2 =>
        getI_listSwap_other _ (fun hh => h1 hh.symm) (fun hh => h2 hh.symm)
    unfold childFix
    split
    · next hfix =>
      obtain ⟨hmx, hlf⟩ := hfix
      have hmodd : m % 2 = 1 := by simpa [is_max] using hmx
      have hm1 : m = k' + 1 := by rcases hmk with h1 | h1 <;> omega
      subst hm1
      have hk1n : k' + 1 < l.length := by rcases hmk with h1 | h1 <;> omega
      rw [Nat.add_sub_cancel, hBm, hBo k' (by omega) (by omega)] at hlf
      rw [Nat.add_sub_cancel]
      have hC1 : (listSwap (listSwap l (idx + 1) (k' + 1)) (k' + 1) k').getI (k' + 1)
          = l.getI k' := by
        rw [getI_listSwap_left (by simp; omega) (by omega), hBo k' (by omega) (by omega)]
      have hC2 : (listSwap (listSwap l (idx + 1) (k' + 1)) (k' + 1) k').getI k'
          = l.getI (idx + 1) := by
        rw [getI_listSwap_right (by simp; omega), hBm]
      have hC3 : (listSwap (listSwap l (idx + 1) (k' + 1)) (k' + 1) k').getI (idx + 1)
          = l.getI (k' + 1) := by
        rw [getI_listSwap_other _ (by omega) (by omega), hBi]
      refine ⟨by simp, hC3, ?_, ?_, ?_, ?_, ?_, ?_, ?_, ?_⟩
      · intro j h1 h2 h3
        rw [getI_listSwap_other _ (by omega) (by omega), hBo j h1 (by omega)]
      · intro hg
        rw [hC2]
        have h1 := D1 (idx + 1) hi1 (by omega)
        rwa [Nat.add_sub_cancel] at h1
      · intro x hx
        rw [hC2]
        exact hneg _ _ _ hx (hasymm _ _ hlf)
      · intro _
        rw [hC1, hC2]
        exact hasymm _ _ hlf
      · intro _
        rw [hC3, hC1]
        have h1 := D1 (k' + 1) hk1n (by omega)
        rwa [Nat.add_sub_cancel] at h1
      · intro hmeq
        omega
      · intro hk1
        exact Or.inr hC1
      · exact Or.inr hC2
    · next hfix =>
      refine ⟨by simp, hBi, ?_, ?_, ?_, ?_, ?_, ?_, ?_, ?_⟩
      · intro j h1 h2 h3
        exact hBo j h1 (by rcases hmk with hh | hh <;> omega)
      · intro hg
        rcases hmk with ⟨hm1, hk1n⟩ | ⟨hm1, hk1n⟩
        · rw [hBo k' (by omega) (by omega)]
          have h2 := D2 k' (by omega) hke (by omega) (by rw [hkgp]; exact hg)
          rwa [hkgp] at h2
        · subst hm1
          rw [hBm]
          have h1 := D1 (idx + 1) hi1 (by omega)
          rwa [Nat.add_sub_cancel] at h1
      · intro x hx
        rcases hmk with ⟨hm1, hk1n⟩ | ⟨hm1, hk1n⟩
        · rwa [hBo k' (by omega) (by omega)]
        · subst hm1
          rw [hBm]
          exact hneg _ _ _ hx (hasymm _ _ hsw)
      · intro hk1n
        rcases hmk with ⟨hm1, -⟩ | ⟨-, hcc⟩
        · subst hm1
          rw [hBm, hBo k' (by omega) (by omega)]
          have hnl : less (l.getI (idx + 1)) (l.getI k') = false := by
            by_contra hcon
            rw [Bool.not_eq_false] at hcon
            refine hfix ⟨by simp [is_max]; omega, ?_⟩
            rwa [Nat.add_sub_cancel, hBm, hBo k' (by omega) (by omega)]
          exact hnl
        · omega
      · intro hk1n
        rcases hmk with ⟨hm1, -⟩ | ⟨-, hcc⟩
        · subst hm1
          rw [hBi, hBm]
          exact hasymm _ _ hsw
        · omega
      · intro hmeq
        subst hmeq
        rw [hBi, hBm]
        exact hasymm _ _ hsw
      · intro hk1
        rcases hmk with ⟨hm1, hk1n⟩ | ⟨hm1, hk1n⟩
        · subst hm1
          exact Or.inl hBm
        · exact absurd hk1 (by omega)
      · rcases hmk with ⟨hm1, hk1n⟩ | ⟨hm1, hk1n⟩
        · exact Or.inl (hBo k' (by omega) (by omega))
        · subst hm1
          exact Or.inr hBm
  have Epar : s + 2 ≤ idx → less (l.getI (get_parent idx + 1)) (l.getI m) = false := by
    intro h2
    refine HXm h2 m hmlt ?_ ?_
    · rcases hmk with ⟨hm1, -⟩ | ⟨hm1, -⟩
      · rw [hm1]
        exact hgpk1
      · rw [hm1]
        exact hkgp
    · rcases hmk with ⟨hm1, -⟩ | ⟨hm1, hk1n⟩
      · exact Or.inl ⟨by omega, by omega⟩
      · exact Or.inr ⟨by omega, by omega, by omega⟩
  refine ⟨hke, by rw [E1]; omega, by omega, ?_, ?_, ?_, ?_, ?_, ?_, ?_, ?_⟩
  · -- pairs
    intro i hilen hio
    rw [E1] at hilen
    by_cases hix : i = idx + 1
    · subst hix
      rw [Nat.add_sub_cancel, Eidx, EO idx (by omega) (by omega) (by omega)]
      have h1 := D1 (idx + 1) hi1 (by omega)
      rw [Nat.add_sub_cancel] at h1
      exact hneg _ _ _ (hasymm _ _ hsw) h1
    · by_cases hik : i = k' + 1
      · subst hik
        rw [Nat.add_sub_cancel]
        exact Ek1 (by omega)
      · rw [EO i hix (by omega) hik, EO _ (by omega) (by omega) (by omega)]
        exact D1 i (by omega) hio
  · -- min heap
    intro i hilen hie h2i hsg
    rw [E1] at hilen
    have hpi := ipar_eq i
    by_cases hik : i = k'
    · subst hik
      rw [hkgp, EO idx (by omega) (by omega) (by omega)]
      exact Ek (by omega)
    · by_cases hgi : get_parent i = k'
      · have hge := ichild_ge hgi (by omega)
        rw [EO i (by omega) hik (by omega), hgi]
        have h2 := D2 i (by omega) hie h2i hsg
        rw [hgi] at h2
        exact EkT _ h2
      · have hpe := ipar_even i
        rw [EO i (by omega) hik (by omega), EO _ (by omega) hgi (by omega)]
        exact D2 i (by omega) hie h2i hsg
  · -- max heap except children of the new node
    intro i hilen hio h3i hsg hgne
    rw [E1] at hilen
    have hpi := ipar_eq i
    by_cases hix : i = idx + 1
    · subst hix
      have hgpp : get_parent (idx + 1) = get_parent idx := by
        rw [ipar_pair (by omega), Nat.add_sub_cancel]
      have hps := ipar_sub2 (show 2 ≤ idx by omega)
      rw [hgpp, Eidx, EO _ (by omega) (by omega) (by omega)]
      exact Epar (by omega)
    · by_cases hik : i = k' + 1
      · subst hik
        rw [hgpk1]
        exact Esub (by omega)
      · by_cases hgi : get_parent i = idx
        · rw [EO i hix (by omega) hik, hgi, Eidx]
          refine hoth i (by omega) hgi (Or.inl ⟨hio, h3i⟩) ?_
          rcases hmk with ⟨hm1, -⟩ | ⟨hm1, -⟩ <;> omega
        · have hpe := ipar_even i
          rw [EO i hix (by omega) hik, EO _ (by omega) (by omega) (by omega)]
          exact D3 i (by omega) hio h3i hsg hgi
  · -- lone-min edges except the new node's lone child
    intro i hiplus hie h2i hsg hgne
    rw [E1] at hiplus
    have hpi := ipar_eq i
    by_cases hik : i = k'
    · rw [hik, hkgp]
      have hmeq : m = k' := by
        rcases hmk with ⟨-, hk1n⟩ | ⟨hm1, -⟩
        · omega
        · exact hm1
      exact Elone hmeq
    · by_cases hgi : get_parent i = idx
      · have hik1 : i ≠ k' + 1 := by omega
        rw [EO i (by omega) hik hik1, hgi, Eidx]
        refine hoth i (by omega) hgi (Or.inr ⟨by omega, hie, h2i⟩) ?_
        rcases hmk with ⟨hm1, -⟩ | ⟨hm1, -⟩ <;> omega
      · have hpe := ipar_even i
        rw [EO i (by omega) hik (by omega), EO _ (by omega) (by omega) (by omega)]
        exact D4 i (by omega) hie h2i hsg hgi
  · -- children maxes of the new node stay below its parent max
    intro h2k j hj hgpj hqual
    rw [E1] at hj
    have hge := ichild_ge hgpj (by omega)
    rw [hkgp, Eidx, EO j (by omega) (by omega) (by omega)]
    rcases hmk with ⟨hm1, hk1n⟩ | ⟨hm1, hk1n⟩
    · subst hm1
      rcases hqual with ⟨hjo, h3j⟩ | ⟨hjl, hje, h2j⟩
      · have h3 := D3 j hj hjo h3j (by rw [hgpj]; omega) (by omega)
        rwa [hgpj] at h3
      · rw [E1] at hjl
        have h4 := D4 j hjl hje h2j (by rw [hgpj]; omega) (by omega)
        rwa [hgpj] at h4
    · exfalso
      omega
  · -- the slots at or below the processed node are untouched
    intro j hj
    exact EO j (by omega) (by omega) (by omega)
  · -- the next hole value stays above any bound below the hole and the mins
    intro x hx hm hk1
    rw [E1] at hk1
    rcases Ekv hk1 with he | he
    · rw [he]
      exact hx
    · rw [he]
      exact hm k' (by omega) hke
  · -- min slots stay above any bound below the hole and the mins
    intro x hx hm j hj hje
    rw [E1] at hj
    by_cases hjk : j = k'
    · rw [hjk]
      rcases Ekv2 with he | he
      · rw [he]
        exact hm k' (by omega) hke
      · rw [he]
        exact hx
    · rw [EO j (by omega) hjk (by omega)]
      exact hm j hj hje

/-- When the hole max at `idx + 1` dominates every child max candidate of
node `idx`, the final `maxFix` is a no-op and the invariant holds. -/
theorem bdmax_stop
    {l : List T} {idx s : Nat} (hev : idx % 2 = 0)
    (D1 : ∀ i, i < l.length → i % 2 = 1 → less (l.getI i) (l.getI (i - 1)) = false)
    (D2 : ∀ i, i < l.length → i % 2 = 0 → 2 ≤ i → s + 2 ≤ get_parent i →
      less (l.getI i) (l.getI (get_parent i)) = false)
    (D3 : ∀ i, i < l.length → i % 2 = 1 → 3 ≤ i → s ≤ get_parent i → get_parent i ≠ idx →
      less (l.getI (get_parent i + 1)) (l.getI i) = false)
    (D4 : ∀ i, i + 1 = l.length → i % 2 = 0 → 2 ≤ i → s ≤ get_parent i → get_parent i ≠ idx →
      less (l.getI (get_parent i + 1)) (l.getI i) = false)
    (hcov : ∀ j, j < l.length → get_parent j = idx →
      ((j % 2 = 1 ∧ 3 ≤ j) ∨ (j + 1 = l.length ∧ j % 2 = 0 ∧ 2 ≤ j)) →
      less (l.getI (idx + 1)) (l.getI j) = false) :
    (∀ i, i < (maxFix less l idx).length → i % 2 = 1 →
      less ((maxFix less l idx).getI i) ((maxFix less l idx).getI (i - 1)) = false)
    ∧ (∀ i, i < (maxFix less l idx).length → i % 2 = 0 → 2 ≤ i → s + 2 ≤ get_parent i →
      less ((maxFix less l idx).getI i) ((maxFix less l idx).getI (get_parent i)) = false)
    ∧ (∀ i, i < (maxFix less l idx).length → i % 2 = 1 → 3 ≤ i → s ≤ get_parent i →
      less ((maxFix less l idx).getI (get_parent i + 1)) ((maxFix less l idx).getI i) = false)
    ∧ (∀ i, i + 1 = (maxFix less l idx).length → i % 2 = 0 → 2 ≤ i → s ≤ get_parent i →
      less ((maxFix less l idx).getI (get_parent i + 1)) ((maxFix less l idx).getI i) = false)
    ∧ (∀ j, j ≤ idx → (maxFix less l idx).getI j = l.getI j)
    ∧ (∀ x : T, (idx + 1 < l.length → less (l.getI (idx + 1)) x = false) →
      (∀ j, j < l.length → j % 2 = 0 → less (l.getI j) x = false) →
      ∀ j, j < (maxFix less l idx).length → j % 2 = 0 →
      less ((maxFix less l idx).getI j) x = false) := by
  have hmf : maxFix less l idx = l := by
    unfold maxFix
    rw [if_neg]
    rintro ⟨hb, hcc⟩
    have h1 := D1 (idx + 1) hb (by omega)
    rw [Nat.add_sub_cancel] at h1
    rw [h1] at hcc
    exact absurd hcc (by simp)
  rw [hmf]
  refine ⟨D1, D2, ?_, ?_, fun j hj => rfl, fun x hx hm j hj hje => hm j hj hje⟩
  · intro i hilen hio h3i hsg
    by_cases hgi : get_parent i = idx
    · rw [hgi]
      exact hcov i hilen hgi (Or.inl ⟨hio, h3i⟩)
    · exact D3 i hilen hio h3i hsg hgi
  · intro i hiplus hie h2i hsg
    by_cases hgi : get_parent i = idx
    · rw [hgi]
      exact hcov i (by omega) hgi (Or.inr ⟨hiplus, hie, h2i⟩)
    · exact D4 i hiplus hie h2i hsg hgi

/-- Invariant restoration for the loop of `bubble_down_max`: `idx` is the
min slot of the current node, the invariant holds except possibly on the
edges from the child max candidates of node `idx` into its max slot, and
those candidates are dominated by the grandparent max. -/
theorem bubbleDownMaxGo_inv
    (hasymm : ∀ a b, less a b = true → less b a = false)
    (htrans : ∀ a b c, less a b = true → less b c = true → less a c = true)
    (hneg : ∀ a b c, less a b = false → less b c = false → less a c = false)
    (s : Nat) :
    ∀ (l : List T) (idx : Nat),
      idx % 2 = 0 → idx < l.length → s ≤ idx →
      (∀ i, i < l.length → i % 2 = 1 → less (l.getI i) (l.getI (i - 1)) = false) →
      (∀ i, i < l.length → i % 2 = 0 → 2 ≤ i → s + 2 ≤ get_parent i →
        less (l.getI i) (l.getI (get_parent i)) = false) →
      (∀ i, i < l.length → i % 2 = 1 → 3 ≤ i → s ≤ get_parent i → get_parent i ≠ idx →
        less (l.getI (get_parent i + 1)) (l.getI i) = false) →
      (∀ i, i + 1 = l.length → i % 2 = 0 → 2 ≤ i → s ≤ get_parent i → get_parent i ≠ idx →
        less (l.getI (get_parent i + 1)) (l.getI i) = false) →
      (s + 2 ≤ idx → ∀ j, j < l.length → get_parent j = idx →
        ((j % 2 = 1 ∧ 3 ≤ j) ∨ (j + 1 = l.length ∧ j % 2 = 0 ∧ 2 ≤ j)) →
        less (l.getI (get_parent idx + 1)) (l.getI j) = false) →
      ((∀ i, i < (bubbleDownMaxGo less l idx).length → i % 2 = 1 →
          less ((bubbleDownMaxGo less l idx).getI i)
            ((bubbleDownMaxGo less l idx).getI (i - 1)) = false)
        ∧ (∀ i, i < (bubbleDownMaxGo less l idx).length → i % 2 = 0 → 2 ≤ i →
            s + 2 ≤ get_parent i →
            less ((bubbleDownMaxGo less l idx).getI i)
              ((bubbleDownMaxGo less l idx).getI (get_parent i)) = false)
        ∧ (∀ i, i < (bubbleDownMaxGo less l idx).length → i % 2 = 1 → 3 ≤ i →
            s ≤ get_parent i →
            less ((bubbleDownMaxGo less l idx).getI (get_parent i + 1))
              ((bubbleDownMaxGo less l idx).getI i) = false)
        ∧ (∀ i, i + 1 = (bubbleDownMaxGo less l idx).length → i % 2 = 0 → 2 ≤ i →
            s ≤ get_parent i →
            less ((bubbleDownMaxGo less l idx).getI (get_parent i + 1))
              ((bubbleDownMaxGo less l idx).getI i) = false)
        ∧ (∀ j, j ≤ idx → (bubbleDownMaxGo less l idx).getI j = l.getI j)
        ∧ (∀ x : T, (idx + 1 < l.length → less (l.getI (idx + 1)) x = false) →
            (∀ j, j < l.length → j % 2 = 0 → less (l.getI j) x = false) →
            ∀ j, j < (bubbleDownMaxGo less l idx).length → j % 2 = 0 →
            less ((bubbleDownMaxGo less l idx).getI j) x = false)) := by
  intro l idx
  induction l, idx using bubbleDownMaxGo.induct less with
  | case1 l idx h hc htest ih =>
    intro hev hlt hsi D1 D2 D3 D4 HXm
    rw [bubbleDownMaxGo.eq_def, dif_pos h, dif_pos hc, if_pos htest]
    obtain ⟨hc2n, hc12⟩ := hc
    have hle := ileft_eq idx
    have hm_or : (maxChild2 l.length (get_left idx) = get_left idx + 2 + 1
          ∧ get_left idx + 2 + 1 < l.length)
        ∨ (maxChild2 l.length (get_left idx) = get_left idx + 2
          ∧ get_left idx + 2 + 1 = l.length) := by
      by_cases hb : get_left idx + 3 < l.length
      · refine Or.inl ⟨?_, by omega⟩
        unfold maxChild2
        rw [if_pos hb]
      · have hval : maxChild2 l.length (get_left idx) = get_left idx + 2 := by
          unfold maxChild2
          rw [if_neg hb]
        exact Or.inr ⟨hval, by omega⟩
    have hkgp : get_parent (get_left idx + 2) = idx := by
      rw [hle]
      exact ipar_left2 hev
    have hoth : ∀ j, j < l.length → get_parent j = idx →
        ((j % 2 = 1 ∧ 3 ≤ j) ∨ (j + 1 = l.length ∧ j % 2 = 0 ∧ 2 ≤ j)) →
        j ≠ maxChild2 l.length (get_left idx) →
        less (l.getI (maxChild2 l.length (get_left idx))) (l.getI j) = false := by
      intro j hj hgpj hq hjm
      rcases hq with ⟨hjo, h3j⟩ | ⟨hjl, hje, h2j⟩
      · have hpp : get_parent (j - 1) = idx := by
          rw [← ipar_pair hjo]
          exact hgpj
        have hch := ichildren (by omega) (by omega) hpp
        have hj1 : j = get_left idx + 1 := by
          rcases hm_or with ⟨hmv, hbv⟩ | ⟨hmv, hbv⟩ <;> omega
        have hmc1 : maxChild1 l.length (get_left idx) = get_left idx + 1 := by
          unfold maxChild1
          rw [if_pos (by omega)]
        have hc12' := hc12
        rw [hmc1] at hc12'
        rw [hj1]
        exact hasymm _ _ hc12'
      · have hch := ichildren hje h2j hgpj
        have hge := maxChild2_ge l.length (get_left idx)
        rcases hm_or with ⟨hmv, hbv⟩ | ⟨hmv, hbv⟩ <;> (exfalso; omega)
    obtain ⟨c1, c2, c3, c4, c5, c6, c7, c8, c9, c10, c11⟩ :=
      bdmax_step hasymm htrans hneg hev hlt hsi D1 D2 D3 D4 HXm hkgp (by omega) (by omega)
        hm_or hc2n htest hoth
    obtain ⟨r1, r2, r3, r4, r5, r6⟩ := ih c1 c2 c3 c4 c5 c6 c7 c8
    refine ⟨r1, r2, r3, r4, ?_, ?_⟩
    · intro j hj
      exact (r5 j (by omega)).trans (c9 j hj)
    · intro x hx hm
      exact r6 x (fun hk1 => c10 x (hx (by omega)) hm hk1)
        (fun j hj hje => c11 x (hx (by omega)) hm j hj hje)
  | case2 l idx h hc htest =>
    intro hev hlt hsi D1 D2 D3 D4 HXm
    rw [bubbleDownMaxGo.eq_def, dif_pos h, dif_pos hc, if_neg htest]
    obtain ⟨hc2n, hc12⟩ := hc
    have hle := ileft_eq idx
    have hstop : less (l.getI (idx + 1)) (l.getI (maxChild2 l.length (get_left idx))) = false := by
      simpa using htest
    apply bdmax_stop hev D1 D2 D3 D4
    intro j hj hgpj hq
    have hge := maxChild2_ge l.length (get_left idx)
    rcases hq with ⟨hjo, h3j⟩ | ⟨hjl, hje, h2j⟩
    · have hpp : get_parent (j - 1) = idx := by
        rw [← ipar_pair hjo]
        exact hgpj
      have hch := ichildren (by omega) (by omega) hpp
      by_cases hj3 : j = get_left idx + 3
      · have hmv : maxChild2 l.length (get_left idx) = get_left idx + 3 := by
          unfold maxChild2
          rw [if_pos (by omega)]
        rw [hj3, ← hmv]
        exact hstop
      · have hj1 : j = get_left idx + 1 := by omega
        have hmc1 : maxChild1 l.length (get_left idx) = get_left idx + 1 := by
          unfold maxChild1
          rw [if_pos (by omega)]
        have hc12' := hc12
        rw [hmc1] at hc12'
        rw [hj1]
        exact hneg _ _ _ hstop (hasymm _ _ hc12')
    · have hch := ichildren hje h2j hgpj
      by_cases hj2 : j = get_left idx + 2
      · have hmv : maxChild2 l.length (get_left idx) = get_left idx + 2 := by
          unfold maxChild2
          rw [if_neg (by omega)]
        rw [hj2, ← hmv]
        exact hstop
      · exfalso
        omega
  | case3 l idx h hc htest ih =>
    intro hev hlt hsi D1 D2 D3 D4 HXm
    rw [bubbleDownMaxGo.eq_def, dif_pos h, dif_neg hc, if_pos htest]
    have hle := ileft_eq idx
    have hm_or : (maxChild1 l.length (get_left idx) = get_left idx + 1
          ∧ get_left idx + 1 < l.length)
        ∨ (maxChild1 l.length (get_left idx) = get_left idx
          ∧ get_left idx + 1 = l.length) := by
      by_cases hb : get_left idx + 1 < l.length
      · refine Or.inl ⟨?_, hb⟩
        unfold maxChild1
        rw [if_pos hb]
      · have hval : maxChild1 l.length (get_left idx) = get_left idx := by
          unfold maxChild1
          rw [if_neg hb]
        exact Or.inr ⟨hval, by omega⟩
    have hkgp : get_parent (get_left idx) = idx := by
      rw [hle]
      exact ipar_left hev
    have hmlt : maxChild1 l.length (get_left idx) < l.length := by
      rcases hm_or with ⟨hmv, hbv⟩ | ⟨hmv, hbv⟩ <;> omega
    have hoth : ∀ j, j < l.length → get_parent j = idx →
        ((j % 2 = 1 ∧ 3 ≤ j) ∨ (j + 1 = l.length ∧ j % 2 = 0 ∧ 2 ≤ j)) →
        j ≠ maxChild1 l.length (get_left idx) →
        less (l.getI (maxChild1 l.length (get_left idx))) (l.getI j) = false := by
      intro j hj hgpj hq hjm
      rcases hq with ⟨hjo, h3j⟩ | ⟨hjl, hje, h2j⟩
      · have hpp : get_parent (j - 1) = idx := by
          rw [← ipar_pair hjo]
          exact hgpj
        have hch := ichildren (by omega) (by omega) hpp
        have hj3 : j = get_left idx + 3 := by
          rcases hm_or with ⟨hmv, hbv⟩ | ⟨hmv, hbv⟩ <;> omega
        have hmc2 : maxChild2 l.length (get_left idx) = get_left idx + 3 := by
          unfold maxChild2
          rw [if_pos (by omega)]
        rw [hj3]
        by_contra hcon
        rw [Bool.not_eq_false] at hcon
        refine hc ⟨by rw [hmc2]; omega, ?_⟩
        rw [hmc2]
        exact hcon
      · have hch := ichildren hje h2j hgpj
        have hj2 : j = get_left idx + 2 := by
          rcases hm_or with ⟨hmv, hbv⟩ | ⟨hmv, hbv⟩ <;> omega
        have hmc2 : maxChild2 l.length (get_left idx) = get_left idx + 2 := by
          unfold maxChild2
          rw [if_neg (by omega)]
        rw [hj2]
        by_contra hcon
        rw [Bool.not_eq_false] at hcon
        refine hc ⟨by rw [hmc2]; omega, ?_⟩
        rw [hmc2]
        exact hcon
    obtain ⟨c1, c2, c3, c4, c5, c6, c7, c8, c9, c10, c11⟩ :=
      bdmax_step hasymm htrans hneg hev hlt hsi D1 D2 D3 D4 HXm hkgp (by omega) (by omega)
        hm_or hmlt htest hoth
    obtain ⟨r1, r2, r3, r4, r5, r6⟩ := ih c1 c2 c3 c4 c5 c6 c7 c8
    refine ⟨r1, r2, r3, r4, ?_, ?_⟩
    · intro j hj
      exact (r5 j (by omega)).trans (c9 j hj)
    · intro x hx hm
      exact r6 x (fun hk1 => c10 x (hx (by omega)) hm hk1)
        (fun j hj hje => c11 x (hx (by omega)) hm j hj hje)
  | case4 l idx h hc htest =>
    intro hev hlt hsi D1 D2 D3 D4 HXm
    rw [bubbleDownMaxGo.eq_def, dif_pos h, dif_neg hc, if_neg htest]
    have hle := ileft_eq idx
    have hstop : less (l.getI (idx + 1)) (l.getI (maxChild1 l.length (get_left idx))) = false := by
      simpa using htest
    apply bdmax_stop hev D1 D2 D3 D4
    intro j hj hgpj hq
    rcases hq with ⟨hjo, h3j⟩ | ⟨hjl, hje, h2j⟩
    · have hpp : get_parent (j - 1) = idx := by
        rw [← ipar_pair hjo]
        exact hgpj
      have hch := ichildren (by omega) (by omega) hpp
      by_cases hj1 : j = get_left idx + 1
      · have hmv : maxChild1 l.length (get_left idx) = get_left idx + 1 := by
          unfold maxChild1
          rw [if_pos (by omega)]
        rw [hj1, ← hmv]
        exact hstop
      · have hj3 : j = get_left idx + 3 := by omega
        have hmc2 : maxChild2 l.length (get_left idx) = get_left idx + 3 := by
          unfold maxChild2
          rw [if_pos (by omega)]
        have hrest : less (l.getI (maxChild1 l.length (get_left idx)))
            (l.getI (get_left idx + 3)) = false := by
          by_contra hcon
          rw [Bool.not_eq_false] at hcon
          refine hc ⟨by rw [hmc2]; omega, ?_⟩
          rw [hmc2]
          exact hcon
        rw [hj3]
        exact hneg _ _ _ hstop hrest
    · have hch := ichildren hje h2j hgpj
      by_cases hj0 : j = get_left idx
      · have hmv : maxChild1 l.length (get_left idx) = get_left idx := by
          unfold maxChild1
          rw [if_neg (by omega)]
        rw [hj0, ← hmv]
        exact hstop
      · have hj2 : j = get_left idx + 2 := by omega
        have hmc2 : maxChild2 l.length (get_left idx) = get_left idx + 2 := by
          unfold maxChild2
          rw [if_neg (by omega)]
        have hrest : less (l.getI (maxChild1 l.length (get_left idx)))
            (l.getI (get_left idx + 2)) = false := by
          by_contra hcon
          rw [Bool.not_eq_false] at hcon
          refine hc ⟨by rw [hmc2]; omega, ?_⟩
          rw [hmc2]
          exact hcon
        rw [hj2]
        exact hneg _ _ _ hstop hrest
  | case5 l idx h =>
    intro hev hlt hsi D1 D2 D3 D4 HXm
    rw [bubbleDownMaxGo.eq_def, dif_neg h]
    have hle := ileft_eq idx
    apply bdmax_stop hev D1 D2 D3 D4
    intro j hj hgpj hq
    exfalso
    rcases hq with ⟨hjo, h3j⟩ | ⟨hjl, hje, h2j⟩
    · have hpp : get_parent (j - 1) = idx := by
        rw [← ipar_pair hjo]
        exact hgpj
      have hch := ichildren (by omega) (by omega) hpp
      omega
    · have hch := ichildren hje h2j hgpj
      omega

theorem maxFix_multiset (l : List T) (idx : Nat) :
    ((maxFix less l idx : List T) : Multiset T) = (l : Multiset T) := by
  unfold maxFix
  split
  · next hfix => exact multiset_listSwap (by omega) hfix.1
  · rfl

theorem childFix_multiset (l : List T) (c : Nat) (hc : c < l.length) :
    ((childFix less l c : List T) : Multiset T) = (l : Multiset T) := by
  unfold childFix
  split
  · next hfix => exact multiset_listSwap hc (by omega)
  · rfl

theorem minFix_multiset (l : List T) (c : Nat) (hc : c < l.length) :
    ((minFix less l c : List T) : Multiset T) = (l : Multiset T) := by
  unfold minFix
  split
  · next hfix => exact multiset_listSwap hfix.1 hc
  · rfl

theorem bubble_down_min_multiset :
    ∀ (l : List T) (idx : Nat),
    ((bubble_down_min less l idx : List T) : Multiset T) = (l : Multiset T) := by
  intro l idx
  induction l, idx using bubble_down_min.induct less with
  | case1 l idx h htest ih =>
    rw [bubble_down_min.eq_def, dif_pos h, if_pos htest]
    have hle := ileft_eq idx
    have hcub := pickMinChild_ub less h
    rw [ih, minFix_multiset _ _ (by simpa using hcub),
      multiset_listSwap (by omega) hcub]
  | case2 l idx h htest => rw [bubble_down_min.eq_def, dif_pos h, if_neg htest]
  | case3 l idx h => rw [bubble_down_min.eq_def, dif_neg h]

theorem bubbleDownMaxGo_multiset :
    ∀ (l : List T) (idx : Nat),
    ((bubbleDownMaxGo less l idx : List T) : Multiset T) = (l : Multiset T) := by
  intro l idx
  induction l, idx using bubbleDownMaxGo.induct less with
  | case1 l idx h hc htest ih =>
    rw [bubbleDownMaxGo.eq_def, dif_pos h, dif_pos hc, if_pos htest]
    have hle := ileft_eq idx
    rw [ih, childFix_multiset _ _ (by simpa using hc.1),
      multiset_listSwap (by omega) hc.1]
  | case2 l idx h hc htest =>
    rw [bubbleDownMaxGo.eq_def, dif_pos h, dif_pos hc, if_neg htest]
    exact maxFix_multiset _ _
  | case3 l idx h hc htest ih =>
    rw [bubbleDownMaxGo.eq_def, dif_pos h, dif_neg hc, if_pos htest]
    have hle := ileft_eq idx
    have hmlt : maxChild1 l.length (get_left idx) < l.length := by
      unfold maxChild1
      split <;> omega
    rw [ih, childFix_multiset _ _ (by simpa using hmlt),
      multiset_listSwap (by omega) hmlt]
  | case4 l idx h hc htest =>
    rw [bubbleDownMaxGo.eq_def, dif_pos h, dif_neg hc, if_neg htest]
    exact maxFix_multiset _ _
  | case5 l idx h =>
    rw [bubbleDownMaxGo.eq_def, dif_neg h]
    exact maxFix_multiset _ _

theorem balance_node_multiset (l : List T) (idx : Nat) (hb : idx + 1 < l.length) :
    ((balance_node less l idx : List T) : Multiset T) = (l : Multiset T) := by
  unfold balance_node
  split
  · exact multiset_listSwap hb (by omega)
  · rfl

theorem balance_node_check_multiset (l : List T) (idx : Nat) :
    ((balance_node_check less l idx : List T) : Multiset T) = (l : Multiset T) := by
  unfold balance_node_check
  split
  · next hb => exact balance_node_multiset l idx hb
  · rfl

theorem dropLast_multiset {l : List T} (h : l ≠ []) :
    ((l.dropLast : List T) : Multiset T) + {l.getI (l.length - 1)} = (l : Multiset T) := by
  have hg : l.getI (l.length - 1) = l.getLast h := by
    rw [List.getI_eq_getElem _ (by
      have := List.length_pos.mpr h
      omega), List.getLast_eq_getElem]
  rw [hg]
  conv_rhs => rw [← List.dropLast_append_getLast h]
  rw [← Multiset.coe_add]
  rfl

/-- `pop_min` removes exactly the root min from the content. -/
theorem pop_min_multiset (l : List T) (hl : l ≠ []) :
    ((pop_min less l : List T) : Multiset T) + {l.getI 0} = (l : Multiset T) := by
  unfold pop_min
  dsimp only
  have hn1 : 1 ≤ l.length := List.length_pos.mpr hl
  split
  · next h1 =>
    have h0 : (0 : Nat) = l.length - 1 := by omega
    rw [h0]
    exact dropLast_multiset hl
  · next h1 =>
    have hn2 : 2 ≤ l.length := by omega
    rw [bubble_down_min_multiset]
    split
    · next hodd =>
      have hne : l.set 0 (l.getI (l.length - 1)) ≠ [] := by
        intro hcc
        have h0 := congrArg List.length hcc
        simp only [List.length_set, List.length_nil] at h0
        omega
      have hd := dropLast_multiset hne
      have hlast : (l.set 0 (l.getI (l.length - 1))).getI
          ((l.set 0 (l.getI (l.length - 1))).length - 1) = l.getI (l.length - 1) := by
        rw [List.length_set, getI_set_ne _ (by omega)]
      rw [hlast] at hd
      have hset := multiset_set (l := l) (show 0 < l.length by omega)
        (l.getI (l.length - 1))
      apply add_right_cancel (b := ({l.getI (l.length - 1)} : Multiset T))
      calc ((l.set 0 (l.getI (l.length - 1))).dropLast : Multiset T) + {l.getI 0}
            + {l.getI (l.length - 1)}
          = ((l.set 0 (l.getI (l.length - 1))).dropLast : Multiset T)
            + {l.getI (l.length - 1)} + {l.getI 0} := by abel
        _ = ((l.set 0 (l.getI (l.length - 1))) : Multiset T) + {l.getI 0} := by rw [hd]
        _ = (l : Multiset T) + {l.getI (l.length - 1)} := hset
    · next hodd =>
      set A := l.set 0 (l.getI (l.length - 2)) with hAdef
      set B := A.set (l.length - 2) (l.getI (l.length - 1)) with hBdef
      have hAlen : A.length = l.length := by simp [hAdef]
      have hBlen : B.length = l.length := by simp [hBdef, hAdef]
      have hBne : B ≠ [] := by
        intro hcc
        have h0 := congrArg List.length hcc
        rw [hBlen] at h0
        simp only [List.length_nil] at h0
        omega
      have hd := dropLast_multiset hBne
      have hlast : B.getI (B.length - 1) = l.getI (l.length - 1) := by
        rw [hBlen, hBdef, getI_set_ne (i := l.length - 2) (l.length - 1) (by omega),
          hAdef, getI_set_ne (i := 0) (l.length - 1) (by omega)]
      rw [hlast] at hd
      have hAmid : A.getI (l.length - 2) = l.getI (l.length - 2) := by
        rcases Nat.eq_zero_or_pos (l.length - 2) with h0 | h0
        · rw [hAdef, h0]
          exact getI_set_self (l := l) (i := 0) (by omega) _
        · rw [hAdef, getI_set_ne (i := 0) (l.length - 2) (by omega)]
      have hsetB : (B : Multiset T) + {A.getI (l.length - 2)}
          = (A : Multiset T) + {l.getI (l.length - 1)} :=
        multiset_set (by omega) _
      rw [hAmid] at hsetB
      have hsetA : (A : Multiset T) + {l.getI 0}
          = (l : Multiset T) + {l.getI (l.length - 2)} :=
        multiset_set (by omega) _
      apply add_right_cancel (b := ({l.getI (l.length - 1)} : Multiset T))
      apply add_right_cancel (b := ({l.getI (l.length - 2)} : Multiset T))
      calc (B.dropLast : Multiset T) + {l.getI 0} + {l.getI (l.length - 1)}
            + {l.getI (l.length - 2)}
          = ((B.dropLast : Multiset T) + {l.getI (l.length - 1)})
            + {l.getI (l.length - 2)} + {l.getI 0} := by abel
        _ = (B : Multiset T) + {l.getI (l.length - 2)} + {l.getI 0} := by rw [hd]
        _ = ((A : Multiset T) + {l.getI (l.length - 1)}) + {l.getI 0} := by rw [hsetB]
        _ = ((A : Multiset T) + {l.getI 0}) + {l.getI (l.length - 1)} := by abel
        _ = ((l : Multiset T) + {l.getI (l.length - 2)}) + {l.getI (l.length - 1)} := by
            rw [hsetA]
        _ = (l : Multiset T) + {l.getI (l.length - 1)} + {l.getI (l.length - 2)} := by abel

/-- `pop_max` removes exactly the reported max from the content. -/
theorem pop_max_multiset (l : List T) (hl : l ≠ []) :
    ((pop_max less l : List T) : Multiset T) + {maxVal l} = (l : Multiset T) := by
  unfold pop_max
  dsimp only
  have hn1 : 1 ≤ l.length := List.length_pos.mpr hl
  split
  · next h1 =>
    have hmv : maxVal l = l.getI 0 := by
      unfold maxVal
      rw [if_neg (by omega)]
    rw [hmv]
    have h0 : (0 : Nat) = l.length - 1 := by omega
    rw [h0]
    exact dropLast_multiset hl
  · next h1 =>
    have hn2 : 2 ≤ l.length := by omega
    have hmv : maxVal l = l.getI 1 := by
      unfold maxVal
      rw [if_pos (by omega)]
    rw [hmv]
    set B := l.set 1 (l.getI (l.length - 1)) with hBdef
    have hBlen : B.length = l.length := by simp [hBdef]
    have hBne : B ≠ [] := by
      intro hcc
      have h0 := congrArg List.length hcc
      rw [hBlen] at h0
      simp only [List.length_nil] at h0
      omega
    have hd := dropLast_multiset hBne
    have hlast : B.getI (B.length - 1) = l.getI (l.length - 1) := by
      rcases Nat.eq_zero_or_pos (l.length - 2) with h0 | h0
      · rw [hBlen, hBdef]
        have h11 : l.length - 1 = 1 := by omega
        rw [h11]
        exact getI_set_self (by omega) _
      · rw [hBlen, hBdef, getI_set_ne (i := 1) (l.length - 1) (by omega)]
    rw [hlast] at hd
    have hsetB : (B : Multiset T) + {l.getI 1} = (l : Multiset T) + {l.getI (l.length - 1)} :=
      multiset_set (by omega) _
    have hcore : ((B.dropLast : List T) : Multiset T) + {l.getI 1} = (l : Multiset T) := by
      apply add_right_cancel (b := ({l.getI (l.length - 1)} : Multiset T))
      calc (B.dropLast : Multiset T) + {l.getI 1} + {l.getI (l.length - 1)}
          = ((B.dropLast : Multiset T) + {l.getI (l.length - 1)}) + {l.getI 1} := by abel
        _ = (B : Multiset T) + {l.getI 1} := by rw [hd]
        _ = (l : Multiset T) + {l.getI (l.length - 1)} := hsetB
    split
    · next h2 =>
      unfold bubble_down_max
      rw [bubbleDownMaxGo_multiset]
      exact hcore
    · next h2 =>
      exact hcore

/-- `replace_min` exchanges the root min for the new value in the content. -/
theorem replace_min_multiset (l : List T) (v : T) (hl : l ≠ []) :
    ((replace_min less l v : List T) : Multiset T) + {l.getI 0}
      = (l : Multiset T) + {v} := by
  have hn1 : 1 ≤ l.length := List.length_pos.mpr hl
  unfold replace_min
  dsimp only
  rw [bubble_down_min_multiset, balance_node_check_multiset]
  exact multiset_set (by omega) _

/-- `replace_max` exchanges the reported max for the new value in the content. -/
theorem replace_max_multiset (l : List T) (v : T) (hl : l ≠ []) :
    ((replace_max less l v : List T) : Multiset T) + {maxVal l}
      = (l : Multiset T) + {v} := by
  have hn1 : 1 ≤ l.length := List.length_pos.mpr hl
  unfold replace_max maxVal
  split
  · next h1 =>
    rw [if_neg (by omega)]
    have h0 : l.getI 0 = l.getI (l.length - 1) := by
      have h00 : l.length - 1 = 0 := by omega
      rw [h00]
    rw [h0]
    have h00 : (0 : Nat) = l.length - 1 := by omega
    conv_lhs => rw [h00]
    exact multiset_set (by omega) _
  · next h1 =>
    have hn2 : 2 ≤ l.length := by omega
    rw [if_pos (by omega)]
    unfold bubble_down_max
    rw [bubbleDownMaxGo_multiset, balance_node_multiset _ _ (by simp; omega)]
    exact multiset_set (by omega) _

/-- The node-balancing pass of `heapify` orders every interval pair. -/
theorem balanceAll_pairs
    (hasymm : ∀ a b, less a b = true → less b a = false) :
    ∀ (l : List T) (i : Nat), i % 2 = 0 →
    (∀ j, j < l.length → j % 2 = 1 → j < i → less (l.getI j) (l.getI (j - 1)) = false) →
    ∀ j, j < (balanceAll less l i).length → j % 2 = 1 →
      less ((balanceAll less l i).getI j) ((balanceAll less l i).getI (j - 1)) = false := by
  intro l i
  induction l, i using balanceAll.induct less with
  | case1 l i h ih =>
    intro hie pre
    rw [balanceAll.eq_def, if_pos h]
    apply ih (by omega)
    intro j hj hjo hji
    rw [balance_node_length] at hj
    obtain ⟨hAp, hAo⟩ : less ((balance_node less l i).getI (i + 1))
          ((balance_node less l i).getI i) = false
        ∧ (∀ j, j ≠ i → j ≠ i + 1 → (balance_node less l i).getI j = l.getI j) := by
      unfold balance_node
      split
      · next hsw =>
        constructor
        · rw [getI_listSwap_left (by omega) (by omega),
            getI_listSwap_right (by omega)]
          exact hasymm _ _ hsw
        · intro j hj1 hj2
          exact getI_listSwap_other _ (fun hh => hj2 hh.symm) (fun hh => hj1 hh.symm)
      · next hsw =>
        refine ⟨?_, fun j hj1 hj2 => rfl⟩
        by_contra hcc
        rw [Bool.not_eq_false] at hcc
        exact hsw hcc
    by_cases hji1 : j = i + 1
    · subst hji1
      rw [Nat.add_sub_cancel]
      exact hAp
    · have hjlt : j < i := by omega
      rw [hAo j (by omega) hji1, hAo _ (by omega) (by omega)]
      exact pre j hj hjo hjlt
  | case2 l i h =>
    intro hie pre
    rw [balanceAll.eq_def, if_neg h]
    intro j hj hjo
    exact pre j hj hjo (by omega)

/-- One iteration of the bubble-down loop of `heapify`: under the invariant
guarded at cutoff `2 * (k + 1)`, the max descent at node index `2k + 1`
keeps every pair ordered (in particular the pair of the node the following
min descent starts at), and the min descent at `2k` then re-establishes the
invariant guarded at cutoff `2 * k`. -/
theorem iheapify_step_inv
    (hasymm : ∀ a b, less a b = true → less b a = false)
    (htrans : ∀ a b c, less a b = true → less b c = true → less a c = true)
    (hneg : ∀ a b c, less a b = false → less b c = false → less a c = false)
    {k : Nat} {l : List T} (hk : 2 * (k + 1) < l.length + 2)
    (P1 : ∀ i, i < l.length → i % 2 = 1 → less (l.getI i) (l.getI (i - 1)) = false)
    (P2 : ∀ i, i < l.length → i % 2 = 0 → 2 ≤ i → 2 * (k + 1) ≤ get_parent i →
      less (l.getI i) (l.getI (get_parent i)) = false)
    (P3 : ∀ i, i < l.length → i % 2 = 1 → 3 ≤ i → 2 * (k + 1) ≤ get_parent i →
      less (l.getI (get_parent i + 1)) (l.getI i) = false)
    (P4 : ∀ i, i + 1 = l.length → i % 2 = 0 → 2 ≤ i → 2 * (k + 1) ≤ get_parent i →
      less (l.getI (get_parent i + 1)) (l.getI i) = false) :
    (∀ i, i < (bubble_down_max less l (2 * k + 1)).length → i % 2 = 1 →
      less ((bubble_down_max less l (2 * k + 1)).getI i)
        ((bubble_down_max less l (2 * k + 1)).getI (i - 1)) = false)
    ∧ (∀ i, i < (bubble_down_min less (bubble_down_max less l (2 * k + 1)) (2 * k)).length →
        i % 2 = 1 →
        less ((bubble_down_min less (bubble_down_max less l (2 * k + 1)) (2 * k)).getI i)
          ((bubble_down_min less (bubble_down_max less l (2 * k + 1)) (2 * k)).getI (i - 1))
          = false)
    ∧ (∀ i, i < (bubble_down_min less (bubble_down_max less l (2 * k + 1)) (2 * k)).length →
        i % 2 = 0 → 2 ≤ i → 2 * k ≤ get_parent i →
        less ((bubble_down_min less (bubble_down_max less l (2 * k + 1)) (2 * k)).getI i)
          ((bubble_down_min less (bubble_down_max less l (2 * k + 1)) (2 * k)).getI
            (get_parent i)) = false)
    ∧ (∀ i, i < (bubble_down_min less (bubble_down_max less l (2 * k + 1)) (2 * k)).length →
        i % 2 = 1 → 3 ≤ i → 2 * k ≤ get_parent i →
        less ((bubble_down_min less (bubble_down_max less l (2 * k + 1)) (2 * k)).getI
            (get_parent i + 1))
          ((bubble_down_min less (bubble_down_max less l (2 * k + 1)) (2 * k)).getI i)
          = false)
    ∧ (∀ i, i + 1 = (bubble_down_min less (bubble_down_max less l (2 * k + 1)) (2 * k)).length →
        i % 2 = 0 → 2 ≤ i → 2 * k ≤ get_parent i →
        less ((bubble_down_min less (bubble_down_max less l (2 * k + 1)) (2 * k)).getI
            (get_parent i + 1))
          ((bubble_down_min less (bubble_down_max less l (2 * k + 1)) (2 * k)).getI i)
          = false) := by
  have hbdm : bubble_down_max less l (2 * k + 1) = bubbleDownMaxGo less l (2 * k) := by
    unfold bubble_down_max
    rw [Nat.add_sub_cancel]
  rw [hbdm]
  have hn2k : 2 * k < l.length := by omega
  obtain ⟨A1, A2, A3, A4, A5, A6⟩ :=
    bubbleDownMaxGo_inv hasymm htrans hneg (2 * k) l (2 * k) (by omega) hn2k (by omega)
      P1
      (fun i h1 h2 h3 hg => P2 i h1 h2 h3 (by omega))
      (fun i h1 h2 h3 hg hne => P3 i h1 h2 h3 (by
        have hpe := ipar_even i
        omega))
      (fun i h1 h2 h3 hg hne => P4 i h1 h2 h3 (by
        have hpe := ipar_even i
        omega))
      (fun hcc => absurd hcc (by omega))
  obtain ⟨B1, B2, B3, B4⟩ :=
    bubble_down_min_inv hasymm htrans hneg (2 * k)
      (bubbleDownMaxGo less l (2 * k)) (2 * k) (by omega)
      (by rw [bubbleDownMaxGo_length]; omega) (by omega)
      A1
      (fun i h1 h2 h3 hsg hguard => A2 i h1 h2 h3 (by
        have hpe := ipar_even i
        by_cases hgp : get_parent i = 2 * k
        · have hii := hguard hgp
          have hps := ipar_sub2 h3
          omega
        · omega))
      A3 A4
      (fun hcc => absurd hcc (by omega))
  exact ⟨A1, B1, B2, B3, B4⟩

/-- The bubble-down pass of `heapify`: with all pairs ordered and the
invariant already holding on every edge into a node at index `2 * k` or
deeper, running the loop with fuel `k` yields a valid interval heap. -/
theorem heapifyGo_inv
    (hasymm : ∀ a b, less a b = true → less b a = false)
    (htrans : ∀ a b c, less a b = true → less b c = true → less a c = true)
    (hneg : ∀ a b c, less a b = false → less b c = false → less a c = false) :
    ∀ (k : Nat) (l : List T), 2 * k < l.length + 2 →
    (∀ i, i < l.length → i % 2 = 1 → less (l.getI i) (l.getI (i - 1)) = false) →
    (∀ i, i < l.length → i % 2 = 0 → 2 ≤ i → 2 * k ≤ get_parent i →
      less (l.getI i) (l.getI (get_parent i)) = false) →
    (∀ i, i < l.length → i % 2 = 1 → 3 ≤ i → 2 * k ≤ get_parent i →
      less (l.getI (get_parent i + 1)) (l.getI i) = false) →
    (∀ i, i + 1 = l.length → i % 2 = 0 → 2 ≤ i → 2 * k ≤ get_parent i →
      less (l.getI (get_parent i + 1)) (l.getI i) = false) →
    IInv less (heapifyGo less l k) := by
  intro k
  induction k with
  | zero =>
    intro l hk P1 P2 P3 P4
    exact ⟨P1, fun i h1 h2 h3 => P2 i h1 h2 h3 (by omega),
      fun i h1 h2 h3 => P3 i h1 h2 h3 (by omega),
      fun i h1 h2 h3 => P4 i h1 h2 h3 (by omega)⟩
  | succ k ih =>
    intro l hk P1 P2 P3 P4
    rw [heapifyGo]
    obtain ⟨hA1, B1, B2, B3, B4⟩ := iheapify_step_inv hasymm htrans hneg hk P1 P2 P3 P4
    apply ih
    · rw [bubble_down_min_length, bubble_down_max_length]
      omega
    · exact B1
    · exact B2
    · exact B3
    · exact B4

/-- `heapify` establishes the invariant from an arbitrary sequence. -/
theorem iheapify_inv
    (hasymm : ∀ a b, less a b = true → less b a = false)
    (htrans : ∀ a b c, less a b = true → less b c = true → less a c = true)
    (hneg : ∀ a b c, less a b = false → less b c = false → less a c = false)
    (l : List T) : IInv less (heapify less l) := by
  unfold heapify
  split
  · next hle2 =>
    split
    · next hcond =>
      obtain ⟨hl2, hlt⟩ := hcond
      refine ⟨?_, ?_, ?_, ?_⟩
      · intro i h1 h2
        rw [listSwap_length, hl2] at h1
        interval_cases i
        · exact absurd h2 (by omega)
        · rw [getI_listSwap_left (by omega) (by omega),
            show (1 : Nat) - 1 = 0 from rfl, getI_listSwap_right (by omega)]
          exact hasymm _ _ hlt
      · intro i h1 h2 h3
        exfalso
        rw [listSwap_length, hl2] at h1
        omega
      · intro i h1 h2 h3
        exfalso
        rw [listSwap_length, hl2] at h1
        omega
      · intro i h1 h2 h3
        exfalso
        rw [listSwap_length, hl2] at h1
        omega
    · next hcond =>
      refine ⟨?_, ?_, ?_, ?_⟩
      · intro i h1 h2
        have hi1 : i = 1 := by omega
        subst hi1
        have hl2 : l.length = 2 := by omega
        by_contra hcc
        rw [Bool.not_eq_false] at hcc
        exact hcond ⟨hl2, hcc⟩
      · intro i h1 h2 h3
        exfalso
        omega
      · intro i h1 h2 h3
        exfalso
        omega
      · intro i h1 h2 h3
        exfalso
        omega
  · next hgt =>
    have hn3 : 3 ≤ l.length := by omega
    apply heapifyGo_inv hasymm htrans hneg ((l.length - 1) / 4 + 1) (balanceAll less l 0)
    · rw [balanceAll_length]
      omega
    · exact balanceAll_pairs hasymm l 0 rfl (fun j h1 h2 h3 => absurd h3 (by omega))
    · intro i h1 h2 h3 hg
      exfalso
      have hpi := ipar_eq i
      rw [balanceAll_length] at h1
      omega
    · intro i h1 h2 h3 hg
      exfalso
      have hpi := ipar_eq i
      rw [balanceAll_length] at h1
      omega
    · intro i h1 h2 h3 hg
      exfalso
      have hpi := ipar_eq i
      rw [balanceAll_length] at h1
      omega

/-- `replace_min` preserves the invariant. -/
theorem replace_min_inv
    (hasymm : ∀ a b, less a b = true → less b a = false)
    (htrans : ∀ a b c, less a b = true → less b c = true → less a c = true)
    (hneg : ∀ a b c, less a b = false → less b c = false → less a c = false)
    {l : List T} (hInv : IInv less l) (val : T) :
    IInv less (replace_min less l val) := by
  by_cases hn : l.length ≤ 1
  · exact IInv_small (by rw [replace_min_length]; omega)
  · have hn2 : 2 ≤ l.length := by omega
    obtain ⟨I1, I2, I3, I4⟩ := hInv
    have hL01 : (l.set 0 val).getI 1 = l.getI 1 := getI_set_ne 1 (by omega) val
    have hL00 : (l.set 0 val).getI 0 = val := getI_set_self (by omega) val
    have hbnc : balance_node_check less (l.set 0 val) 0
        = balance_node less (l.set 0 val) 0 := by
      unfold balance_node_check
      rw [if_pos (by simp only [List.length_set]; omega)]
    obtain ⟨hAlen, hApair, hAo, hAmax⟩ :
        (balance_node less (l.set 0 val) 0).length = l.length
        ∧ less ((balance_node less (l.set 0 val) 0).getI 1)
            ((balance_node less (l.set 0 val) 0).getI 0) = false
        ∧ (∀ j, 2 ≤ j → (balance_node less (l.set 0 val) 0).getI j = l.getI j)
        ∧ (∀ x, less (l.getI 1) x = false →
            less ((balance_node less (l.set 0 val) 0).getI 1) x = false) := by
      unfold balance_node
      simp only [Nat.zero_add]
      split
      · next hsw =>
        rw [hL01, hL00] at hsw
        have hvlf : less val (l.getI 1) = false := hasymm _ _ hsw
        refine ⟨by simp, ?_, ?_, ?_⟩
        · rw [getI_listSwap_left (by simp only [List.length_set]; omega) (by omega),
            getI_listSwap_right (by simp only [List.length_set]; omega), hL00, hL01]
          exact hvlf
        · intro j hj
          rw [getI_listSwap_other j (by omega) (by omega), getI_set_ne j (by omega) val]
        · intro x hx
          rw [getI_listSwap_left (by simp only [List.length_set]; omega) (by omega), hL00]
          exact hneg _ _ _ hvlf hx
      · next hsw =>
        rw [hL01, hL00] at hsw
        rw [Bool.not_eq_true] at hsw
        refine ⟨by simp, ?_, fun j hj => getI_set_ne j (by omega) val, ?_⟩
        · rw [hL01, hL00]
          exact hsw
        · intro x hx
          rw [hL01]
          exact hx
    unfold replace_min
    dsimp only
    rw [hbnc]
    obtain ⟨Q1, Q2, Q3, Q4⟩ :=
      bubble_down_min_inv hasymm htrans hneg 0 (balance_node less (l.set 0 val) 0) 0
        rfl (by rw [hAlen]; omega) (Nat.le_refl 0)
        (fun i h1 h2 => by
          rw [hAlen] at h1
          by_cases hi1 : i = 1
          · subst hi1
            exact hApair
          · rw [hAo i (by omega), hAo (i - 1) (by omega)]
            exact I1 i h1 h2)
        (fun i h1 h2 h3 hg hguard => by
          rw [hAlen] at h1
          have hpe := ipar_even i
          have hps := ipar_sub2 h3
          have hgp2 : 2 ≤ get_parent i := by
            rcases Nat.eq_zero_or_pos (get_parent i) with h0 | h0
            · exact absurd (hguard h0) (by omega)
            · omega
          rw [hAo i h3, hAo (get_parent i) hgp2]
          exact I2 i h1 h2 h3)
        (fun i h1 h2 h3 hg => by
          rw [hAlen] at h1
          have hi3 := I3 i h1 h2 h3
          have hpe := ipar_even i
          rcases Nat.eq_zero_or_pos (get_parent i) with h0 | h0
          · rw [h0] at hi3 ⊢
            rw [hAo i (by omega)]
            exact hAmax _ hi3
          · have hgp2 : 2 ≤ get_parent i := by omega
            rw [hAo i (by omega), hAo (get_parent i + 1) (by omega)]
            exact hi3)
        (fun i h1 h2 h3 hg => by
          rw [hAlen] at h1
          have hi4 := I4 i h1 h2 h3
          have hpe := ipar_even i
          rcases Nat.eq_zero_or_pos (get_parent i) with h0 | h0
          · rw [h0] at hi4 ⊢
            rw [hAo i (by omega)]
            exact hAmax _ hi4
          · have hgp2 : 2 ≤ get_parent i := by omega
            rw [hAo i (by omega), hAo (get_parent i + 1) (by omega)]
            exact hi4)
        (fun hcc => absurd hcc (by omega))
    exact ⟨Q1, fun i h1 h2 h3 => Q2 i h1 h2 h3 (Nat.zero_le _),
      fun i h1 h2 h3 => Q3 i h1 h2 h3 (Nat.zero_le _),
      fun i h1 h2 h3 => Q4 i h1 h2 h3 (Nat.zero_le _)⟩

/-- `pop_min` preserves the invariant. -/
theorem pop_min_inv
    (hasymm : ∀ a b, less a b = true → less b a = false)
    (htrans : ∀ a b c, less a b = true → less b c = true → less a c = true)
    (hneg : ∀ a b c, less a b = false → less b c = false → less a c = false)
    {l : List T} (hInv : IInv less l) :
    IInv less (pop_min less l) := by
  by_cases hn2 : l.length ≤ 2
  · exact IInv_small (by rw [pop_min_length]; omega)
  · have hn3 : 3 ≤ l.length := by omega
    have hmax := iinv_max hasymm hneg hInv (by omega)
    obtain ⟨I1, I2, I3, I4⟩ := hInv
    unfold pop_min
    dsimp only
    rw [if_neg (by omega)]
    split
    · next hodd =>
      set D := (l.set 0 (l.getI (l.length - 1))).dropLast with hDdef
      have hDlen : D.length = l.length - 1 := by
        rw [hDdef]
        simp only [List.length_dropLast, List.length_set]
      have hD0 : D.getI 0 = l.getI (l.length - 1) := by
        rw [hDdef, getI_dropLast (by simp only [List.length_set]; omega),
          getI_set_self (by omega) (l.getI (l.length - 1))]
      have hDj : ∀ j, 1 ≤ j → j < l.length - 1 → D.getI j = l.getI j := by
        intro j hj1 hj2
        rw [hDdef, getI_dropLast (by simp only [List.length_set]; omega),
          getI_set_ne j (by omega) (l.getI (l.length - 1))]
      have P1 : ∀ i, i < D.length → i % 2 = 1 →
          less (D.getI i) (D.getI (i - 1)) = false := by
        intro i h1 h2
        rw [hDlen] at h1
        by_cases hi1 : i = 1
        · subst hi1
          rw [hDj 1 (by omega) (by omega), show (1 : Nat) - 1 = 0 from rfl, hD0]
          exact hmax (l.length - 1) (by omega)
        · rw [hDj i (by omega) (by omega), hDj (i - 1) (by omega) (by omega)]
          exact I1 i (by omega) h2
      have P2 : ∀ i, i < D.length → i % 2 = 0 → 2 ≤ i → 0 ≤ get_parent i →
          (get_parent i = 0 → i = 0) →
          less (D.getI i) (D.getI (get_parent i)) = false := by
        intro i h1 h2 h3 hg hguard
        rw [hDlen] at h1
        have hpe := ipar_even i
        have hps := ipar_sub2 h3
        have hgp2 : 2 ≤ get_parent i := by
          rcases Nat.eq_zero_or_pos (get_parent i) with h0 | h0
          · exact absurd (hguard h0) (by omega)
          · omega
        rw [hDj i (by omega) (by omega), hDj (get_parent i) (by omega) (by omega)]
        exact I2 i (by omega) h2 h3
      have P3 : ∀ i, i < D.length → i % 2 = 1 → 3 ≤ i → 0 ≤ get_parent i →
          less (D.getI (get_parent i + 1)) (D.getI i) = false := by
        intro i h1 h2 h3 hg
        rw [hDlen] at h1
        have hpe := ipar_even i
        have hps := ipar_sub2 (show 2 ≤ i by omega)
        rw [hDj i (by omega) (by omega), hDj (get_parent i + 1) (by omega) (by omega)]
        exact I3 i (by omega) h2 h3
      have P4 : ∀ i, i + 1 = D.length → i % 2 = 0 → 2 ≤ i → 0 ≤ get_parent i →
          less (D.getI (get_parent i + 1)) (D.getI i) = false := by
        intro i h1 h2 h3 hg
        rw [hDlen] at h1
        exfalso
        omega
      obtain ⟨Q1, Q2, Q3, Q4⟩ :=
        bubble_down_min_inv hasymm htrans hneg 0 D 0 rfl (by omega) (Nat.le_refl 0)
          P1 P2 P3 P4 (fun hcc => absurd hcc (by omega))
      exact ⟨Q1, fun i h1 h2 h3 => Q2 i h1 h2 h3 (Nat.zero_le _),
        fun i h1 h2 h3 => Q3 i h1 h2 h3 (Nat.zero_le _),
        fun i h1 h2 h3 => Q4 i h1 h2 h3 (Nat.zero_le _)⟩
    · next hodd =>
      have hnev : l.length % 2 = 0 := by omega
      have hn4 : 4 ≤ l.length := by omega
      set D := ((l.set 0 (l.getI (l.length - 2))).set (l.length - 2)
        (l.getI (l.length - 1))).dropLast with hDdef
      have hDlen : D.length = l.length - 1 := by
        rw [hDdef]
        simp only [List.length_dropLast, List.length_set]
      have hD0 : D.getI 0 = l.getI (l.length - 2) := by
        rw [hDdef, getI_dropLast (by simp only [List.length_set]; omega),
          getI_set_ne (i := l.length - 2) 0 (by omega) (l.getI (l.length - 1)),
          getI_set_self (by omega) (l.getI (l.length - 2))]
      have hDlast : D.getI (l.length - 2) = l.getI (l.length - 1) := by
        rw [hDdef, getI_dropLast (by simp only [List.length_set]; omega),
          getI_set_self (by simp only [List.length_set]; omega) (l.getI (l.length - 1))]
      have hDj : ∀ j, 1 ≤ j → j < l.length - 2 → D.getI j = l.getI j := by
        intro j hj1 hj2
        rw [hDdef, getI_dropLast (by simp only [List.length_set]; omega),
          getI_set_ne (i := l.length - 2) j (by omega) (l.getI (l.length - 1)),
          getI_set_ne (i := 0) j (by omega) (l.getI (l.length - 2))]
      have P1 : ∀ i, i < D.length → i % 2 = 1 →
          less (D.getI i) (D.getI (i - 1)) = false := by
        intro i h1 h2
        rw [hDlen] at h1
        by_cases hi1 : i = 1
        · subst hi1
          rw [hDj 1 (by omega) (by omega), show (1 : Nat) - 1 = 0 from rfl, hD0]
          exact hmax (l.length - 2) (by omega)
        · have hine : i ≠ l.length - 2 := by omega
          rw [hDj i (by omega) (by omega), hDj (i - 1) (by omega) (by omega)]
          exact I1 i (by omega) h2
      have P2 : ∀ i, i < D.length → i % 2 = 0 → 2 ≤ i → 0 ≤ get_parent i →
          (get_parent i = 0 → i = 0) →
          less (D.getI i) (D.getI (get_parent i)) = false := by
        intro i h1 h2 h3 hg hguard
        rw [hDlen] at h1
        have hpe := ipar_even i
        have hps := ipar_sub2 h3
        have hgp2 : 2 ≤ get_parent i := by
          rcases Nat.eq_zero_or_pos (get_parent i) with h0 | h0
          · exact absurd (hguard h0) (by omega)
          · omega
        by_cases hilast : i = l.length - 2
        · subst hilast
          rw [hDlast, hDj (get_parent (l.length - 2)) (by omega) (by omega)]
          have hI1 : less (l.getI (l.length - 1)) (l.getI (l.length - 2)) = false := by
            have h := I1 (l.length - 1) (by omega) (by omega)
            rwa [show l.length - 1 - 1 = l.length - 2 from by omega] at h
          exact hneg _ _ _ hI1
            (I2 (l.length - 2) (by omega) (by omega) (by omega))
        · rw [hDj i (by omega) (by omega), hDj (get_parent i) (by omega) (by omega)]
          exact I2 i (by omega) h2 h3
      have P3 : ∀ i, i < D.length → i % 2 = 1 → 3 ≤ i → 0 ≤ get_parent i →
          less (D.getI (get_parent i + 1)) (D.getI i) = false := by
        intro i h1 h2 h3 hg
        rw [hDlen] at h1
        have hpe := ipar_even i
        have hps := ipar_sub2 (show 2 ≤ i by omega)
        have hine : i ≠ l.length - 2 := by omega
        rw [hDj i (by omega) (by omega), hDj (get_parent i + 1) (by omega) (by omega)]
        exact I3 i (by omega) h2 h3
      have P4 : ∀ i, i + 1 = D.length → i % 2 = 0 → 2 ≤ i → 0 ≤ get_parent i →
          less (D.getI (get_parent i + 1)) (D.getI i) = false := by
        intro i h1 h2 h3 hg
        rw [hDlen] at h1
        have hieq : i = l.length - 2 := by omega
        subst hieq
        have hps := ipar_sub2 h3
        have hpe := ipar_even (l.length - 2)
        rw [hDlast]
        rcases Nat.eq_zero_or_pos (get_parent (l.length - 2)) with h0 | h0
        · rw [show get_parent (l.length - 2) + 1 = 1 from by omega,
            hDj 1 (by omega) (by omega)]
          exact hmax (l.length - 1) (by omega)
        · rw [hDj (get_parent (l.length - 2) + 1) (by omega) (by omega)]
          have hI3 := I3 (l.length - 1) (by omega) (by omega) (by omega)
          have hgpq : get_parent (l.length - 1) = get_parent (l.length - 2) := by
            have hpp := ipar_pair (show (l.length - 1) % 2 = 1 by omega)
            rwa [show l.length - 1 - 1 = l.length - 2 from by omega] at hpp
          rw [hgpq] at hI3
          exact hI3
      obtain ⟨Q1, Q2, Q3, Q4⟩ :=
        bubble_down_min_inv hasymm htrans hneg 0 D 0 rfl (by omega) (Nat.le_refl 0)
          P1 P2 P3 P4 (fun hcc => absurd hcc (by omega))
      exact ⟨Q1, fun i h1 h2 h3 => Q2 i h1 h2 h3 (Nat.zero_le _),
        fun i h1 h2 h3 => Q3 i h1 h2 h3 (Nat.zero_le _),
        fun i h1 h2 h3 => Q4 i h1 h2 h3 (Nat.zero_le _)⟩

/-- `pop_max` preserves the invariant. -/
theorem pop_max_inv
    (hasymm : ∀ a b, less a b = true → less b a = false)
    (htrans : ∀ a b c, less a b = true → less b c = true → less a c = true)
    (hneg : ∀ a b c, less a b = false → less b c = false → less a c = false)
    {l : List T} (hInv : IInv less l) :
    IInv less (pop_max less l) := by
  by_cases hn2 : l.length ≤ 2
  · exact IInv_small (by rw [pop_max_length]; omega)
  · have hn3 : 3 ≤ l.length := by omega
    have hminr := iinv_min hasymm hneg hInv
    obtain ⟨I1, I2, I3, I4⟩ := hInv
    unfold pop_max
    dsimp only
    rw [if_neg (by omega), if_pos (by omega)]
    have hbd : bubble_down_max less ((l.set 1 (l.getI (l.length - 1))).dropLast) 1
        = bubbleDownMaxGo less ((l.set 1 (l.getI (l.length - 1))).dropLast) 0 := rfl
    rw [hbd]
    set B := (l.set 1 (l.getI (l.length - 1))).dropLast with hBdef
    have hBlen : B.length = l.length - 1 := by
      rw [hBdef]
      simp only [List.length_dropLast, List.length_set]
    have hB1 : B.getI 1 = l.getI (l.length - 1) := by
      rw [hBdef, getI_dropLast (by simp only [List.length_set]; omega),
        getI_set_self (by omega) (l.getI (l.length - 1))]
    have hBj : ∀ j, j ≠ 1 → j < l.length - 1 → B.getI j = l.getI j := by
      intro j hj1 hj2
      rw [hBdef, getI_dropLast (by simp only [List.length_set]; omega),
        getI_set_ne j (by omega) (l.getI (l.length - 1))]
    have D1 : ∀ i, i < B.length → i % 2 = 1 →
        less (B.getI i) (B.getI (i - 1)) = false := by
      intro i h1 h2
      rw [hBlen] at h1
      by_cases hi1 : i = 1
      · subst hi1
        rw [hB1, show (1 : Nat) - 1 = 0 from rfl, hBj 0 (by omega) (by omega)]
        exact hminr (l.length - 1) (by omega)
      · rw [hBj i (by omega) (by omega), hBj (i - 1) (by omega) (by omega)]
        exact I1 i (by omega) h2
    have D2 : ∀ i, i < B.length → i % 2 = 0 → 2 ≤ i → 2 ≤ get_parent i →
        less (B.getI i) (B.getI (get_parent i)) = false := by
      intro i h1 h2 h3 hg
      rw [hBlen] at h1
      have hps := ipar_sub2 h3
      rw [hBj i (by omega) (by omega), hBj (get_parent i) (by omega) (by omega)]
      exact I2 i (by omega) h2 h3
    have D3 : ∀ i, i < B.length → i % 2 = 1 → 3 ≤ i → 0 ≤ get_parent i →
        get_parent i ≠ 0 →
        less (B.getI (get_parent i + 1)) (B.getI i) = false := by
      intro i h1 h2 h3 hg hne
      rw [hBlen] at h1
      have hpe := ipar_even i
      have hps := ipar_sub2 (show 2 ≤ i by omega)
      rw [hBj i (by omega) (by omega), hBj (get_parent i + 1) (by omega) (by omega)]
      exact I3 i (by omega) h2 h3
    have D4 : ∀ i, i + 1 = B.length → i % 2 = 0 → 2 ≤ i → 0 ≤ get_parent i →
        get_parent i ≠ 0 →
        less (B.getI (get_parent i + 1)) (B.getI i) = false := by
      intro i h1 h2 h3 hg hne
      rw [hBlen] at h1
      have hieq : i = l.length - 2 := by omega
      subst hieq
      have hpe := ipar_even (l.length - 2)
      have hps := ipar_sub2 h3
      rw [hBj (l.length - 2) (by omega) (by omega),
        hBj (get_parent (l.length - 2) + 1) (by omega) (by omega)]
      have hI1 : less (l.getI (l.length - 1)) (l.getI (l.length - 2)) = false := by
        have h := I1 (l.length - 1) (by omega) (by omega)
        rwa [show l.length - 1 - 1 = l.length - 2 from by omega] at h
      have hI3 := I3 (l.length - 1) (by omega) (by omega) (by omega)
      have hgpq : get_parent (l.length - 1) = get_parent (l.length - 2) := by
        have hpp := ipar_pair (show (l.length - 1) % 2 = 1 by omega)
        rwa [show l.length - 1 - 1 = l.length - 2 from by omega] at hpp
      rw [hgpq] at hI3
      exact hneg _ _ _ hI3 hI1
    obtain ⟨A1, A2, A3, A4, A5, A6⟩ :=
      bubbleDownMaxGo_inv hasymm htrans hneg 0 B 0 rfl (by omega) (Nat.le_refl 0)
        D1 D2 D3 D4 (fun hcc => absurd hcc (by omega))
    have hR0 : (bubbleDownMaxGo less B 0).getI 0 = B.getI 0 := A5 0 (Nat.le_refl 0)
    have hB0 : B.getI 0 = l.getI 0 := hBj 0 (by omega) (by omega)
    have hCmin : ∀ j, j < (bubbleDownMaxGo less B 0).length → j % 2 = 0 →
        less ((bubbleDownMaxGo less B 0).getI j) (l.getI 0) = false := by
      apply A6
      · intro h01
        show less (B.getI 1) (l.getI 0) = false
        rw [hB1]
        exact hminr (l.length - 1) (by omega)
      · intro j hj hje
        rw [hBlen] at hj
        rw [hBj j (by omega) (by omega)]
        exact hminr j (by omega)
    refine ⟨A1, ?_, fun i h1 h2 h3 => A3 i h1 h2 h3 (Nat.zero_le _),
      fun i h1 h2 h3 => A4 i h1 h2 h3 (Nat.zero_le _)⟩
    intro i h1 h2 h3
    have hpe := ipar_even i
    rcases Nat.eq_zero_or_pos (get_parent i) with h0 | h0
    · rw [h0, hR0, hB0]
      exact hCmin i h1 h2
    · exact A2 i h1 h2 h3 (by omega)

/-- `replace_max` preserves the invariant. -/
theorem replace_max_inv
    (hasymm : ∀ a b, less a b = true → less b a = false)
    (htrans : ∀ a b c, less a b = true → less b c = true → less a c = true)
    (hneg : ∀ a b c, less a b = false → less b c = false → less a c = false)
    {l : List T} (hInv : IInv less l) (val : T) :
    IInv less (replace_max less l val) := by
  by_cases hn1 : l.length ≤ 1
  · exact IInv_small (by rw [replace_max_length]; omega)
  · have hminr := iinv_min hasymm hneg hInv
    obtain ⟨I1, I2, I3, I4⟩ := hInv
    have hn2 : 2 ≤ l.length := by omega
    unfold replace_max
    rw [if_neg (by omega)]
    have hbd : bubble_down_max less (balance_node less (l.set 1 val) 0) 1
        = bubbleDownMaxGo less (balance_node less (l.set 1 val) 0) 0 := rfl
    rw [hbd]
    have hL11 : (l.set 1 val).getI 1 = val := getI_set_self (by omega) val
    have hL10 : (l.set 1 val).getI 0 = l.getI 0 := getI_set_ne 0 (by omega) val
    obtain ⟨hAlen, hApair, hAo, hAmin⟩ :
        (balance_node less (l.set 1 val) 0).length = l.length
        ∧ less ((balance_node less (l.set 1 val) 0).getI 1)
            ((balance_node less (l.set 1 val) 0).getI 0) = false
        ∧ (∀ j, 2 ≤ j → (balance_node less (l.set 1 val) 0).getI j = l.getI j)
        ∧ (∀ j, j < l.length → 2 ≤ j →
            less (l.getI j) ((balance_node less (l.set 1 val) 0).getI 0) = false) := by
      unfold balance_node
      simp only [Nat.zero_add]
      split
      · next hsw =>
        rw [hL11, hL10] at hsw
        refine ⟨by simp, ?_, ?_, ?_⟩
        · rw [getI_listSwap_left (by simp only [List.length_set]; omega) (by omega),
            getI_listSwap_right (by simp only [List.length_set]; omega), hL11, hL10]
          exact hasymm _ _ hsw
        · intro j hj
          rw [getI_listSwap_other j (by omega) (by omega), getI_set_ne j (by omega) val]
        · intro j hjl hj2
          rw [getI_listSwap_right (by simp only [List.length_set]; omega), hL11]
          exact hneg _ _ _ (hminr j hjl) (hasymm _ _ hsw)
      · next hsw =>
        rw [hL11, hL10] at hsw
        rw [Bool.not_eq_true] at hsw
        refine ⟨by simp, ?_, fun j hj => getI_set_ne j (by omega) val, ?_⟩
        · rw [hL11, hL10]
          exact hsw
        · intro j hjl hj2
          rw [hL10]
          exact hminr j hjl
    have D1 : ∀ i, i < (balance_node less (l.set 1 val) 0).length → i % 2 = 1 →
        less ((balance_node less (l.set 1 val) 0).getI i)
          ((balance_node less (l.set 1 val) 0).getI (i - 1)) = false := by
      intro i h1 h2
      rw [hAlen] at h1
      by_cases hi1 : i = 1
      · subst hi1
        exact hApair
      · rw [hAo i (by omega), hAo (i - 1) (by omega)]
        exact I1 i h1 h2
    have D2 : ∀ i, i < (balance_node less (l.set 1 val) 0).length → i % 2 = 0 →
        2 ≤ i → 2 ≤ get_parent i →
        less ((balance_node less (l.set 1 val) 0).getI i)
          ((balance_node less (l.set 1 val) 0).getI (get_parent i)) = false := by
      intro i h1 h2 h3 hg
      rw [hAlen] at h1
      rw [hAo i h3, hAo (get_parent i) hg]
      exact I2 i h1 h2 h3
    have D3 : ∀ i, i < (balance_node less (l.set 1 val) 0).length → i % 2 = 1 →
        3 ≤ i → 0 ≤ get_parent i → get_parent i ≠ 0 →
        less ((balance_node less (l.set 1 val) 0).getI (get_parent i + 1))
          ((balance_node less (l.set 1 val) 0).getI i) = false := by
      intro i h1 h2 h3 hg hne
      rw [hAlen] at h1
      have hpe := ipar_even i
      rw [hAo i (by omega), hAo (get_parent i + 1) (by omega)]
      exact I3 i h1 h2 h3
    have D4 : ∀ i, i + 1 = (balance_node less (l.set 1 val) 0).length → i % 2 = 0 →
        2 ≤ i → 0 ≤ get_parent i → get_parent i ≠ 0 →
        less ((balance_node less (l.set 1 val) 0).getI (get_parent i + 1))
          ((balance_node less (l.set 1 val) 0).getI i) = false := by
      intro i h1 h2 h3 hg hne
      rw [hAlen] at h1
      have hpe := ipar_even i
      rw [hAo i h3, hAo (get_parent i + 1) (by omega)]
      exact I4 i h1 h2 h3
    obtain ⟨A1, A2, A3, A4, A5, A6⟩ :=
      bubbleDownMaxGo_inv hasymm htrans hneg 0 (balance_node less (l.set 1 val) 0) 0
        rfl (by rw [hAlen]; omega) (Nat.le_refl 0)
        D1 D2 D3 D4 (fun hcc => absurd hcc (by omega))
    have hR0 : (bubbleDownMaxGo less (balance_node less (l.set 1 val) 0) 0).getI 0
        = (balance_node less (l.set 1 val) 0).getI 0 := A5 0 (Nat.le_refl 0)
    have hCmin : ∀ j,
        j < (bubbleDownMaxGo less (balance_node less (l.set 1 val) 0) 0).length →
        j % 2 = 0 →
        less ((bubbleDownMaxGo less (balance_node less (l.set 1 val) 0) 0).getI j)
          ((balance_node less (l.set 1 val) 0).getI 0) = false := by
      apply A6
      · intro h01
        exact hApair
      · intro j hj hje
        rw [hAlen] at hj
        rcases Nat.eq_zero_or_pos j with hj0 | hj0
        · subst hj0
          exact iless_irrefl hasymm _
        · rw [hAo j (by omega)]
          exact hAmin j hj (by omega)
    refine ⟨A1, ?_, fun i h1 h2 h3 => A3 i h1 h2 h3 (Nat.zero_le _),
      fun i h1 h2 h3 => A4 i h1 h2 h3 (Nat.zero_le _)⟩
    intro i h1 h2 h3
    have hpe := ipar_even i
    rcases Nat.eq_zero_or_pos (get_parent i) with h0 | h0
    · rw [h0, hR0]
      exact hCmin i h1 h2
    · exact A2 i h1 h2 h3 (by omega)

/-- Invariant of the `heapify` bubble-down loop: every loop state with `k`
iterations left has all pairs ordered and satisfies the invariant on every
edge into a node at index `2 * k` or deeper. -/
theorem heapifyLoop_inv
    (hasymm : ∀ a b, less a b = true → less b a = false)
    (htrans : ∀ a b c, less a b = true → less b c = true → less a c = true)
    (hneg : ∀ a b c, less a b = false → less b c = false → less a c = false)
    {l₀ m : List T} {k : Nat} (h : HeapifyLoop less l₀ m k) :
    2 * k < m.length + 2
    ∧ (∀ i, i < m.length → i % 2 = 1 → less (m.getI i) (m.getI (i - 1)) = false)
    ∧ (∀ i, i < m.length → i % 2 = 0 → 2 ≤ i → 2 * k ≤ get_parent i →
        less (m.getI i) (m.getI (get_parent i)) = false)
    ∧ (∀ i, i < m.length → i % 2 = 1 → 3 ≤ i → 2 * k ≤ get_parent i →
        less (m.getI (get_parent i + 1)) (m.getI i) = false)
    ∧ (∀ i, i + 1 = m.length → i % 2 = 0 → 2 ≤ i → 2 * k ≤ get_parent i →
        less (m.getI (get_parent i + 1)) (m.getI i) = false) := by
  induction h with
  | entry h3 =>
    refine ⟨?_, ?_, ?_, ?_, ?_⟩
    · rw [balanceAll_length]
      omega
    · exact balanceAll_pairs hasymm l₀ 0 rfl (fun j h1 h2 h3 => absurd h3 (by omega))
    · intro i h1 h2 h3 hg
      exfalso
      have hpi := ipar_eq i
      rw [balanceAll_length] at h1
      omega
    · intro i h1 h2 h3 hg
      exfalso
      have hpi := ipar_eq i
      rw [balanceAll_length] at h1
      omega
    · intro i h1 h2 h3 hg
      exfalso
      have hpi := ipar_eq i
      rw [balanceAll_length] at h1
      omega
  | step hprev ih =>
    obtain ⟨hk, P1, P2, P3, P4⟩ := ih
    obtain ⟨hA1, B1, B2, B3, B4⟩ := iheapify_step_inv hasymm htrans hneg hk P1 P2 P3 P4
    refine ⟨?_, B1, B2, B3, B4⟩
    rw [bubble_down_min_length, bubble_down_max_length]
    omega

theorem balanceAll_multiset :
    ∀ (l : List T) (i : Nat),
    ((balanceAll less l i : List T) : Multiset T) = (l : Multiset T) := by
  intro l i
  induction l, i using balanceAll.induct less with
  | case1 l i h ih =>
    rw [balanceAll.eq_def, if_pos h, ih, balance_node_multiset _ _ (by omega)]
  | case2 l i h =>
    rw [balanceAll.eq_def, if_neg h]

theorem heapifyGo_multiset :
    ∀ (k : Nat) (l : List T),
    ((heapifyGo less l k : List T) : Multiset T) = (l : Multiset T) := by
  intro k
  induction k with
  | zero => intro l; rfl
  | succ k ih =>
    intro l
    rw [heapifyGo, ih, bubble_down_min_multiset]
    unfold bubble_down_max
    rw [bubbleDownMaxGo_multiset]

/-- `heapify` is content-preserving. -/
theorem iheapify_multiset (l : List T) :
    ((heapify less l : List T) : Multiset T) = (l : Multiset T) := by
  unfold heapify
  split
  · split
    · next hcond => exact multiset_listSwap (by omega) (by omega)
    · rfl
  · rw [heapifyGo_multiset, balanceAll_multiset]

/-- Every reachable interval-heap state satisfies the invariant. -/
theorem ireachable_inv
    (hasymm : ∀ a b, less a b = true → less b a = false)
    (htrans : ∀ a b c, less a b = true → less b c = true → less a c = true)
    (hneg : ∀ a b c, less a b = false → less b c = false → less a c = false)
    {l : List T} (hr : Reachable less l) : IInv less l := by
  induction hr with
  | empty => exact IInv_small (by simp)
  | heapify l₀ => exact iheapify_inv hasymm htrans hneg l₀
  | push l v _ ih => exact ipush_inv hasymm htrans hneg ih v
  | popMin l _ hne ih => exact pop_min_inv hasymm htrans hneg ih
  | popMax l _ hne ih => exact pop_max_inv hasymm htrans hneg ih
  | replaceMin l v _ hne ih => exact replace_min_inv hasymm htrans hneg ih v
  | replaceMax l v _ hne ih => exact replace_max_inv hasymm htrans hneg ih v

/-- In a valid interval heap, the root min slot is a member and a minimal
element of the content. -/
theorem iinv_top_min
    (hasymm : ∀ a b, less a b = true → less b a = false)
    (hneg : ∀ a b c, less a b = false → less b c = false → less a c = false)
    {l : List T} (hInv : IInv less l) (hl : l ≠ []) :
    l.getI 0 ∈ l ∧ ∀ x ∈ l, less x (l.getI 0) = false := by
  have hpos : 0 < l.length := List.length_pos.mpr hl
  constructor
  · rw [List.getI_eq_getElem _ hpos]
    exact List.getElem_mem _
  · intro x hx
    obtain ⟨i, hi, rfl⟩ := List.mem_iff_getElem.mp hx
    rw [← List.getI_eq_getElem _ hi]
    exact iinv_min hasymm hneg hInv i hi

theorem maxVal_mem {l : List T} (hl : l ≠ []) : maxVal l ∈ l := by
  have hpos : 0 < l.length := List.length_pos.mpr hl
  unfold maxVal
  split
  · next h1 =>
    rw [List.getI_eq_getElem _ h1]
    exact List.getElem_mem _
  · rw [List.getI_eq_getElem _ hpos]
    exact List.getElem_mem _

/-- In a valid interval heap, the reported max is a member and a maximal
element of the content. -/
theorem iinv_top_max
    (hasymm : ∀ a b, less a b = true → less b a = false)
    (hneg : ∀ a b c, less a b = false → less b c = false → less a c = false)
    {l : List T} (hInv : IInv less l) (hl : l ≠ []) :
    maxVal l ∈ l ∧ ∀ x ∈ l, less (maxVal l) x = false := by
  have hpos : 0 < l.length := List.length_pos.mpr hl
  refine ⟨maxVal_mem hl, ?_⟩
  intro x hx
  obtain ⟨i, hi, rfl⟩ := List.mem_iff_getElem.mp hx
  rw [← List.getI_eq_getElem _ hi]
  by_cases h1 : 1 < l.length
  · have hmv : maxVal l = l.getI 1 := by
      unfold maxVal
      rw [if_pos h1]
    rw [hmv]
    exact iinv_max hasymm hneg hInv (by omega) i hi
  · have hmv : maxVal l = l.getI 0 := by
      unfold maxVal
      rw [if_neg h1]
    have hi0 : i = 0 := by omega
    subst hi0
    rw [hmv]
    exact iless_irrefl hasymm _

/-- The min pop sequence enumerates the content (with enough fuel). -/
theorem popSeqMin_multiset :
    ∀ (fuel : Nat) (l : List T), l.length ≤ fuel →
      ((popSeqMin less fuel l : List T) : Multiset T) = (l : Multiset T) := by
  intro fuel
  induction fuel with
  | zero =>
    intro l hfuel
    have hnil : l = [] := by
      cases l with
      | nil => rfl
      | cons a t => simp at hfuel
    subst hnil
    rfl
  | succ fuel ih =>
    intro l hfuel
    cases l with
    | nil => rfl
    | cons a t =>
      show (((a :: t).getI 0 :: popSeqMin less fuel (pop_min less (a :: t)) : List T)
        : Multiset T) = _
      rw [← Multiset.cons_coe, ih _ (by rw [pop_min_length]; simp at hfuel ⊢; omega)]
      rw [← Multiset.singleton_add, add_comm]
      exact pop_min_multiset (a :: t) (by simp)

/-- Every element read by the min pop sequence is an element of the heap. -/
theorem popSeqMin_subset :
    ∀ (fuel : Nat) (l : List T) (x : T), x ∈ popSeqMin less fuel l → x ∈ l := by
  intro fuel
  induction fuel with
  | zero => intro l x hx; simp [popSeqMin] at hx
  | succ fuel ih =>
    intro l x hx
    cases l with
    | nil => simp [popSeqMin] at hx
    | cons a t =>
      have hor : x = (a :: t).getI 0
          ∨ x ∈ popSeqMin less fuel (pop_min less (a :: t)) := by
        simpa [popSeqMin] using hx
      rcases hor with h | h
      · rw [h, List.getI_eq_getElem _ (by simp : (0 : Nat) < (a :: t).length)]
        exact List.getElem_mem _
      · have hxp : x ∈ pop_min less (a :: t) := ih _ x h
        have hm := @pop_min_multiset T _ less (a :: t) (by simp)
        have hmem : x ∈ ((pop_min less (a :: t) : List T) : Multiset T)
            + {(a :: t).getI 0} := by
          rw [Multiset.mem_add]
          exact Or.inl (by simpa using hxp)
        rw [hm] at hmem
        simpa using hmem

/-- The min pop sequence of a valid interval heap is non-decreasing. -/
theorem popSeqMin_sorted
    (hasymm : ∀ a b, less a b = true → less b a = false)
    (htrans : ∀ a b c, less a b = true → less b c = true → less a c = true)
    (hneg : ∀ a b c, less a b = false → less b c = false → less a c = false) :
    ∀ (fuel : Nat) (l : List T), IInv less l →
      List.Sorted (fun a b => less b a = false) (popSeqMin less fuel l) := by
  intro fuel
  induction fuel with
  | zero => intro l _; simp [popSeqMin]
  | succ fuel ih =>
    intro l hInv
    cases l with
    | nil => simp [popSeqMin]
    | cons a t =>
      show List.Sorted _ ((a :: t).getI 0 :: popSeqMin less fuel (pop_min less (a :: t)))
      rw [List.sorted_cons]
      constructor
      · intro b hb
        have hbp : b ∈ pop_min less (a :: t) := popSeqMin_subset _ _ b hb
        have hm := @pop_min_multiset T _ less (a :: t) (by simp)
        have hmem : b ∈ ((pop_min less (a :: t) : List T) : Multiset T)
            + {(a :: t).getI 0} := by
          rw [Multiset.mem_add]
          exact Or.inl (by simpa using hbp)
        rw [hm] at hmem
        have hbl : b ∈ (a :: t) := by simpa using hmem
        exact (iinv_top_min hasymm hneg hInv (by simp)).2 b hbl
      · exact ih _ (pop_min_inv hasymm htrans hneg hInv)

/-- The max pop sequence enumerates the content (with enough fuel). -/
theorem popSeqMax_multiset :
    ∀ (fuel : Nat) (l : List T), l.length ≤ fuel →
      ((popSeqMax less fuel l : List T) : Multiset T) = (l : Multiset T) := by
  intro fuel
  induction fuel with
  | zero =>
    intro l hfuel
    have hnil : l = [] := by
      cases l with
      | nil => rfl
      | cons a t => simp at hfuel
    subst hnil
    rfl
  | succ fuel ih =>
    intro l hfuel
    cases l with
    | nil => rfl
    | cons a t =>
      show ((maxVal (a :: t) :: popSeqMax less fuel (pop_max less (a :: t)) : List T)
        : Multiset T) = _
      rw [← Multiset.cons_coe, ih _ (by rw [pop_max_length]; simp at hfuel ⊢; omega)]
      rw [← Multiset.singleton_add, add_comm]
      exact pop_max_multiset (a :: t) (by simp)

/-- Every element read by the max pop sequence is an element of the heap. -/
theorem popSeqMax_subset :
    ∀ (fuel : Nat) (l : List T) (x : T), x ∈ popSeqMax less fuel l → x ∈ l := by
  intro fuel
  induction fuel with
  | zero => intro l x hx; simp [popSeqMax] at hx
  | succ fuel ih =>
    intro l x hx
    cases l with
    | nil => simp [popSeqMax] at hx
    | cons a t =>
      have hor : x = maxVal (a :: t)
          ∨ x ∈ popSeqMax less fuel (pop_max less (a :: t)) := by
        simpa [popSeqMax] using hx
      rcases hor with h | h
      · rw [h]
        exact maxVal_mem (by simp)
      · have hxp : x ∈ pop_max less (a :: t) := ih _ x h
        have hm := @pop_max_multiset T _ less (a :: t) (by simp)
        have hmem : x ∈ ((pop_max less (a :: t) : List T) : Multiset T)
            + {maxVal (a :: t)} := by
          rw [Multiset.mem_add]
          exact Or.inl (by simpa using hxp)
        rw [hm] at hmem
        simpa using hmem

/-- The max pop sequence of a valid interval heap is non-increasing. -/
theorem popSeqMax_sorted
    (hasymm : ∀ a b, less a b = true → less b a = false)
    (htrans : ∀ a b c, less a b = true → less b c = true → less a c = true)
    (hneg : ∀ a b c, less a b = false → less b c = false → less a c = false) :
    ∀ (fuel : Nat) (l : List T), IInv less l →
      List.Sorted (fun a b => less a b = false) (popSeqMax less fuel l) := by
  intro fuel
  induction fuel with
  | zero => intro l _; simp [popSeqMax]
  | succ fuel ih =>
    intro l hInv
    cases l with
    | nil => simp [popSeqMax]
    | cons a t =>
      show List.Sorted _ (maxVal (a :: t) :: popSeqMax less fuel (pop_max less (a :: t)))
      rw [List.sorted_cons]
      constructor
      · intro b hb
        have hbp : b ∈ pop_max less (a :: t) := popSeqMax_subset _ _ b hb
        have hm := @pop_max_multiset T _ less (a :: t) (by simp)
        have hmem : b ∈ ((pop_max less (a :: t) : List T) : Multiset T)
            + {maxVal (a :: t)} := by
          rw [Multiset.mem_add]
          exact Or.inl (by simpa using hbp)
        rw [hm] at hmem
        have hbl : b ∈ (a :: t) := by simpa using hmem
        exact (iinv_top_max hasymm hneg hInv (by simp)).2 b hbl
      · exact ih _ (pop_max_inv hasymm htrans hneg hInv)

/-- Two valid interval heaps with the same content produce the same min pop
sequence, when incomparable elements are equal. -/
theorem popSeqMin_congr
    (hasymm : ∀ a b, less a b = true → less b a = false)
    (htrans : ∀ a b c, less a b = true → less b c = true → less a c = true)
    (hneg : ∀ a b c, less a b = false → less b c = false → less a c = false)
    (hanti : ∀ a b : T, less a b = false → less b a = false → a = b) :
    ∀ (fuel : Nat) (l₁ l₂ : List T), IInv less l₁ → IInv less l₂ →
      (l₁ : Multiset T) = (l₂ : Multiset T) →
      popSeqMin less fuel l₁ = popSeqMin less fuel l₂ := by
  intro fuel
  induction fuel with
  | zero => intro l₁ l₂ _ _ _; rfl
  | succ fuel ih =>
    intro l₁ l₂ h1 h2 hm
    have hlen : l₁.length = l₂.length := by
      have := congrArg Multiset.card hm
      simpa using this
    cases hl1 : l₁ with
    | nil =>
      cases hl2 : l₂ with
      | nil => rfl
      | cons b t₂ => rw [hl1, hl2] at hlen; simp at hlen
    | cons a t₁ =>
      cases hl2 : l₂ with
      | nil => rw [hl1, hl2] at hlen; simp at hlen
      | cons b t₂ =>
        subst hl1; subst hl2
        have hne1 : (a :: t₁ : List T) ≠ [] := by simp
        have hne2 : (b :: t₂ : List T) ≠ [] := by simp
        have hmin1 := iinv_top_min hasymm hneg h1 hne1
        have hmin2 := iinv_top_min hasymm hneg h2 hne2
        have hm12 : (a :: t₁).getI 0 ∈ (b :: t₂) := by
          have : (a :: t₁).getI 0 ∈ ((a :: t₁ : List T) : Multiset T) := by
            simpa using hmin1.1
          rw [hm] at this
          simpa using this
        have hm21 : (b :: t₂).getI 0 ∈ (a :: t₁) := by
          have : (b :: t₂).getI 0 ∈ ((b :: t₂ : List T) : Multiset T) := by
            simpa using hmin2.1
          rw [← hm] at this
          simpa using this
        have hhead : (a :: t₁).getI 0 = (b :: t₂).getI 0 :=
          hanti _ _ (hmin2.2 _ hm12) (hmin1.2 _ hm21)
        show (a :: t₁).getI 0 :: popSeqMin less fuel (pop_min less (a :: t₁))
          = (b :: t₂).getI 0 :: popSeqMin less fuel (pop_min less (b :: t₂))
        rw [hhead]
        congr 1
        apply ih _ _ (pop_min_inv hasymm htrans hneg h1)
          (pop_min_inv hasymm htrans hneg h2)
        apply add_right_cancel (b := ({(b :: t₂).getI 0} : Multiset T))
        rw [pop_min_multiset _ hne2, ← hhead, pop_min_multiset _ hne1, hm]

/-- Two valid interval heaps with the same content produce the same max pop
sequence, when incomparable elements are equal. -/
theorem popSeqMax_congr
    (hasymm : ∀ a b, less a b = true → less b a = false)
    (htrans : ∀ a b c, less a b = true → less b c = true → less a c = true)
    (hneg : ∀ a b c, less a b = false → less b c = false → less a c = false)
    (hanti : ∀ a b : T, less a b = false → less b a = false → a = b) :
    ∀ (fuel : Nat) (l₁ l₂ : List T), IInv less l₁ → IInv less l₂ →
      (l₁ : Multiset T) = (l₂ : Multiset T) →
      popSeqMax less fuel l₁ = popSeqMax less fuel l₂ := by
  intro fuel
  induction fuel with
  | zero => intro l₁ l₂ _ _ _; rfl
  | succ fuel ih =>
    intro l₁ l₂ h1 h2 hm
    have hlen : l₁.length = l₂.length := by
      have := congrArg Multiset.card hm
      simpa using this
    cases hl1 : l₁ with
    | nil =>
      cases hl2 : l₂ with
      | nil => rfl
      | cons b t₂ => rw [hl1, hl2] at hlen; simp at hlen
    | cons a t₁ =>
      cases hl2 : l₂ with
      | nil => rw [hl1, hl2] at hlen; simp at hlen
      | cons b t₂ =>
        subst hl1; subst hl2
        have hne1 : (a :: t₁ : List T) ≠ [] := by simp
        have hne2 : (b :: t₂ : List T) ≠ [] := by simp
        have hmax1 := iinv_top_max hasymm hneg h1 hne1
        have hmax2 := iinv_top_max hasymm hneg h2 hne2
        have hm12 : maxVal (a :: t₁) ∈ (b :: t₂) := by
          have : maxVal (a :: t₁) ∈ ((a :: t₁ : List T) : Multiset T) := by
            simpa using hmax1.1
          rw [hm] at this
          simpa using this
        have hm21 : maxVal (b :: t₂) ∈ (a :: t₁) := by
          have : maxVal (b :: t₂) ∈ ((b :: t₂ : List T) : Multiset T) := by
            simpa using hmax2.1
          rw [← hm] at this
          simpa using this
        have hhead : maxVal (a :: t₁) = maxVal (b :: t₂) :=
          hanti _ _ (hmax1.2 _ hm21) (hmax2.2 _ hm12)
        show maxVal (a :: t₁) :: popSeqMax less fuel (pop_max less (a :: t₁))
          = maxVal (b :: t₂) :: popSeqMax less fuel (pop_max less (b :: t₂))
        rw [hhead]
        congr 1
        apply ih _ _ (pop_max_inv hasymm htrans hneg h1)
          (pop_max_inv hasymm htrans hneg h2)
        apply add_right_cancel (b := ({maxVal (b :: t₂)} : Multiset T))
        rw [pop_max_multiset _ hne2, ← hhead, pop_max_multiset _ hne1, hm]

/-- **C8**: after the step-1 local reconcile of a pushed element against its
own node, the min-chain ascent condition (`cur` below the parent min) and
the max-chain ascent condition (parent max below `cur`) of `bubble_up`
cannot both hold. -/
theorem push_ascent_exclusive
    (hasymm : ∀ a b, less a b = true → less b a = false)
    (htrans : ∀ a b c, less a b = true → less b c = true → less a c = true)
    {l : List T} (hInv : IInv less l) (v : T) :
    ¬((1 < (reconcileStep less (l ++ [v]) l.length v).2
        ∧ less v ((reconcileStep less (l ++ [v]) l.length v).1.getI
            (get_parent (reconcileStep less (l ++ [v]) l.length v).2)) = true)
      ∧ (1 < (reconcileStep less (l ++ [v]) l.length v).2
        ∧ less ((reconcileStep less (l ++ [v]) l.length v).1.getI
            (get_parent (reconcileStep less (l ++ [v]) l.length v).2 + 1)) v = true)) := by
  rintro ⟨⟨hg, hmin⟩, -, hmax⟩
  by_cases hc : is_max l.length = true ∧ less v ((l ++ [v]).getI (l.length - 1)) = true
  · have hrs : reconcileStep less (l ++ [v]) l.length v
        = ((l ++ [v]).set l.length ((l ++ [v]).getI (l.length - 1)), l.length - 1) := by
      unfold reconcileStep
      rw [if_pos hc]
    rw [hrs] at hg hmin hmax
    dsimp only at hg hmin hmax
    have h2 : 2 ≤ l.length - 1 := by omega
    have hps := ipar_sub2 h2
    have hfr : ∀ j, j < l.length →
        ((l ++ [v]).set l.length ((l ++ [v]).getI (l.length - 1))).getI j
          = l.getI j := by
      intro j hj
      rw [getI_set_ne j (by omega) ((l ++ [v]).getI (l.length - 1)), getI_append_left hj]
    rw [hfr (get_parent (l.length - 1)) (by omega)] at hmin
    rw [hfr (get_parent (l.length - 1) + 1) (by omega)] at hmax
    have hpe := ipar_even (l.length - 1)
    have h1 := hInv.1 (get_parent (l.length - 1) + 1) (by omega) (by omega)
    rw [Nat.add_sub_cancel] at h1
    have hcon := htrans _ _ _ hmax hmin
    rw [h1] at hcon
    simp at hcon
  · have hrs : reconcileStep less (l ++ [v]) l.length v = (l ++ [v], l.length) := by
      unfold reconcileStep
      rw [if_neg hc]
    rw [hrs] at hg hmin hmax
    dsimp only at hg hmin hmax
    have h2 : 2 ≤ l.length := by omega
    have hps := ipar_sub2 h2
    rw [getI_append_left (by omega)] at hmin
    rw [getI_append_left (by omega)] at hmax
    have hpe := ipar_even l.length
    have h1 := hInv.1 (get_parent l.length + 1) (by omega) (by omega)
    rw [Nat.add_sub_cancel] at h1
    have hcon := htrans _ _ _ hmax hmin
    rw [h1] at hcon
    simp at hcon

/-- **C10**: every internal `bubble_down_min`/`bubble_down_max` call site
already satisfies the helpers' node-interval precondition: the `pop_min`
replacement moved to slot 0 is not above the slot-1 max, the `pop_max`
replacement moved to slot 1 is not below the slot-0 min, `replace_min` and
`replace_max` call only after an explicit `balance_node`, and in `heapify`
the node-balancing loop orders every pair before the first descent while at
every later loop state the node a descent starts at is still ordered. -/
theorem bubble_down_preconditions
    (hasymm : ∀ a b, less a b = true → less b a = false)
    (htrans : ∀ a b c, less a b = true → less b c = true → less a c = true)
    (hneg : ∀ a b c, less a b = false → less b c = false → less a c = false)
    {l : List T} (hInv : IInv less l) (val : T) :
    (2 ≤ ((if l.length % 2 = 1 then l.set 0 (l.getI (l.length - 1))
          else (l.set 0 (l.getI (l.length - 2))).set (l.length - 2)
            (l.getI (l.length - 1))).dropLast).length →
      less (((if l.length % 2 = 1 then l.set 0 (l.getI (l.length - 1))
          else (l.set 0 (l.getI (l.length - 2))).set (l.length - 2)
            (l.getI (l.length - 1))).dropLast).getI 1)
        (((if l.length % 2 = 1 then l.set 0 (l.getI (l.length - 1))
          else (l.set 0 (l.getI (l.length - 2))).set (l.length - 2)
            (l.getI (l.length - 1))).dropLast).getI 0) = false)
    ∧ (3 ≤ l.length →
      less (((l.set 1 (l.getI (l.length - 1))).dropLast).getI 1)
        (((l.set 1 (l.getI (l.length - 1))).dropLast).getI 0) = false)
    ∧ (2 ≤ l.length →
      less ((balance_node_check less (l.set 0 val) 0).getI 1)
        ((balance_node_check less (l.set 0 val) 0).getI 0) = false)
    ∧ (2 ≤ l.length →
      less ((balance_node less (l.set 1 val) 0).getI 1)
        ((balance_node less (l.set 1 val) 0).getI 0) = false)
    ∧ (∀ (l₀ : List T) (j : Nat), j < (balanceAll less l₀ 0).length → j % 2 = 1 →
      less ((balanceAll less l₀ 0).getI j)
        ((balanceAll less l₀ 0).getI (j - 1)) = false)
    ∧ (∀ (l₀ m : List T) (k : Nat), HeapifyLoop less l₀ m (k + 1) →
      (2 * k + 1 < m.length →
        less (m.getI (2 * k + 1)) (m.getI (2 * k)) = false)
      ∧ (2 * k + 1 < (bubble_down_max less m (2 * k + 1)).length →
        less ((bubble_down_max less m (2 * k + 1)).getI (2 * k + 1))
          ((bubble_down_max less m (2 * k + 1)).getI (2 * k)) = false)) := by
  refine ⟨?_, ?_, ?_, ?_, ?_, ?_⟩
  · split
    · next hodd =>
      intro hD2
      simp only [List.length_dropLast, List.length_set] at hD2
      have hn3 : 3 ≤ l.length := by omega
      rw [getI_dropLast (by simp only [List.length_set]; omega),
        getI_dropLast (by simp only [List.length_set]; omega),
        getI_set_ne 1 (by omega) (l.getI (l.length - 1)),
        getI_set_self (by omega) (l.getI (l.length - 1))]
      exact iinv_max hasymm hneg hInv (by omega) (l.length - 1) (by omega)
    · next hodd =>
      intro hD2
      simp only [List.length_dropLast, List.length_set] at hD2
      have hn3 : 3 ≤ l.length := by omega
      have hn4 : 4 ≤ l.length := by omega
      rw [getI_dropLast (by simp only [List.length_set]; omega),
        getI_dropLast (by simp only [List.length_set]; omega),
        getI_set_ne (i := l.length - 2) 1 (by omega) (l.getI (l.length - 1)),
        getI_set_ne (i := 0) 1 (by omega) (l.getI (l.length - 2)),
        getI_set_ne (i := l.length - 2) 0 (by omega) (l.getI (l.length - 1)),
        getI_set_self (by omega) (l.getI (l.length - 2))]
      exact iinv_max hasymm hneg hInv (by omega) (l.length - 2) (by omega)
  · intro hn3
    rw [getI_dropLast (by simp only [List.length_set]; omega),
      getI_dropLast (by simp only [List.length_set]; omega),
      getI_set_self (by omega) (l.getI (l.length - 1)),
      getI_set_ne 0 (by omega) (l.getI (l.length - 1))]
    exact iinv_min hasymm hneg hInv (l.length - 1) (by omega)
  · intro hn2
    have hbnc : balance_node_check less (l.set 0 val) 0
        = balance_node less (l.set 0 val) 0 := by
      unfold balance_node_check
      rw [if_pos (by simp only [List.length_set]; omega)]
    rw [hbnc]
    unfold balance_node
    simp only [Nat.zero_add]
    split
    · next hsw =>
      rw [getI_listSwap_left (by simp only [List.length_set]; omega) (by omega),
        getI_listSwap_right (by simp only [List.length_set]; omega)]
      exact hasymm _ _ hsw
    · next hsw =>
      rw [Bool.not_eq_true] at hsw
      exact hsw
  · intro hn2
    unfold balance_node
    simp only [Nat.zero_add]
    split
    · next hsw =>
      rw [getI_listSwap_left (by simp only [List.length_set]; omega) (by omega),
        getI_listSwap_right (by simp only [List.length_set]; omega)]
      exact hasymm _ _ hsw
    · next hsw =>
      rw [Bool.not_eq_true] at hsw
      exact hsw
  · exact fun l₀ => balanceAll_pairs hasymm l₀ 0 rfl (fun j h1 h2 h3 => absurd h3 (by omega))
  · intro l₀ m k hloop
    obtain ⟨hk, P1, P2, P3, P4⟩ := heapifyLoop_inv hasymm htrans hneg hloop
    constructor
    · intro hlt
      have hp := P1 (2 * k + 1) hlt (by omega)
      rwa [Nat.add_sub_cancel] at hp
    · intro hlt
      obtain ⟨hA1, hB⟩ := iheapify_step_inv hasymm htrans hneg hk P1 P2 P3 P4
      have hp := hA1 (2 * k + 1) hlt (by omega)
      rwa [Nat.add_sub_cancel] at hp

/-- `replace_min v` and `pop_min` followed by `push v` produce the same
content. -/
theorem ifusion_min_multiset (l : List T) (v : T) (hl : l ≠ []) :
    ((replace_min less l v : List T) : Multiset T)
      = ((push less (pop_min less l) v : List T) : Multiset T) := by
  apply add_right_cancel (b := ({l.getI 0} : Multiset T))
  rw [replace_min_multiset _ _ hl, ipush_multiset]
  have hp := @pop_min_multiset T _ less l hl
  calc (l : Multiset T) + {v}
      = ((pop_min less l : List T) : Multiset T) + {l.getI 0} + {v} := by rw [hp]
    _ = ((pop_min less l : List T) : Multiset T) + {v} + {l.getI 0} := by abel

/-- `replace_max v` and `pop_max` followed by `push v` produce the same
content. -/
theorem ifusion_max_multiset (l : List T) (v : T) (hl : l ≠ []) :
    ((replace_max less l v : List T) : Multiset T)
      = ((push less (pop_max less l) v : List T) : Multiset T) := by
  apply add_right_cancel (b := ({maxVal l} : Multiset T))
  rw [replace_max_multiset _ _ hl, ipush_multiset]
  have hp := @pop_max_multiset T _ less l hl
  calc (l : Multiset T) + {v}
      = ((pop_max less l : List T) : Multiset T) + {maxVal l} + {v} := by rw [hp]
    _ = ((pop_max less l : List T) : Multiset T) + {v} + {maxVal l} := by abel

/-- Below `2^64` and away from the root node, the wrapped parent computation
agrees with the mathematical one. -/
theorem igetParentWrap_eq {idx : Nat} (h1 : 2 ≤ idx) (h2 : idx < 2 ^ 64) :
    getParentWrap idx = get_parent idx := by
  unfold getParentWrap get_parent
  have hmod : (idx + (2 ^ 64 - 2)) % 2 ^ 64 = idx - 2 := by omega
  rw [hmod]

/-- The checked min-chain loop never fails and agrees with the plain loop. -/
theorem bubbleUpMinGoW_eq :
    ∀ (fuel idx : Nat) (l : List T) (cur : T), 2 ≤ idx → idx < l.length →
      l.length ≤ 2 ^ 64 → idx < fuel →
      bubbleUpMinGoW less fuel l cur idx = some (bubbleUpMinGo less l cur idx) := by
  intro fuel
  induction fuel with
  | zero => intro idx l cur h2 hlt hlen hf; exact absurd hf (Nat.not_lt_zero idx)
  | succ fuel ih =>
    intro idx l cur h2 hlt hlen hf
    rw [bubbleUpMinGoW, bubbleUpMinGo.eq_def]
    have hw : getParentWrap idx = get_parent idx := igetParentWrap_eq h2 (by omega)
    have hps := ipar_sub2 h2
    have hplt : get_parent idx < l.length := by omega
    rw [hw]
    have hsome : l[get_parent idx]? = some (l.getI (get_parent idx)) := by
      rw [List.getElem?_eq_getElem hplt, List.getI_eq_getElem _ hplt]
    simp only [hsome]
    rw [if_pos hlt]
    by_cases hg : 1 < get_parent idx
    · rw [if_pos hg]
      have hpe := ipar_even idx
      have hg2 : 2 ≤ get_parent idx := by omega
      have hw2 : getParentWrap (get_parent idx) = get_parent (get_parent idx) :=
        igetParentWrap_eq hg2 (by omega)
      rw [hw2]
      have hps2 := ipar_sub2 hg2
      have hpplt : get_parent (get_parent idx)
          < (l.set idx (l.getI (get_parent idx))).length := by
        simp only [List.length_set]
        omega
      have hsome2 : (l.set idx (l.getI (get_parent idx)))[get_parent (get_parent idx)]?
          = some ((l.set idx (l.getI (get_parent idx))).getI
            (get_parent (get_parent idx))) := by
        rw [List.getElem?_eq_getElem hpplt, List.getI_eq_getElem _ hpplt]
      simp only [hsome2]
      by_cases hc : less cur ((l.set idx (l.getI (get_parent idx))).getI
          (get_parent (get_parent idx))) = true
      · rw [if_pos hc, if_pos ⟨hg, hc⟩]
        exact ih (get_parent idx) (l.set idx (l.getI (get_parent idx))) cur hg2
          (by simp only [List.length_set]; omega)
          (by simp only [List.length_set]; omega)
          (by omega)
      · rw [if_neg hc, if_pos hplt, if_neg (fun hand => hc hand.2)]
    · rw [if_neg hg, if_pos hplt, if_neg (fun hand => hg hand.1)]

/-- The checked max-chain loop never fails and agrees with the plain loop. -/
theorem bubbleUpMaxGoW_eq :
    ∀ (fuel idx : Nat) (l : List T) (cur : T), 2 ≤ idx → idx < l.length →
      l.length ≤ 2 ^ 64 → idx < fuel →
      bubbleUpMaxGoW less fuel l cur idx = some (bubbleUpMaxGo less l cur idx) := by
  intro fuel
  induction fuel with
  | zero => intro idx l cur h2 hlt hlen hf; exact absurd hf (Nat.not_lt_zero idx)
  | succ fuel ih =>
    intro idx l cur h2 hlt hlen hf
    rw [bubbleUpMaxGoW, bubbleUpMaxGo.eq_def]
    have hw : getParentWrap idx = get_parent idx := igetParentWrap_eq h2 (by omega)
    have hps := ipar_sub2 h2
    have hplt : get_parent idx + 1 < l.length := by omega
    rw [hw]
    have hsome : l[get_parent idx + 1]? = some (l.getI (get_parent idx + 1)) := by
      rw [List.getElem?_eq_getElem hplt, List.getI_eq_getElem _ hplt]
    simp only [hsome]
    rw [if_pos hlt]
    by_cases hg : 1 < get_parent idx + 1
    · rw [if_pos hg]
      have hpe := ipar_even idx
      have hg2 : 2 ≤ get_parent idx + 1 := by omega
      have hw2 : getParentWrap (get_parent idx + 1) = get_parent (get_parent idx + 1) :=
        igetParentWrap_eq hg2 (by omega)
      rw [hw2]
      have hps2 := ipar_sub2 hg2
      have hpplt : get_parent (get_parent idx + 1) + 1
          < (l.set idx (l.getI (get_parent idx + 1))).length := by
        simp only [List.length_set]
        omega
      have hsome2 : (l.set idx (l.getI (get_parent idx + 1)))[get_parent
            (get_parent idx + 1) + 1]?
          = some ((l.set idx (l.getI (get_parent idx + 1))).getI
            (get_parent (get_parent idx + 1) + 1)) := by
        rw [List.getElem?_eq_getElem hpplt, List.getI_eq_getElem _ hpplt]
      simp only [hsome2]
      by_cases hc : less ((l.set idx (l.getI (get_parent idx + 1))).getI
          (get_parent (get_parent idx + 1) + 1)) cur = true
      · rw [if_pos hc, if_pos ⟨hg, hc⟩]
        exact ih (get_parent idx + 1) (l.set idx (l.getI (get_parent idx + 1))) cur hg2
          (by simp only [List.length_set]; omega)
          (by simp only [List.length_set]; omega)
          (by omega)
      · rw [if_neg hc, if_pos hplt, if_neg (fun hand => hc hand.2)]
    · rw [if_neg hg, if_pos hplt, if_neg (fun hand => hg hand.1)]

/-- The dispatch of `bubble_up` after the local reconcile, with checked
accesses, never fails and agrees with the plain dispatch. -/
theorem ibubbleUpDispatchW_eq (l1 : List T) (cur : T) (idx1 : Nat)
    (hlt : idx1 < l1.length) (hlen : l1.length ≤ 2 ^ 64) :
    (if 1 < idx1 then
      match l1[getParentWrap idx1]? with
      | none => none
      | some pv =>
        if less cur pv = true then bubbleUpMinGoW less (idx1 + 1) l1 cur idx1
        else
          match l1[getParentWrap idx1 + 1]? with
          | none => none
          | some pv1 =>
            if less pv1 cur = true then bubbleUpMaxGoW less (idx1 + 1) l1 cur idx1
            else if idx1 < l1.length then some (l1.set idx1 cur) else none
    else if idx1 < l1.length then some (l1.set idx1 cur) else none)
    = some (if 1 < idx1 ∧ less cur (l1.getI (get_parent idx1)) = true then
        bubbleUpMinGo less l1 cur idx1
      else if 1 < idx1 ∧ less (l1.getI (get_parent idx1 + 1)) cur = true then
        bubbleUpMaxGo less l1 cur idx1
      else l1.set idx1 cur) := by
  by_cases h1 : 1 < idx1
  · rw [if_pos h1]
    have hw : getParentWrap idx1 = get_parent idx1 := igetParentWrap_eq (by omega) (by omega)
    have hps := ipar_sub2 (show 2 ≤ idx1 by omega)
    have hplt : get_parent idx1 < l1.length := by omega
    have hplt1 : get_parent idx1 + 1 < l1.length := by omega
    rw [hw]
    have hsome : l1[get_parent idx1]? = some (l1.getI (get_parent idx1)) := by
      rw [List.getElem?_eq_getElem hplt, List.getI_eq_getElem _ hplt]
    have hsome1 : l1[get_parent idx1 + 1]? = some (l1.getI (get_parent idx1 + 1)) := by
      rw [List.getElem?_eq_getElem hplt1, List.getI_eq_getElem _ hplt1]
    simp only [hsome, hsome1]
    by_cases hmin : less cur (l1.getI (get_parent idx1)) = true
    · rw [if_pos hmin, if_pos ⟨h1, hmin⟩]
      exact bubbleUpMinGoW_eq (idx1 + 1) idx1 l1 cur (by omega) hlt hlen (by omega)
    · rw [if_neg hmin,
        if_neg (fun hand : 1 < idx1 ∧ less cur (l1.getI (get_parent idx1)) = true =>
          hmin hand.2)]
      by_cases hmax : less (l1.getI (get_parent idx1 + 1)) cur = true
      · rw [if_pos hmax, if_pos ⟨h1, hmax⟩]
        exact bubbleUpMaxGoW_eq (idx1 + 1) idx1 l1 cur (by omega) hlt hlen (by omega)
      · rw [if_neg hmax, if_pos hlt,
          if_neg (fun hand : 1 < idx1 ∧ less (l1.getI (get_parent idx1 + 1)) cur = true =>
            hmax hand.2)]
  · rw [if_neg h1, if_pos hlt,
      if_neg (fun hand : 1 < idx1 ∧ less cur (l1.getI (get_parent idx1)) = true =>
        h1 hand.1),
      if_neg (fun hand : 1 < idx1 ∧ less (l1.getI (get_parent idx1 + 1)) cur = true =>
        h1 hand.1)]

/-- **C9**, IntervalHeap side: `push` with every access bounds-checked and
parents computed in exact `size_t` arithmetic succeeds and agrees with the
plain model whenever the resulting size fits in `size_t`. -/
theorem ipushW_eq (l : List T) (v : T) (hlen : l.length + 1 ≤ 2 ^ 64) :
    pushW less l v = some (push less l v) := by
  unfold pushW push bubble_up
  have hidx : l.length < (l ++ [v]).length := by simp
  have hsome : (l ++ [v])[l.length]? = some ((l ++ [v]).getI l.length) := by
    rw [List.getElem?_eq_getElem hidx, List.getI_eq_getElem _ hidx]
  simp only [hsome]
  by_cases hm : is_max l.length = true
  · rw [if_pos hm]
    have hm' : l.length % 2 = 1 := by simpa [is_max] using hm
    have hlt1 : l.length - 1 < (l ++ [v]).length := by simp; omega
    have hs1 : (l ++ [v])[l.length - 1]? = some ((l ++ [v]).getI (l.length - 1)) := by
      rw [List.getElem?_eq_getElem hlt1, List.getI_eq_getElem _ hlt1]
    simp only [hs1]
    by_cases hsw : less ((l ++ [v]).getI l.length) ((l ++ [v]).getI (l.length - 1)) = true
    · rw [if_pos hsw, if_pos hidx]
      have hrs : reconcileStep less (l ++ [v]) l.length ((l ++ [v]).getI l.length)
          = ((l ++ [v]).set l.length ((l ++ [v]).getI (l.length - 1)), l.length - 1) := by
        unfold reconcileStep
        rw [if_pos ⟨hm, hsw⟩]
      rw [hrs]
      exact ibubbleUpDispatchW_eq _ _ _
        (by simp only [List.length_set, List.length_append, List.length_cons,
          List.length_nil]; omega)
        (by simp only [List.length_set, List.length_append, List.length_cons,
          List.length_nil]; omega)
    · rw [if_neg hsw]
      have hrs : reconcileStep less (l ++ [v]) l.length ((l ++ [v]).getI l.length)
          = (l ++ [v], l.length) := by
        unfold reconcileStep
        rw [if_neg (fun hand => hsw hand.2)]
      rw [hrs]
      exact ibubbleUpDispatchW_eq _ _ _ hidx (by simp; omega)
  · rw [if_neg hm]
    have hrs : reconcileStep less (l ++ [v]) l.length ((l ++ [v]).getI l.length)
        = (l ++ [v], l.length) := by
      unfold reconcileStep
      rw [if_neg (fun hand => hm hand.1)]
    rw [hrs]
    exact ibubbleUpDispatchW_eq _ _ _ hidx (by simp; omega)

/-- The checked smaller-child selection of `bubble_down_min` never fails
and agrees with the plain one (its reads are guarded by the short-circuit
condition). -/
theorem pickMinChildW_eq (l : List T) (child : Nat) :
    pickMinChildW less l child = some (pickMinChild less l child) := by
  unfold pickMinChildW pickMinChild
  by_cases h2 : child + 2 < l.length
  · rw [if_pos h2]
    have hchild : child < l.length := by omega
    have hs1 : l[child + 2]? = some (l.getI (child + 2)) := by
      rw [List.getElem?_eq_getElem h2, List.getI_eq_getElem _ h2]
    have hs2 : l[child]? = some (l.getI child) := by
      rw [List.getElem?_eq_getElem hchild, List.getI_eq_getElem _ hchild]
    simp only [hs1, hs2]
    by_cases hc : less (l.getI (child + 2)) (l.getI child) = true
    · rw [if_pos hc, if_pos ⟨h2, hc⟩]
    · rw [if_neg hc,
        if_neg (fun hand : child + 2 < l.length
            ∧ less (l.getI (child + 2)) (l.getI child) = true => hc hand.2)]
  · rw [if_neg h2,
      if_neg (fun hand : child + 2 < l.length
          ∧ less (l.getI (child + 2)) (l.getI child) = true => h2 hand.1)]

/-- The checked node fix-up of `bubble_down_min` never fails and agrees
with the plain one. -/
theorem minFixW_eq (l : List T) (c : Nat) :
    minFixW less l c = some (minFix less l c) := by
  unfold minFixW minFix
  by_cases h1 : c + 1 < l.length
  · rw [if_pos h1]
    have hc : c < l.length := by omega
    have hs1 : l[c + 1]? = some (l.getI (c + 1)) := by
      rw [List.getElem?_eq_getElem h1, List.getI_eq_getElem _ h1]
    have hs2 : l[c]? = some (l.getI c) := by
      rw [List.getElem?_eq_getElem hc, List.getI_eq_getElem _ hc]
    simp only [hs1, hs2]
    by_cases hless : less (l.getI (c + 1)) (l.getI c) = true
    · rw [if_pos hless, if_pos ⟨h1, hless⟩]
      exact swapW_eq h1 hc
    · rw [if_neg hless,
        if_neg (fun hand : c + 1 < l.length
            ∧ less (l.getI (c + 1)) (l.getI c) = true => hless hand.2)]
  · rw [if_neg h1,
      if_neg (fun hand : c + 1 < l.length
          ∧ less (l.getI (c + 1)) (l.getI c) = true => h1 hand.1)]

/-- The checked loop of `bubble_down_min` never fails and agrees with the
plain one. -/
theorem bubbleDownMinGoW_eq :
    ∀ (fuel : Nat) (l : List T) (idx : Nat), idx < l.length →
      l.length - idx ≤ fuel → 0 < fuel →
      bubbleDownMinGoW less fuel l idx = some (bubble_down_min less l idx) := by
  intro fuel
  induction fuel with
  | zero => intro l idx hidx hf hf0; exact absurd hf0 (by omega)
  | succ fuel ih =>
    intro l idx hidx hf hf0
    rw [bubbleDownMinGoW, bubble_down_min.eq_def]
    by_cases h : get_left idx < l.length
    · rw [if_pos h, dif_pos h]
      simp only [pickMinChildW_eq]
      have hgl : get_left idx = (idx + 1) * 2 := rfl
      have h1 := pickMinChild_lb less l (get_left idx)
      have hcub : pickMinChild less l (get_left idx) < l.length :=
        pickMinChild_ub less h
      have hsc : l[pickMinChild less l (get_left idx)]?
          = some (l.getI (pickMinChild less l (get_left idx))) := by
        rw [List.getElem?_eq_getElem hcub, List.getI_eq_getElem _ hcub]
      have hsi : l[idx]? = some (l.getI idx) := by
        rw [List.getElem?_eq_getElem hidx, List.getI_eq_getElem _ hidx]
      simp only [hsc, hsi]
      by_cases hless : less (l.getI (pickMinChild less l (get_left idx)))
          (l.getI idx) = true
      · rw [if_pos hless, if_pos hless]
        simp only [swapW_eq hidx hcub]
        simp only [minFixW_eq]
        refine ih _ _ ?_ ?_ ?_
        · simp only [minFix_length, listSwap_length]
          exact hcub
        · simp only [minFix_length, listSwap_length]
          omega
        · omega
      · rw [if_neg hless, if_neg hless]
    · rw [if_neg h, dif_neg h]

/-- The checked in-loop child fix-up of `bubble_down_max` never fails and
agrees with the plain one when the child index is in bounds. -/
theorem childFixW_eq {l : List T} {c : Nat} (h : c < l.length) :
    childFixW less l c = some (childFix less l c) := by
  unfold childFixW childFix
  by_cases hm : is_max c = true
  · rw [if_pos hm]
    have hc1 : c - 1 < l.length := by omega
    have hs1 : l[c]? = some (l.getI c) := by
      rw [List.getElem?_eq_getElem h, List.getI_eq_getElem _ h]
    have hs2 : l[c - 1]? = some (l.getI (c - 1)) := by
      rw [List.getElem?_eq_getElem hc1, List.getI_eq_getElem _ hc1]
    simp only [hs1, hs2]
    by_cases hless : less (l.getI c) (l.getI (c - 1)) = true
    · rw [if_pos hless, if_pos ⟨hm, hless⟩]
      exact swapW_eq h hc1
    · rw [if_neg hless,
        if_neg (fun hand : is_max c = true
            ∧ less (l.getI c) (l.getI (c - 1)) = true => hless hand.2)]
  · rw [if_neg hm,
      if_neg (fun hand : is_max c = true
          ∧ less (l.getI c) (l.getI (c - 1)) = true => hm hand.1)]

/-- The checked post-loop fix-up of `bubble_down_max` never fails and
agrees with the plain one. -/
theorem maxFixW_eq (l : List T) (idx : Nat) :
    maxFixW less l idx = some (maxFix less l idx) := by
  unfold maxFixW maxFix
  by_cases h1 : idx + 1 < l.length
  · rw [if_pos h1]
    have hidx : idx < l.length := by omega
    have hs1 : l[idx + 1]? = some (l.getI (idx + 1)) := by
      rw [List.getElem?_eq_getElem h1, List.getI_eq_getElem _ h1]
    have hs2 : l[idx]? = some (l.getI idx) := by
      rw [List.getElem?_eq_getElem hidx, List.getI_eq_getElem _ hidx]
    simp only [hs1, hs2]
    by_cases hless : less (l.getI (idx + 1)) (l.getI idx) = true
    · rw [if_pos hless, if_pos ⟨h1, hless⟩]
      exact swapW_eq hidx h1
    · rw [if_neg hless,
        if_neg (fun hand : idx + 1 < l.length
            ∧ less (l.getI (idx + 1)) (l.getI idx) = true => hless hand.2)]
  · rw [if_neg h1,
      if_neg (fun hand : idx + 1 < l.length
          ∧ less (l.getI (idx + 1)) (l.getI idx) = true => h1 hand.1)]

/-- The checked loop of `bubble_down_max` never fails and agrees with the
plain one. -/
theorem bubbleDownMaxGoW_eq :
    ∀ (fuel : Nat) (l : List T) (idx : Nat),
      l.length - idx ≤ fuel → 0 < fuel →
      bubbleDownMaxGoW less fuel l idx = some (bubbleDownMaxGo less l idx) := by
  intro fuel
  induction fuel with
  | zero => intro l idx hf hf0; exact absurd hf0 (by omega)
  | succ fuel ih =>
    intro l idx hf hf0
    rw [bubbleDownMaxGoW, bubbleDownMaxGo.eq_def]
    by_cases h : get_left idx < l.length
    · rw [if_pos h, dif_pos h]
      have hgl : get_left idx = (idx + 1) * 2 := rfl
      have hi1 : idx + 1 < l.length := by omega
      have hm1lt : maxChild1 l.length (get_left idx) < l.length := by
        unfold maxChild1; split <;> omega
      have hm2ge := maxChild2_ge l.length (get_left idx)
      have hsX : l[idx + 1]? = some (l.getI (idx + 1)) := by
        rw [List.getElem?_eq_getElem hi1, List.getI_eq_getElem _ hi1]
      have hsA : l[maxChild1 l.length (get_left idx)]?
          = some (l.getI (maxChild1 l.length (get_left idx))) := by
        rw [List.getElem?_eq_getElem hm1lt, List.getI_eq_getElem _ hm1lt]
      by_cases hm2 : maxChild2 l.length (get_left idx) < l.length
      · rw [if_pos hm2]
        have hsB : l[maxChild2 l.length (get_left idx)]?
            = some (l.getI (maxChild2 l.length (get_left idx))) := by
          rw [List.getElem?_eq_getElem hm2, List.getI_eq_getElem _ hm2]
        simp only [hsA, hsB, hsX]
        by_cases hab : less (l.getI (maxChild1 l.length (get_left idx)))
            (l.getI (maxChild2 l.length (get_left idx))) = true
        · rw [if_pos hab, dif_pos ⟨hm2, hab⟩]
          by_cases hxy : less (l.getI (idx + 1))
              (l.getI (maxChild2 l.length (get_left idx))) = true
          · rw [if_pos hxy, if_pos hxy]
            simp only [swapW_eq hi1 hm2]
            simp only [childFixW_eq (show maxChild2 l.length (get_left idx)
              < (listSwap l (idx + 1) (maxChild2 l.length (get_left idx))).length from
                by rw [listSwap_length]; exact hm2)]
            refine ih _ _ ?_ ?_
            · simp only [childFix_length, listSwap_length]
              omega
            · omega
          · rw [if_neg hxy, if_neg hxy]
            exact maxFixW_eq l idx
        · rw [if_neg hab,
            dif_neg (fun hand : maxChild2 l.length (get_left idx) < l.length
              ∧ less (l.getI (maxChild1 l.length (get_left idx)))
                  (l.getI (maxChild2 l.length (get_left idx))) = true =>
                hab hand.2)]
          by_cases hxy : less (l.getI (idx + 1))
              (l.getI (maxChild1 l.length (get_left idx))) = true
          · rw [if_pos hxy, if_pos hxy]
            simp only [swapW_eq hi1 hm1lt]
            simp only [childFixW_eq (show maxChild1 l.length (get_left idx)
              < (listSwap l (idx + 1) (maxChild1 l.length (get_left idx))).length from
                by rw [listSwap_length]; exact hm1lt)]
            refine ih _ _ ?_ ?_
            · simp only [childFix_length, listSwap_length]
              omega
            · omega
          · rw [if_neg hxy, if_neg hxy]
            exact maxFixW_eq l idx
      · rw [if_neg hm2,
          dif_neg (fun hand : maxChild2 l.length (get_left idx) < l.length
            ∧ less (l.getI (maxChild1 l.length (get_left idx)))
                (l.getI (maxChild2 l.length (get_left idx))) = true =>
              hm2 hand.1)]
        simp only [hsX, hsA]
        by_cases hxy : less (l.getI (idx + 1))
            (l.getI (maxChild1 l.length (get_left idx))) = true
        · rw [if_pos hxy, if_pos hxy]
          simp only [swapW_eq hi1 hm1lt]
          simp only [childFixW_eq (show maxChild1 l.length (get_left idx)
            < (listSwap l (idx + 1) (maxChild1 l.length (get_left idx))).length from
              by rw [listSwap_length]; exact hm1lt)]
          refine ih _ _ ?_ ?_
          · simp only [childFix_length, listSwap_length]
            omega
          · omega
        · rw [if_neg hxy, if_neg hxy]
          exact maxFixW_eq l idx
    · rw [if_neg h, dif_neg h]
      exact maxFixW_eq l idx

/-- **C5**, `IntervalHeap::pop_min`: on a non-empty heap the checked model
never fails and agrees with the plain one. -/
theorem popMinW_eq (l : List T) (hl : l ≠ []) :
    popMinW less l = some (pop_min less l) := by
  have hpos : 0 < l.length := List.length_pos.mpr hl
  unfold popMinW pop_min
  dsimp only
  rw [if_neg (by omega)]
  by_cases h1 : l.length = 1
  · rw [if_pos h1, if_pos h1]
  · rw [if_neg h1, if_neg h1]
    by_cases hodd : l.length % 2 = 1
    · rw [if_pos hodd, if_pos hodd]
      have hn1 : l.length - 1 < l.length := by omega
      have hs : l[l.length - 1]? = some (l.getI (l.length - 1)) := by
        rw [List.getElem?_eq_getElem hn1, List.getI_eq_getElem _ hn1]
      simp only [hs]
      rw [if_pos hpos]
      exact bubbleDownMinGoW_eq _ _ 0
        (by simp only [List.length_dropLast, List.length_set]; omega)
        (by omega)
        (by simp only [List.length_dropLast, List.length_set]; omega)
    · rw [if_neg hodd, if_neg hodd]
      have hn2 : l.length - 2 < l.length := by omega
      have hs2 : l[l.length - 2]? = some (l.getI (l.length - 2)) := by
        rw [List.getElem?_eq_getElem hn2, List.getI_eq_getElem _ hn2]
      simp only [hs2]
      rw [if_pos hpos]
      have hn1s : l.length - 1 < (l.set 0 (l.getI (l.length - 2))).length := by
        simp only [List.length_set]; omega
      have hs1 : (l.set 0 (l.getI (l.length - 2)))[l.length - 1]?
          = some ((l.set 0 (l.getI (l.length - 2))).getI (l.length - 1)) := by
        rw [List.getElem?_eq_getElem hn1s, List.getI_eq_getElem _ hn1s]
      simp only [hs1]
      have hv1 : (l.set 0 (l.getI (l.length - 2))).getI (l.length - 1)
          = l.getI (l.length - 1) := getI_set_ne (l.length - 1) (by omega) _
      rw [hv1]
      rw [if_pos hn2]
      exact bubbleDownMinGoW_eq _ _ 0
        (by simp only [List.length_dropLast, List.length_set]; omega)
        (by omega)
        (by simp only [List.length_dropLast, List.length_set]; omega)

/-- **C5**, `IntervalHeap::pop_max`: on a non-empty heap the checked model
never fails and agrees with the plain one. -/
theorem popMaxW_eq (l : List T) (hl : l ≠ []) :
    popMaxW less l = some (pop_max less l) := by
  have hpos : 0 < l.length := List.length_pos.mpr hl
  unfold popMaxW pop_max
  dsimp only
  rw [if_neg (by omega)]
  by_cases h1 : l.length = 1
  · rw [if_pos h1, if_pos h1]
  · rw [if_neg h1, if_neg h1]
    have hn1 : l.length - 1 < l.length := by omega
    have hs : l[l.length - 1]? = some (l.getI (l.length - 1)) := by
      rw [List.getElem?_eq_getElem hn1, List.getI_eq_getElem _ hn1]
    simp only [hs]
    rw [if_pos (show 1 < l.length by omega)]
    by_cases h2 : 2 < l.length
    · rw [if_pos h2, if_pos h2]
      have hbd : bubble_down_max less ((l.set 1 (l.getI (l.length - 1))).dropLast) 1
          = bubbleDownMaxGo less ((l.set 1 (l.getI (l.length - 1))).dropLast) 0 := rfl
      rw [hbd]
      exact bubbleDownMaxGoW_eq _ _ 0 (by omega)
        (by simp only [List.length_dropLast, List.length_set]; omega)
    · rw [if_neg h2, if_neg h2]

/-- The checked `balance_node` never fails and agrees with the plain one
when the node is full. -/
theorem balanceNodeW_eq {l : List T} {idx : Nat} (h : idx + 1 < l.length) :
    balanceNodeW less l idx = some (balance_node less l idx) := by
  unfold balanceNodeW balance_node
  have hidx : idx < l.length := by omega
  have hs1 : l[idx + 1]? = some (l.getI (idx + 1)) := by
    rw [List.getElem?_eq_getElem h, List.getI_eq_getElem _ h]
  have hs2 : l[idx]? = some (l.getI idx) := by
    rw [List.getElem?_eq_getElem hidx, List.getI_eq_getElem _ hidx]
  simp only [hs1, hs2]
  by_cases hless : less (l.getI (idx + 1)) (l.getI idx) = true
  · rw [if_pos hless, if_pos hless]
    exact swapW_eq h hidx
  · rw [if_neg hless, if_neg hless]

/-- The checked `balance_node_check` never fails and agrees with the plain
one. -/
theorem balanceNodeCheckW_eq (l : List T) (idx : Nat) :
    balanceNodeCheckW less l idx = some (balance_node_check less l idx) := by
  unfold balanceNodeCheckW balance_node_check
  by_cases h : idx + 1 < l.length
  · rw [if_pos h, if_pos h]
    exact balanceNodeW_eq h
  · rw [if_neg h, if_neg h]

/-- **C5**, `IntervalHeap::replace_min`: on a non-empty heap the checked
model never fails and agrees with the plain one. -/
theorem replaceMinW_eq (l : List T) (val : T) (hl : l ≠ []) :
    replaceMinW less l val = some (replace_min less l val) := by
  have hpos : 0 < l.length := List.length_pos.mpr hl
  unfold replaceMinW replace_min
  dsimp only
  rw [if_neg (by omega), if_pos hpos]
  simp only [balanceNodeCheckW_eq]
  refine bubbleDownMinGoW_eq _ _ 0 ?_ ?_ ?_
  · rw [balance_node_check_length]
    simp only [List.length_set]
    omega
  · omega
  · rw [balance_node_check_length]
    simp only [List.length_set]
    omega

/-- **C5**, `IntervalHeap::replace_max`: on a non-empty heap the checked
model never fails and agrees with the plain one. -/
theorem replaceMaxW_eq (l : List T) (val : T) (hl : l ≠ []) :
    replaceMaxW less l val = some (replace_max less l val) := by
  have hpos : 0 < l.length := List.length_pos.mpr hl
  unfold replaceMaxW replace_max
  rw [if_neg (by omega)]
  by_cases h1 : l.length = 1
  · rw [if_pos h1, if_pos h1, if_pos hpos]
  · rw [if_neg h1, if_neg h1, if_pos (show 1 < l.length by omega)]
    have hb : (0 : Nat) + 1 < (l.set 1 val).length := by
      simp only [List.length_set]; omega
    simp only [balanceNodeW_eq hb]
    have hbd : bubble_down_max less (balance_node less (l.set 1 val) 0) 1
        = bubbleDownMaxGo less (balance_node less (l.set 1 val) 0) 0 := rfl
    rw [hbd]
    refine bubbleDownMaxGoW_eq _ _ 0 ?_ ?_
    · omega
    · rw [balance_node_length]
      simp only [List.length_set]
      omega

end IntervalHeap

/-! ## The remaining claims -/

theorem natLt_asymm : ∀ a b : Nat, natLt a b = true → natLt b a = false := by
  intro a b h
  simp only [natLt, decide_eq_true_eq] at h
  simp only [natLt, decide_eq_false_iff_not]
  omega

theorem natLt_trans :
    ∀ a b c : Nat, natLt a b = true → natLt b c = true → natLt a c = true := by
  intro a b c h1 h2
  simp only [natLt, decide_eq_true_eq] at h1 h2 ⊢
  omega

theorem natLt_negtrans :
    ∀ a b c : Nat, natLt a b = false → natLt b c = false → natLt a c = false := by
  intro a b c h1 h2
  simp only [natLt, decide_eq_false_iff_not] at h1 h2 ⊢
  omega

theorem natLt_anti : ∀ a b : Nat, natLt a b = false → natLt b a = false → a = b := by
  intro a b h1 h2
  simp only [natLt, decide_eq_false_iff_not] at h1 h2
  omega

/-- A small valid interval heap used by witnesses. -/
theorem iinv_example : IntervalHeap.IInv natLt [1, 5, 2] := by
  refine ⟨?_, ?_, ?_, ?_⟩
  · intro i h1 h2
    simp only [List.length_cons, List.length_nil] at h1
    interval_cases i
    · exact absurd h2 (by decide)
    · decide
    · exact absurd h2 (by decide)
  · intro i h1 h2 h3
    simp only [List.length_cons, List.length_nil] at h1
    interval_cases i
    decide
  · intro i h1 h2 h3
    simp only [List.length_cons, List.length_nil] at h1
    exact absurd h3 (by omega)
  · intro i h1 h2 h3
    simp only [List.length_cons, List.length_nil] at h1
    have hi2 : i = 2 := by omega
    subst hi2
    decide

/-- **C1**: on every reachable state of either heap, `top()`/`min()` returns
the minimum of the content under the comparator, and `IntervalHeap::max()`
returns its maximum (`data[1]` if `size > 1`, else `data[0]`, so on a
one-element heap `max()` and `min()` agree). -/
theorem extremes_correct {T : Type} [Inhabited T] (less : T → T → Bool)
    (hasymm : ∀ a b, less a b = true → less b a = false)
    (htrans : ∀ a b c, less a b = true → less b c = true → less a c = true)
    (hneg : ∀ a b c, less a b = false → less b c = false → less a c = false) :
    (∀ l : List T, BinaryHeap.Reachable less l → l ≠ [] →
      BinaryHeap.top? l = some (l.getI 0)
      ∧ l.getI 0 ∈ l ∧ (∀ x ∈ l, less x (l.getI 0) = false))
    ∧ (∀ l : List T, IntervalHeap.Reachable less l → l ≠ [] →
      (IntervalHeap.minq l = some (l.getI 0)
        ∧ l.getI 0 ∈ l ∧ (∀ x ∈ l, less x (l.getI 0) = false))
      ∧ (IntervalHeap.maxq l = some (IntervalHeap.maxVal l)
        ∧ IntervalHeap.maxVal l ∈ l
        ∧ (∀ x ∈ l, less (IntervalHeap.maxVal l) x = false))
      ∧ (l.length = 1 → IntervalHeap.maxq l = IntervalHeap.minq l)) := by
  constructor
  · intro l hr hl
    have hInv := BinaryHeap.reachable_inv hasymm htrans hneg hr
    have htm := BinaryHeap.inv_top_min hasymm hneg hInv hl
    have hpos : 0 < l.length := List.length_pos.mpr hl
    refine ⟨?_, htm.1, htm.2⟩
    unfold BinaryHeap.top?
    rw [if_neg (by omega)]
  · intro l hr hl
    have hInv := IntervalHeap.ireachable_inv hasymm htrans hneg hr
    have htm := IntervalHeap.iinv_top_min hasymm hneg hInv hl
    have htx := IntervalHeap.iinv_top_max hasymm hneg hInv hl
    have hpos : 0 < l.length := List.length_pos.mpr hl
    refine ⟨⟨?_, htm.1, htm.2⟩, ⟨?_, htx.1, htx.2⟩, ?_⟩
    · unfold IntervalHeap.minq
      rw [if_neg (by omega)]
    · unfold IntervalHeap.maxq IntervalHeap.maxVal
      by_cases h1 : 1 < l.length
      · rw [if_neg (by omega), if_pos h1, if_pos h1]
      · rw [if_neg (by omega), if_neg h1, if_neg h1]
    · intro hlen1
      unfold IntervalHeap.maxq IntervalHeap.minq
      rw [if_neg (by omega), if_neg (by omega), if_neg (by omega)]

/-- Witness for C1 at the natural order on `Nat`. -/
theorem extremes_correct_witness :
    (∀ a b : Nat, natLt a b = true → natLt b a = false)
    ∧ (∀ l : List Nat, BinaryHeap.Reachable natLt l → l ≠ [] →
        BinaryHeap.top? l = some (l.getI 0)
        ∧ l.getI 0 ∈ l ∧ (∀ x ∈ l, natLt x (l.getI 0) = false)) :=
  ⟨natLt_asymm, (extremes_correct natLt natLt_asymm natLt_trans natLt_negtrans).1⟩

/-- **C2**: every state reachable by construction and the mutating
operations satisfies the structural invariant of its heap (`swap` and moves
exchange whole states and are covered by reachability). -/
theorem invariant_preservation {T : Type} [Inhabited T] (less : T → T → Bool)
    (hasymm : ∀ a b, less a b = true → less b a = false)
    (htrans : ∀ a b c, less a b = true → less b c = true → less a c = true)
    (hneg : ∀ a b c, less a b = false → less b c = false → less a c = false) :
    (∀ l : List T, BinaryHeap.Reachable less l → BinaryHeap.Inv less l)
    ∧ (∀ l : List T, IntervalHeap.Reachable less l → IntervalHeap.IInv less l) :=
  ⟨fun l hr => BinaryHeap.reachable_inv hasymm htrans hneg hr,
    fun l hr => IntervalHeap.ireachable_inv hasymm htrans hneg hr⟩

/-- Witness for C2 at the natural order on `Nat`. -/
theorem invariant_preservation_witness :
    (∀ a b : Nat, natLt a b = true → natLt b a = false)
    ∧ ((∀ l : List Nat, BinaryHeap.Reachable natLt l → BinaryHeap.Inv natLt l)
      ∧ (∀ l : List Nat, IntervalHeap.Reachable natLt l → IntervalHeap.IInv natLt l)) :=
  ⟨natLt_asymm, invariant_preservation natLt natLt_asymm natLt_trans natLt_negtrans⟩

/-- **C3**: heapifying an arbitrary sequence of `N` elements and popping `N`
times yields exactly the input multiset, non-decreasing via `pop`/`pop_min`
and non-increasing via `pop_max`. -/
theorem heap_sort_round_trip {T : Type} [Inhabited T] (less : T → T → Bool)
    (hasymm : ∀ a b, less a b = true → less b a = false)
    (htrans : ∀ a b c, less a b = true → less b c = true → less a c = true)
    (hneg : ∀ a b c, less a b = false → less b c = false → less a c = false)
    (l₀ : List T) :
    (((BinaryHeap.popSeq less l₀.length (BinaryHeap.heapify less l₀) : List T)
          : Multiset T) = (l₀ : Multiset T)
      ∧ List.Sorted (fun a b => less b a = false)
          (BinaryHeap.popSeq less l₀.length (BinaryHeap.heapify less l₀)))
    ∧ (((IntervalHeap.popSeqMin less l₀.length (IntervalHeap.heapify less l₀) : List T)
          : Multiset T) = (l₀ : Multiset T)
      ∧ List.Sorted (fun a b => less b a = false)
          (IntervalHeap.popSeqMin less l₀.length (IntervalHeap.heapify less l₀)))
    ∧ (((IntervalHeap.popSeqMax less l₀.length (IntervalHeap.heapify less l₀) : List T)
          : Multiset T) = (l₀ : Multiset T)
      ∧ List.Sorted (fun a b => less a b = false)
          (IntervalHeap.popSeqMax less l₀.length (IntervalHeap.heapify less l₀))) := by
  refine ⟨⟨?_, ?_⟩, ⟨?_, ?_⟩, ⟨?_, ?_⟩⟩
  · rw [BinaryHeap.popSeq_multiset _ _ (le_of_eq (BinaryHeap.heapify_length l₀)),
      BinaryHeap.heapify_multiset]
  · exact BinaryHeap.popSeq_sorted hasymm htrans hneg _ _
      (BinaryHeap.heapify_inv hasymm htrans hneg l₀)
  · rw [IntervalHeap.popSeqMin_multiset _ _ (le_of_eq (IntervalHeap.iheapify_length l₀)),
      IntervalHeap.iheapify_multiset]
  · exact IntervalHeap.popSeqMin_sorted hasymm htrans hneg _ _
      (IntervalHeap.iheapify_inv hasymm htrans hneg l₀)
  · rw [IntervalHeap.popSeqMax_multiset _ _ (le_of_eq (IntervalHeap.iheapify_length l₀)),
      IntervalHeap.iheapify_multiset]
  · exact IntervalHeap.popSeqMax_sorted hasymm htrans hneg _ _
      (IntervalHeap.iheapify_inv hasymm htrans hneg l₀)

/-- Witness for C3 at the natural order on the concrete input
`[5,3,8,1,9,2]`. -/
theorem heap_sort_round_trip_witness :
    (∀ a b : Nat, natLt a b = true → natLt b a = false)
    ∧ (((BinaryHeap.popSeq natLt ([5, 3, 8, 1, 9, 2] : List Nat).length
          (BinaryHeap.heapify natLt [5, 3, 8, 1, 9, 2]) : List Nat) : Multiset Nat)
        = (([5, 3, 8, 1, 9, 2] : List Nat) : Multiset Nat)
      ∧ List.Sorted (fun a b => natLt b a = false)
          (BinaryHeap.popSeq natLt ([5, 3, 8, 1, 9, 2] : List Nat).length
            (BinaryHeap.heapify natLt [5, 3, 8, 1, 9, 2]))) :=
  ⟨natLt_asymm,
    (heap_sort_round_trip natLt natLt_asymm natLt_trans natLt_negtrans
      [5, 3, 8, 1, 9, 2]).1⟩

/-- The strict weak order `a/2 < b/2` on `Nat` (elements with equal halves
are tied but distinguishable); used to refute the original C4. -/
def ltt (a b : Nat) : Bool := decide (a / 2 < b / 2)

/-- **C4 counterexample**: under the strict-weak-order comparator `a/2 < b/2`
the two-element heap `[0, 0]` is a heapify fixed point, yet `replace_top 1`
and `pop` followed by `push 1` produce observably different states: the
next reported top differs.  So fusion equivalence fails for comparators
with ties. -/
theorem fusion_counterexample :
    (∀ a b, ltt a b = true → ltt b a = false)
    ∧ (∀ a b c, ltt a b = true → ltt b c = true → ltt a c = true)
    ∧ (∀ a b c, ltt a b = false → ltt b c = false → ltt a c = false)
    ∧ BinaryHeap.heapify ltt [0, 0] = [0, 0]
    ∧ BinaryHeap.top? (BinaryHeap.replace_top ltt [0, 0] 1)
      ≠ BinaryHeap.top? (BinaryHeap.push ltt (BinaryHeap.pop ltt [0, 0]) 1) := by
  refine ⟨?_, ?_, ?_, ?_, ?_⟩
  · intro a b h
    simp only [ltt, decide_eq_true_eq] at h
    simp only [ltt, decide_eq_false_iff_not]
    omega
  · intro a b c h1 h2
    simp only [ltt, decide_eq_true_eq] at h1 h2 ⊢
    omega
  · intro a b c h1 h2
    simp only [ltt, decide_eq_false_iff_not] at h1 h2 ⊢
    omega
  · simp [BinaryHeap.heapify, BinaryHeap.heapifyFrom, BinaryHeap.bubble_down,
      BinaryHeap.bubbleDownGo, BinaryHeap.pickChild, BinaryHeap.get_left, ltt,
      List.getI, List.getD]
  · have h1 : BinaryHeap.replace_top ltt [0, 0] 1 = [1, 0] := by
      simp [BinaryHeap.replace_top, BinaryHeap.bubble_down, BinaryHeap.bubbleDownGo,
        BinaryHeap.pickChild, BinaryHeap.get_left, ltt, List.getI, List.getD]
    have h2 : BinaryHeap.pop ltt [0, 0] = [0] := by
      simp [BinaryHeap.pop, BinaryHeap.move_hole_down, BinaryHeap.moveHoleDownGo,
        BinaryHeap.pickChild, BinaryHeap.get_left, BinaryHeap.bubble_up,
        BinaryHeap.bubbleUpGo, BinaryHeap.get_parent, ltt, List.getI, List.getD]
    have h3 : BinaryHeap.push ltt [0] 1 = [0, 1] := by
      simp [BinaryHeap.push, BinaryHeap.bubble_up, BinaryHeap.bubbleUpGo,
        BinaryHeap.get_parent, ltt, List.getI, List.getD]
    rw [h1, h2, h3]
    decide

/-- **C4 (amended)**: `replace_top v` (`replace_min v`, `replace_max v`)
always produces the same element multiset as popping then pushing `v`, for
any strict-weak-order comparator (ties included); the subsequent extreme
sequences additionally agree whenever incomparable elements are equal (an
antisymmetric strict weak order).  For comparators with ties the observable
sequences can differ (see the counterexample). -/
theorem fusion_amended {T : Type} [Inhabited T] (less : T → T → Bool)
    (hasymm : ∀ a b, less a b = true → less b a = false)
    (htrans : ∀ a b c, less a b = true → less b c = true → less a c = true)
    (hneg : ∀ a b c, less a b = false → less b c = false → less a c = false)
    (l : List T) (v : T) (hl : l ≠ []) :
    (((BinaryHeap.replace_top less l v : List T) : Multiset T)
        = ((BinaryHeap.push less (BinaryHeap.pop less l) v : List T) : Multiset T)
      ∧ ((∀ a b : T, less a b = false → less b a = false → a = b) →
        BinaryHeap.Inv less l → ∀ fuel,
        BinaryHeap.popSeq less fuel (BinaryHeap.replace_top less l v)
          = BinaryHeap.popSeq less fuel
            (BinaryHeap.push less (BinaryHeap.pop less l) v)))
    ∧ (((IntervalHeap.replace_min less l v : List T) : Multiset T)
        = ((IntervalHeap.push less (IntervalHeap.pop_min less l) v : List T) : Multiset T)
      ∧ ((∀ a b : T, less a b = false → less b a = false → a = b) →
        IntervalHeap.IInv less l → ∀ fuel,
        IntervalHeap.popSeqMin less fuel (IntervalHeap.replace_min less l v)
          = IntervalHeap.popSeqMin less fuel
            (IntervalHeap.push less (IntervalHeap.pop_min less l) v)
        ∧ IntervalHeap.popSeqMax less fuel (IntervalHeap.replace_min less l v)
          = IntervalHeap.popSeqMax less fuel
            (IntervalHeap.push less (IntervalHeap.pop_min less l) v)))
    ∧ (((IntervalHeap.replace_max less l v : List T) : Multiset T)
        = ((IntervalHeap.push less (IntervalHeap.pop_max less l) v : List T) : Multiset T)
      ∧ ((∀ a b : T, less a b = false → less b a = false → a = b) →
        IntervalHeap.IInv less l → ∀ fuel,
        IntervalHeap.popSeqMin less fuel (IntervalHeap.replace_max less l v)
          = IntervalHeap.popSeqMin less fuel
            (IntervalHeap.push less (IntervalHeap.pop_max less l) v)
        ∧ IntervalHeap.popSeqMax less fuel (IntervalHeap.replace_max less l v)
          = IntervalHeap.popSeqMax less fuel
            (IntervalHeap.push less (IntervalHeap.pop_max less l) v))) := by
  refine ⟨⟨BinaryHeap.fusion_multiset l v hl, ?_⟩,
    ⟨IntervalHeap.ifusion_min_multiset l v hl, ?_⟩,
    ⟨IntervalHeap.ifusion_max_multiset l v hl, ?_⟩⟩
  · intro hanti hInv fuel
    exact BinaryHeap.popSeq_congr hasymm htrans hneg hanti fuel _ _
      (BinaryHeap.replace_top_inv hasymm htrans hneg hInv hl v)
      (BinaryHeap.push_inv hasymm htrans hneg
        (BinaryHeap.pop_inv hasymm htrans hneg hInv hl) v)
      (BinaryHeap.fusion_multiset l v hl)
  · intro hanti hInv fuel
    constructor
    · exact IntervalHeap.popSeqMin_congr hasymm htrans hneg hanti fuel _ _
        (IntervalHeap.replace_min_inv hasymm htrans hneg hInv v)
        (IntervalHeap.ipush_inv hasymm htrans hneg
          (IntervalHeap.pop_min_inv hasymm htrans hneg hInv) v)
        (IntervalHeap.ifusion_min_multiset l v hl)
    · exact IntervalHeap.popSeqMax_congr hasymm htrans hneg hanti fuel _ _
        (IntervalHeap.replace_min_inv hasymm htrans hneg hInv v)
        (IntervalHeap.ipush_inv hasymm htrans hneg
          (IntervalHeap.pop_min_inv hasymm htrans hneg hInv) v)
        (IntervalHeap.ifusion_min_multiset l v hl)
  · intro hanti hInv fuel
    constructor
    · exact IntervalHeap.popSeqMin_congr hasymm htrans hneg hanti fuel _ _
        (IntervalHeap.replace_max_inv hasymm htrans hneg hInv v)
        (IntervalHeap.ipush_inv hasymm htrans hneg
          (IntervalHeap.pop_max_inv hasymm htrans hneg hInv) v)
        (IntervalHeap.ifusion_max_multiset l v hl)
    · exact IntervalHeap.popSeqMax_congr hasymm htrans hneg hanti fuel _ _
        (IntervalHeap.replace_max_inv hasymm htrans hneg hInv v)
        (IntervalHeap.ipush_inv hasymm htrans hneg
          (IntervalHeap.pop_max_inv hasymm htrans hneg hInv) v)
        (IntervalHeap.ifusion_max_multiset l v hl)

/-- Witness for the amended C4 at the natural order on `Nat`. -/
theorem fusion_amended_witness :
    ([2, 1] : List Nat) ≠ []
    ∧ ((BinaryHeap.replace_top natLt [2, 1] 3 : List Nat) : Multiset Nat)
      = ((BinaryHeap.push natLt (BinaryHeap.pop natLt [2, 1]) 3 : List Nat)
          : Multiset Nat) :=
  ⟨by decide,
    (fusion_amended natLt natLt_asymm natLt_trans natLt_negtrans
      [2, 1] 3 (by decide)).1.1⟩

/-- **C5**: every operation carrying `assert(!empty())` — `top`/`min`,
`pop`, `replace_top` of `BinaryHeap` and `min`, `max`, `pop_min`,
`pop_max`, `replace_min`, `replace_max` of `IntervalHeap` — is modelled
with the assertion and every access to the backing sequence
bounds-checked (`none` = a fired assertion or an out-of-bounds access,
in the source's statement and short-circuit order).  On the empty heap
each model fails; on a non-empty heap each model succeeds — so the
failing branch is never taken and no access is out of bounds — and
returns the plain result. -/
theorem empty_assertions {T : Type} [Inhabited T] (less : T → T → Bool) :
    ∀ (l : List T) (v : T),
      (l = [] →
        BinaryHeap.topW l = none ∧ BinaryHeap.popW less l = none
        ∧ BinaryHeap.replaceTopW less l v = none
        ∧ IntervalHeap.minW l = none ∧ IntervalHeap.maxW l = none
        ∧ IntervalHeap.popMinW less l = none
        ∧ IntervalHeap.popMaxW less l = none
        ∧ IntervalHeap.replaceMinW less l v = none
        ∧ IntervalHeap.replaceMaxW less l v = none)
      ∧ (l ≠ [] →
        BinaryHeap.topW l = some (l.getI 0)
        ∧ BinaryHeap.popW less l = some (BinaryHeap.pop less l)
        ∧ BinaryHeap.replaceTopW less l v = some (BinaryHeap.replace_top less l v)
        ∧ IntervalHeap.minW l = some (l.getI 0)
        ∧ IntervalHeap.maxW l = some (IntervalHeap.maxVal l)
        ∧ IntervalHeap.popMinW less l = some (IntervalHeap.pop_min less l)
        ∧ IntervalHeap.popMaxW less l = some (IntervalHeap.pop_max less l)
        ∧ IntervalHeap.replaceMinW less l v = some (IntervalHeap.replace_min less l v)
        ∧ IntervalHeap.replaceMaxW less l v = some (IntervalHeap.replace_max less l v)) := by
  intro l v
  constructor
  · intro hnil
    subst hnil
    refine ⟨rfl, rfl, rfl, rfl, rfl, rfl, rfl, rfl, rfl⟩
  · intro hne
    have hpos : 0 < l.length := List.length_pos.mpr hne
    refine ⟨BinaryHeap.topW_eq l hne, @BinaryHeap.popW_eq T _ less l hne,
      @BinaryHeap.replaceTopW_eq T _ less l v hne, ?_, ?_,
      @IntervalHeap.popMinW_eq T _ less l hne,
      @IntervalHeap.popMaxW_eq T _ less l hne,
      @IntervalHeap.replaceMinW_eq T _ less l v hne,
      @IntervalHeap.replaceMaxW_eq T _ less l v hne⟩
    · unfold IntervalHeap.minW
      rw [if_neg (by omega), List.getElem?_eq_getElem hpos,
        List.getI_eq_getElem _ hpos]
    · unfold IntervalHeap.maxW IntervalHeap.maxVal
      by_cases h1 : 1 < l.length
      · rw [if_neg (by omega), if_pos h1, if_pos h1,
          List.getElem?_eq_getElem h1, List.getI_eq_getElem _ h1]
      · rw [if_neg (by omega), if_neg h1, if_neg h1,
          List.getElem?_eq_getElem hpos, List.getI_eq_getElem _ hpos]

/-- Witness for C5: on the empty heap `pop`'s checked model fails; on the
concrete heap `[2, 1]` every checked model succeeds with the plain
result. -/
theorem empty_assertions_witness :
    (BinaryHeap.popW natLt ([] : List Nat) = none)
    ∧ ([2, 1] : List Nat) ≠ []
    ∧ (BinaryHeap.topW ([2, 1] : List Nat) = some (([2, 1] : List Nat).getI 0)
      ∧ BinaryHeap.popW natLt [2, 1] = some (BinaryHeap.pop natLt [2, 1])
      ∧ BinaryHeap.replaceTopW natLt [2, 1] 7
        = some (BinaryHeap.replace_top natLt [2, 1] 7)
      ∧ IntervalHeap.minW ([2, 1] : List Nat) = some (([2, 1] : List Nat).getI 0)
      ∧ IntervalHeap.maxW ([2, 1] : List Nat) = some (IntervalHeap.maxVal [2, 1])
      ∧ IntervalHeap.popMinW natLt [2, 1] = some (IntervalHeap.pop_min natLt [2, 1])
      ∧ IntervalHeap.popMaxW natLt [2, 1] = some (IntervalHeap.pop_max natLt [2, 1])
      ∧ IntervalHeap.replaceMinW natLt [2, 1] 7
        = some (IntervalHeap.replace_min natLt [2, 1] 7)
      ∧ IntervalHeap.replaceMaxW natLt [2, 1] 7
        = some (IntervalHeap.replace_max natLt [2, 1] 7)) :=
  ⟨((empty_assertions natLt [] 7).1 rfl).2.1, by decide,
    (empty_assertions natLt [2, 1] 7).2 (by decide)⟩

/-- Witness for C8 on the valid heap `[1, 5]` with pushed element `3`. -/
theorem push_ascent_exclusive_witness :
    IntervalHeap.IInv natLt [1, 5]
    ∧ ¬((1 < (IntervalHeap.reconcileStep natLt ([1, 5] ++ [3]) 2 3).2
        ∧ natLt 3 ((IntervalHeap.reconcileStep natLt ([1, 5] ++ [3]) 2 3).1.getI
            (IntervalHeap.get_parent
              (IntervalHeap.reconcileStep natLt ([1, 5] ++ [3]) 2 3).2)) = true)
      ∧ (1 < (IntervalHeap.reconcileStep natLt ([1, 5] ++ [3]) 2 3).2
        ∧ natLt ((IntervalHeap.reconcileStep natLt ([1, 5] ++ [3]) 2 3).1.getI
            (IntervalHeap.get_parent
              (IntervalHeap.reconcileStep natLt ([1, 5] ++ [3]) 2 3).2 + 1)) 3 = true)) :=
  ⟨IntervalHeap.IInv_pair (by decide),
    IntervalHeap.push_ascent_exclusive natLt_asymm natLt_trans
      (IntervalHeap.IInv_pair (by decide)) 3⟩

/-- **C9**: `push` never indexes the backing sequence out of bounds even
though the parent of the root wraps in unsigned arithmetic: the checked
wraparound models succeed and agree with the plain ones. -/
theorem push_no_underflow {T : Type} [Inhabited T] (less : T → T → Bool)
    (l : List T) (v : T) (hlen : l.length + 1 ≤ 2 ^ 64) :
    BinaryHeap.pushW less l v = some (BinaryHeap.push less l v)
    ∧ IntervalHeap.pushW less l v = some (IntervalHeap.push less l v) :=
  ⟨BinaryHeap.pushW_eq l v hlen, IntervalHeap.ipushW_eq l v hlen⟩

/-- Witness for C9 at a concrete heap. -/
theorem push_no_underflow_witness :
    ([4, 7, 6] : List Nat).length + 1 ≤ 2 ^ 64
    ∧ (BinaryHeap.pushW natLt [4, 7, 6] 5 = some (BinaryHeap.push natLt [4, 7, 6] 5)
      ∧ IntervalHeap.pushW natLt [4, 7, 6] 5
        = some (IntervalHeap.push natLt [4, 7, 6] 5)) :=
  ⟨by decide, push_no_underflow natLt [4, 7, 6] 5 (by decide)⟩

/-- Witness for C10 on the valid interval heap `[1, 5, 2]`: the `pop_max`
call-site precondition. -/
theorem bubble_down_preconditions_witness :
    (3 ≤ ([1, 5, 2] : List Nat).length)
    ∧ natLt ((([1, 5, 2] : List Nat).set 1
          (([1, 5, 2] : List Nat).getI (([1, 5, 2] : List Nat).length - 1))).dropLast.getI 1)
        ((([1, 5, 2] : List Nat).set 1
          (([1, 5, 2] : List Nat).getI (([1, 5, 2] : List Nat).length - 1))).dropLast.getI 0)
      = false :=
  ⟨by decide,
    (IntervalHeap.bubble_down_preconditions natLt_asymm natLt_trans natLt_negtrans
      iinv_example 7).2.1 (by decide)⟩

end Dsa
